import Mathlib

set_option maxRecDepth 100000
set_option maxHeartbeats 1000000

/-!
# Verification of the netaddr IP-prefix container library

This file gives a shallow embedding of the netaddr Go library (IP sets backed
by a disjoint-CIDR binary tree, IP maps backed by a radix trie) and proves or
refutes the frozen specification claims about it.

Addresses are modelled as big-endian lists of bytes (each a `Nat < 256`),
exactly as Go's `net.IP` byte slices.  Masks are byte lists as in `net.IPMask`.
All functions are translated from the Go source (`net_utils.go`, `iptree.go`,
`ipset.go`, `ipmap.go`) together with the parts of Go's standard `net` package
that they call (`IPNet.Contains`, `IP.Equal`, `IPMask.Size`, `CIDRMask`,
`IP.To4`, `bytes.Compare`).
-/

namespace Netaddr

/-! ## Byte-level primitives from Go's standard library -/

/-- Big-endian numeric value of a byte string. -/
def ipVal (l : List Nat) : Nat := l.foldl (fun a b => 256 * a + b) 0

/-- `bytes.Compare`: lexicographic comparison of byte slices. -/
def bytesCmp : List Nat → List Nat → Ordering
  | [], [] => .eq
  | [], _ :: _ => .lt
  | _ :: _, [] => .gt
  | a :: as, b :: bs => if a < b then .lt else if b < a then .gt else bytesCmp as bs

/-- The inner loop of Go's `simpleMaskLength`: count the leading one bits of a
byte by repeatedly shifting left (8-bit arithmetic); returns the count and the
final shifted byte.  The fuel argument is 8 at every call site, which bounds
the Go loop for any byte value. -/
def cloAux : Nat → Nat → Nat × Nat
  | 0, v => (0, v)
  | fuel + 1, v =>
    if v &&& 128 ≠ 0 then
      let p := cloAux fuel ((v * 2) % 256)
      (p.1 + 1, p.2)
    else (0, v)

/-- Go `net.simpleMaskLength`: number of leading one bits of a mask if the mask
is of canonical ones-then-zeros form, otherwise `none` (Go returns -1). -/
def simpleMaskLength : List Nat → Option Nat
  | [] => some 0
  | v :: rest =>
    if v = 255 then (simpleMaskLength rest).map (· + 8)
    else
      let p := cloAux 8 v
      if p.2 ≠ 0 then none
      else if rest.all (fun b => b = 0) then some p.1 else none

/-- Go `net.IPMask.Size`: `(ones, bits)` for a canonical mask, `(0, 0)`
otherwise. -/
def maskSize (m : List Nat) : Nat × Nat :=
  match simpleMaskLength m with
  | none => (0, 0)
  | some o => (o, 8 * m.length)

/-- Byte production of Go `net.CIDRMask`: one byte per step, 255 while at
least 8 ones remain, then the partial byte `^(0xff >> n)`, then zeros. -/
def cidrMaskAux : Nat → Nat → List Nat
  | _, 0 => []
  | o, l + 1 =>
    if 8 ≤ o then 255 :: cidrMaskAux (o - 8) l
    else (255 - (255 >>> o)) :: cidrMaskAux 0 l

/-- Go `net.CIDRMask ones bits`.  Returns `[]` (Go `nil`) unless `bits` is 32
or 128 and `0 ≤ ones ≤ bits`.  `ones` is an `Int` because Go call sites pass
`ones - 1`, which can be negative. -/
def cidrMask (ones : Int) (bits : Nat) : List Nat :=
  if bits ≠ 32 ∧ bits ≠ 128 then []
  else if ones < 0 ∨ (bits : Int) < ones then []
  else cidrMaskAux ones.toNat (bits / 8)

/-- Go `net.IP.To4`: the 4-byte form of an IPv4 address (either already
4 bytes, or a 16-byte v4-mapped address), otherwise `none` (Go `nil`). -/
def to4 (ip : List Nat) : Option (List Nat) :=
  if ip.length = 4 then some ip
  else if ip.length = 16 ∧ ip.take 10 = List.replicate 10 0 ∧
      ip.getD 10 0 = 255 ∧ ip.getD 11 0 = 255 then some (ip.drop 12)
  else none

/-- The 12-byte v4-in-v6 marker used by Go's `net.IP.Equal`. -/
def v4mapped : List Nat := [0, 0, 0, 0, 0, 0, 0, 0, 0, 0, 255, 255]

/-- Go `net.IP.Equal`. -/
def ipEqual (a b : List Nat) : Bool :=
  if a.length = b.length then a == b
  else if a.length = 4 ∧ b.length = 16 then b.take 12 == v4mapped && b.drop 12 == a
  else if a.length = 16 ∧ b.length = 4 then a.take 12 == v4mapped && a.drop 12 == b
  else false

/-- A CIDR as stored by the library: Go's `net.IPNet`. -/
structure IPNet where
  ip : List Nat
  mask : List Nat
deriving DecidableEq, Repr

/-- Go `net.networkNumberAndMask`: normalizes the network address to 4 bytes
when it is v4 (possibly v4-mapped), and slices a 16-byte mask down to 4 bytes
for a v4 address.  `none` models Go's `nil, nil` return. -/
def networkNumberAndMask (n : IPNet) : Option (List Nat × List Nat) :=
  let ip? : Option (List Nat) :=
    match to4 n.ip with
    | some x => some x
    | none => if n.ip.length = 16 then some n.ip else none
  match ip? with
  | none => none
  | some ip =>
    if n.mask.length = 4 then
      if ip.length ≠ 4 then none else some (ip, n.mask)
    else if n.mask.length = 16 then
      if ip.length = 4 then some (ip, n.mask.drop 12) else some (ip, n.mask)
    else none

/-- Go `net.IPNet.Contains`.  The masked bytes of the network address and of
the query must agree (Go loops over indices; on the canonical inputs used by
this library the mask has the same length as both addresses, so the zipWith
formulation coincides with the Go loop). -/
def ipnetContains (n : IPNet) (ip : List Nat) : Bool :=
  let nnm := (networkNumberAndMask n).getD ([], [])
  let ip := (to4 ip).getD ip
  if nnm.1.length ≠ ip.length then false
  else
    List.zipWith (fun a b => a &&& b) nnm.1 nnm.2 ==
      List.zipWith (fun a b => a &&& b) ip nnm.2

/-! ## `net_utils.go` -/

/-- `containsNet` returns true if net2 is a subset of net1 (including
equality).  Translated from `net_utils.go`. -/
def containsNet (net1 net2 : IPNet) : Bool :=
  if net1.ip.length ≠ net2.ip.length then false
  else if !ipnetContains net1 net2.ip then false
  else if !ipEqual net1.ip net2.ip then true
  else bytesCmp net1.mask net2.mask ≠ .gt

/-- `divideNetInHalf`: the two equally sized halves of a net.  The second
half's address is rebuilt byte by byte from a zero IP exactly as in the Go
loop (the bytes beyond `bits/8` keep the zero of the freshly parsed zero
address). -/
def divideNetInHalf (n : IPNet) : IPNet × IPNet :=
  let ob := maskSize n.mask
  let mask := cidrMask ((ob.1 : Int) + 1) ob.2
  let w := if ob.2 = 32 then 4 else 16
  let ip := (List.range w).map fun i =>
    if i < ob.2 / 8 then
      (mask.getD i 0) &&& ((n.ip.getD i 0) ||| ((mask.getD i 0) ^^^ (n.mask.getD i 0)))
    else 0
  (⟨n.ip, mask⟩, ⟨ip, mask⟩)

/-- `canCombineNets`: combine two networks into one CIDR of twice the size
when possible.  Go returns `(ok, newNet)`; callers read `newNet` only when
`ok` is true, so the pair is modelled as an `Option`. -/
def canCombineNets (a b : IPNet) : Option IPNet :=
  if ipEqual a.ip b.ip then none
  else if bytesCmp a.mask b.mask ≠ .eq then none
  else
    let ob := maskSize a.mask
    let newNet : IPNet := ⟨a.ip, cidrMask ((ob.1 : Int) - 1) ob.2⟩
    if ipnetContains newNet b.ip then some newNet else none

/-- `ipToNet`: the /32 or /128 host network of an address. -/
def ipToNet (ip : List Nat) : IPNet :=
  ⟨ip, cidrMask (8 * ip.length) (8 * ip.length)⟩

/-- The carry loop of `incrementIP`, from the last byte towards the first:
returns the incremented bytes together with the outgoing carry. -/
def incBytes : List Nat → List Nat × Bool
  | [] => ([], true)
  | b :: rest =>
    let p := incBytes rest
    if p.2 then
      let b' := (b + 1) % 256
      (b' :: p.1, b' = 0)
    else (b :: p.1, false)

/-- `incrementIP`: the given IP + 1 (bytes wrap mod 256 with carry).  The Go
function writes into a fresh zero address of 4 bytes for v4 and 16 bytes
otherwise, so a shorter-than-16 non-v4 input keeps trailing zero bytes. -/
def incrementIP (ip : List Nat) : List Nat :=
  let res := (incBytes ip).1
  if ip.length = 4 then res else res ++ List.replicate (16 - ip.length) 0

/-- Successive addresses starting at `ip`. -/
def expandFrom : Nat → List Nat → List (List Nat)
  | 0, _ => []
  | k + 1, ip => ip :: expandFrom k (incrementIP ip)

/-- `expandNet`: all of the IPs in the given net up to the given limit,
capped at `2^30` or the net's size, whichever is smaller. -/
def expandNet (n : IPNet) (limit : Nat) : List (List Nat) :=
  let ob := maskSize n.mask
  let mx := if ob.2 - ob.1 < 30 then 2 ^ (ob.2 - ob.1) else 2 ^ 30
  let size := if mx < limit then mx else limit
  expandFrom size n.ip

/-- The recursion of `netDifference`, fuelled; every recursive call halves the
first argument, so a fuel of `8 * width + 1` never runs out (the fuel-0 branch
is unreachable at the wrapper's call sites). -/
def netDifferenceF : Nat → IPNet → IPNet → List IPNet
  | 0, _, _ => []
  | fuel + 1, a, b =>
    if a.ip.length ≠ b.ip.length then [a]
    else if containsNet b a then []
    else if !containsNet a b then [a]
    else
      let fs := divideNetInHalf a
      if bytesCmp b.ip fs.2.ip = .lt then fs.2 :: netDifferenceF fuel fs.1 b
      else fs.1 :: netDifferenceF fuel fs.2 b

/-- `netDifference`: the set difference a - b as a list of CIDRs, largest to
smallest, not sorted by network IP. -/
def netDifference (a b : IPNet) : List IPNet :=
  netDifferenceF (8 * a.ip.length + 1) a b

/-! ## `iptree.go` — the disjoint-CIDR tree

The Go tree is a pointer structure whose `up` links are kept consistent with
the `left`/`right` links by `setLeft`/`setRight`.  The functional model below
is the value-level reading of the same code: rebuilding a node is Go's
`setLeft`/`setRight`, and the in-order predecessor/successor of a node
(`prev`/`next`, which Go finds by walking `up` links) is computed from the
root.  A separate heap model (`HT` below) keeps the `up` pointers explicit in
order to exhibit divergences of the pointer code from this reading. -/

inductive ipTree where
  | nil : ipTree
  | node (left : ipTree) (net : IPNet) (right : ipTree) : ipTree
deriving DecidableEq, Repr

namespace ipTree

/-- `trimLeft`: trim CIDRs contained in `top` out of a left subtree; on a
trimmed node only the right child can still hold such CIDRs. -/
def trimLeft : ipTree → IPNet → ipTree
  | nil, _ => nil
  | node l m r, top =>
    if containsNet top m then trimLeft l top
    else node l m (trimLeft r top)

/-- `trimRight`: mirror image of `trimLeft`. -/
def trimRight : ipTree → IPNet → ipTree
  | nil, _ => nil
  | node l m r, top =>
    if containsNet top m then trimRight r top
    else node (trimRight l top) m r

/-- `insert`: add a CIDR to the tree unless an existing node already contains
it; a new node containing the current root replaces it and trims both
subtrees.  Does not combine adjacent CIDRs (that is `IPSet.InsertNet`'s
loop). -/
def insert : ipTree → IPNet → ipTree
  | nil, n => node nil n nil
  | node l m r, n =>
    if containsNet m n then node l m r
    else if containsNet n m then node (trimLeft l n) n (trimRight r n)
    else if bytesCmp n.ip m.ip = .lt then node (insert l n) m r
    else node l m (insert r n)

/-- `contains`: true if some node's CIDR contains the query. -/
def contains : ipTree → IPNet → Bool
  | nil, _ => false
  | node l m r, n =>
    if containsNet m n then true
    else if containsNet n m then false
    else if bytesCmp n.ip m.ip = .lt then contains l n
    else contains r n

/-- In-order list of the stored CIDRs (`walk`). -/
def walkNets : ipTree → List IPNet
  | nil => []
  | node l m r => walkNets l ++ m :: walkNets r

/-- The first (left-most) CIDR of the tree. -/
def firstNet : ipTree → Option IPNet
  | nil => none
  | node nil m _ => some m
  | node (node a b c) _ _ => firstNet (node a b c)

/-- Remove the left-most node (the shape `next.remove()` takes inside
`remove`, since an in-order successor has no left child). -/
def removeLeftmost : ipTree → ipTree
  | nil => nil
  | node nil _ r => r
  | node (node a b c) m r => node (removeLeftmost (node a b c)) m r

/-- `remove`: splice the root node out of its subtree.  With two children the
root takes its in-order successor's net and the successor is removed from the
right subtree, exactly as in the Go code. -/
def removeRoot : ipTree → ipTree
  | nil => nil
  | node nil _ r => r
  | node l _ nil => l
  | node l m (node rl rm rr) =>
    node l ((firstNet (node rl rm rr)).getD m) (removeLeftmost (node rl rm rr))

/-- `removeNet`: remove all of the IPs in the given net from the set. -/
def removeNet : ipTree → IPNet → ipTree
  | nil, _ => nil
  | node l m r, net =>
    let l' := if bytesCmp net.ip m.ip = .lt then removeNet l net else l
    let r' := if (netDifference net m).any (fun n => bytesCmp m.ip n.ip = .lt)
      then removeNet r net else r
    if containsNet net m then removeRoot (node l' m r')
    else if containsNet m net then
      let diff := netDifference m net
      (diff.drop 1).foldl (fun t n => insert t n) (node l' (diff.headD m) r')
    else node l' m r'

/-- Number of nodes (`numNodes`). -/
def numNodes : ipTree → Nat
  | nil => 0
  | node l _ r => 1 + numNodes l + numNodes r

/-- Number of addresses covered (`size`, as a `Nat` rather than `big.Int`). -/
def sizeN : ipTree → Nat
  | nil => 0
  | node l m r =>
    2 ^ ((maskSize m.mask).2 - (maskSize m.mask).1) + sizeN l + sizeN r

end ipTree

/-! ## `ipset.go` -/

/-- An IPSet wraps a disjoint-CIDR tree. -/
structure IPSet where
  tree : ipTree
deriving DecidableEq, Repr

/-- Whether `insert` would leave the tree unchanged because an existing node
already contains `n`.  This is the Go loop's break test
`me.tree != newNode && newNode.up == nil` (the fresh node was not attached),
read off along the same search path `insert` takes. -/
def covered : ipTree → IPNet → Bool
  | .nil, _ => false
  | .node l m r, n =>
    if containsNet m n then true
    else if containsNet n m then false
    else if bytesCmp n.ip m.ip = .lt then covered l n
    else covered r n

/-- In-order neighbors of the element `n` of the list `l` of walked nets: the
functional reading of `newNode.prev()` and `newNode.next()` (which Go computes
through the `up` links). -/
def neighborsIn (l : List IPNet) (n : IPNet) : Option IPNet × Option IPNet :=
  match l.findIdx? (fun x => x = n) with
  | none => (none, none)
  | some i => (if i = 0 then none else l.get? (i - 1), l.get? (i + 1))

/-- The combining loop of `IPSet.InsertNet`: insert the net, then repeatedly
try to combine it with its in-order predecessor and successor, reinserting the
combined net.  Each combination shortens the mask by one, so the fuel passed
by `IPSet.insertNet` never runs out. -/
def insertNetLoop : Nat → ipTree → IPNet → ipTree
  | 0, t, _ => t
  | fuel + 1, t, newNet =>
    let t' := t.insert newNet
    if covered t newNet then t'
    else
      let pn := neighborsIn t'.walkNets newNet
      let n1 := match pn.1 with
        | some p => (canCombineNets p newNet).getD newNet
        | none => newNet
      let n2 := match pn.2 with
        | some nx => (canCombineNets n1 nx).getD n1
        | none => n1
      if n2 = newNet then t' else insertNetLoop fuel t' n2

/-- `IPSet.InsertNet`; a `nil` net (`none`) is ignored. -/
def IPSet.insertNet (s : IPSet) : Option IPNet → IPSet
  | none => s
  | some n => ⟨insertNetLoop ((maskSize n.mask).1 + 2) s.tree n⟩

/-- `IPSet.RemoveNet`; a `nil` net (`none`) is ignored. -/
def IPSet.removeNet (s : IPSet) : Option IPNet → IPSet
  | none => s
  | some n => ⟨s.tree.removeNet n⟩

/-- `IPSet.ContainsNet`; a `nil` receiver or a `nil` net yields false. -/
def IPSet.containsNet : Option IPSet → Option IPNet → Bool
  | none, _ => false
  | _, none => false
  | some s, some n => s.tree.contains n

/-- `IPSet.Insert`: insert a single IP as a host net. -/
def IPSet.insertIP (s : IPSet) (ip : List Nat) : IPSet :=
  s.insertNet (some (ipToNet ip))

/-- `IPSet.Remove`: remove a single IP as a host net. -/
def IPSet.removeIP (s : IPSet) (ip : List Nat) : IPSet :=
  s.removeNet (some (ipToNet ip))

/-- `IPSet.Contains`: membership of a single IP as a host net. -/
def IPSet.containsIP (s : Option IPSet) (ip : List Nat) : Bool :=
  IPSet.containsNet s (some (ipToNet ip))

/-- `IPSet.Union`: walk both trees and insert every stored net into a fresh
set. -/
def IPSet.union (a b : IPSet) : IPSet :=
  (b.tree.walkNets).foldl (fun s n => s.insertNet (some n))
    ((a.tree.walkNets).foldl (fun s n => s.insertNet (some n)) ⟨.nil⟩)

/-- `IPSet.Difference`: insert `a`'s nets into a fresh set, then remove `b`'s
nets from it. -/
def IPSet.difference (a b : IPSet) : IPSet :=
  (b.tree.walkNets).foldl (fun s n => s.removeNet (some n))
    ((a.tree.walkNets).foldl (fun s n => s.insertNet (some n)) ⟨.nil⟩)

/-- `IPSet.GetIPs`: iterate the stored nets in order (`first`/`next`),
expanding each net up to the remaining limit; a limit of 0 means
`math.MaxInt`. -/
def IPSet.getIPs (s : IPSet) (limit : Nat) : List (List Nat) :=
  let lim := if limit = 0 then 2 ^ 63 - 1 else limit
  s.tree.walkNets.foldl (fun ips n => ips ++ expandNet n (lim - ips.length)) []

/-! ## Heap model of `iptree.go`

The Go tree is a mutable pointer structure; `next`/`prev` walk the `up`
pointers.  This model keeps every node in a store indexed by allocation
number, with `left`/`right`/`up` as optional indices, and translates each
method statement by statement (including the places where `removeNet` writes
the `left`/`right` fields directly rather than through `setLeft`/`setRight`).
All loops carry fuel; the concrete executions below use ample fuel. -/

structure HNode where
  net : IPNet
  left : Option Nat
  right : Option Nat
  up : Option Nat
deriving DecidableEq, Repr

instance : Inhabited HNode := ⟨⟨⟨[], []⟩, none, none, none⟩⟩

structure Heap where
  store : List (Nat × HNode)
  fresh : Nat
deriving DecidableEq, Repr

def Heap.get (h : Heap) (i : Nat) : Option HNode :=
  (h.store.find? (fun p => p.1 = i)).map (·.2)

def Heap.getter (h : Heap) (i : Nat) : HNode := (h.get i).getD default

def Heap.set (h : Heap) (i : Nat) (n : HNode) : Heap :=
  ⟨h.store.map (fun p => if p.1 = i then (i, n) else p), h.fresh⟩

def Heap.alloc (h : Heap) (net : IPNet) : Heap × Nat :=
  (⟨(h.fresh, ⟨net, none, none, none⟩) :: h.store, h.fresh + 1⟩, h.fresh)

/-- `setLeft`: clear the old left child's `up` if it points here, set the left
field, and point the new child's `up` here. -/
def hSetLeft (h : Heap) (me : Nat) (child : Option Nat) : Heap :=
  let h := match (h.getter me).left with
    | some l => if (h.getter l).up = some me then h.set l { h.getter l with up := none } else h
    | none => h
  let h := h.set me { h.getter me with left := child }
  match child with
  | some c => h.set c { h.getter c with up := some me }
  | none => h

/-- `setRight`: mirror of `hSetLeft`. -/
def hSetRight (h : Heap) (me : Nat) (child : Option Nat) : Heap :=
  let h := match (h.getter me).right with
    | some r => if (h.getter r).up = some me then h.set r { h.getter r with up := none } else h
    | none => h
  let h := h.set me { h.getter me with right := child }
  match child with
  | some c => h.set c { h.getter c with up := some me }
  | none => h

/-- `trimLeft` on the heap. -/
def hTrimLeft : Nat → Heap → Option Nat → Nat → Heap × Option Nat
  | 0, h, me, _ => (h, me)
  | fuel + 1, h, me?, top =>
    match me? with
    | none => (h, none)
    | some me =>
      if containsNet (h.getter top).net (h.getter me).net then
        hTrimLeft fuel h (h.getter me).left top
      else
        let p := hTrimLeft fuel h (h.getter me).right top
        (hSetRight p.1 me p.2, some me)

/-- `trimRight` on the heap. -/
def hTrimRight : Nat → Heap → Option Nat → Nat → Heap × Option Nat
  | 0, h, me, _ => (h, me)
  | fuel + 1, h, me?, top =>
    match me? with
    | none => (h, none)
    | some me =>
      if containsNet (h.getter top).net (h.getter me).net then
        hTrimRight fuel h (h.getter me).right top
      else
        let p := hTrimRight fuel h (h.getter me).left top
        (hSetLeft p.1 me p.2, some me)

/-- `insert` on the heap. -/
def hInsert : Nat → Heap → Option Nat → Nat → Heap × Option Nat
  | 0, h, me, _ => (h, me)
  | fuel + 1, h, me?, newId =>
    match me? with
    | none => (h, some newId)
    | some me =>
      if containsNet (h.getter me).net (h.getter newId).net then (h, some me)
      else if containsNet (h.getter newId).net (h.getter me).net then
        let p := hTrimLeft fuel h (h.getter me).left newId
        let h := hSetLeft p.1 newId p.2
        let q := hTrimRight fuel h (h.getter me).right newId
        (hSetRight q.1 newId q.2, some newId)
      else if bytesCmp (h.getter newId).net.ip (h.getter me).net.ip = .lt then
        let p := hInsert fuel h (h.getter me).left newId
        (hSetLeft p.1 me p.2, some me)
      else
        let p := hInsert fuel h (h.getter me).right newId
        (hSetRight p.1 me p.2, some me)

/-- The down-left descent inside `next` (and `first`). -/
def hLeftmost : Nat → Heap → Nat → Nat
  | 0, _, me => me
  | fuel + 1, h, me =>
    match (h.getter me).left with
    | some l => hLeftmost fuel h l
    | none => me

/-- The up-walk of `next`. -/
def hNextUp : Nat → Heap → Nat → Option Nat
  | 0, _, _ => none
  | fuel + 1, h, me =>
    match (h.getter me).up with
    | none => none
    | some u => if (h.getter u).left = some me then some u else hNextUp fuel h u

/-- `next`: in-order successor through the `up` pointers. -/
def hNext (fuel : Nat) (h : Heap) (me : Nat) : Option Nat :=
  match (h.getter me).right with
  | some r => some (hLeftmost fuel h r)
  | none => hNextUp fuel h me

/-- The down-right descent inside `prev`. -/
def hRightmost : Nat → Heap → Nat → Nat
  | 0, _, me => me
  | fuel + 1, h, me =>
    match (h.getter me).right with
    | some r => hRightmost fuel h r
    | none => me

/-- The up-walk of `prev`. -/
def hPrevUp : Nat → Heap → Nat → Option Nat
  | 0, _, _ => none
  | fuel + 1, h, me =>
    match (h.getter me).up with
    | none => none
    | some u => if (h.getter u).right = some me then some u else hPrevUp fuel h u

/-- `prev`: in-order predecessor through the `up` pointers. -/
def hPrev (fuel : Nat) (h : Heap) (me : Nat) : Option Nat :=
  match (h.getter me).left with
  | some l => some (hRightmost fuel h l)
  | none => hPrevUp fuel h me

/-- `replaceMe` (the closure inside `remove`): patch the parent's child link
if there is a parent, and return the new child.  When there is no parent the
new child's `up` pointer is left untouched, exactly as in the Go code. -/
def hReplaceMe (h : Heap) (me : Nat) (newChild : Option Nat) : Heap × Option Nat :=
  match (h.getter me).up with
  | some u =>
    if (h.getter u).left = some me then (hSetLeft h u newChild, newChild)
    else (hSetRight h u newChild, newChild)
  | none => (h, newChild)

/-- `remove` on the heap. -/
def hRemove : Nat → Heap → Nat → Heap × Option Nat
  | 0, h, me => (h, some me)
  | fuel + 1, h, me =>
    match (h.getter me).left, (h.getter me).right with
    | some _, some _ =>
      match hNext fuel h me with
      | some next =>
        let h := h.set me { h.getter me with net := (h.getter next).net }
        let p := hRemove fuel h next
        (p.1, some me)
      | none => (h, some me)
    | some l, none => hReplaceMe h me (some l)
    | none, some r => hReplaceMe h me (some r)
    | none, none => hReplaceMe h me none

/-- `removeNet` on the heap; note the direct writes to the `left`/`right`
fields (Go assigns `me.left = ...` without `setLeft` here). -/
def hRemoveNet : Nat → Heap → Option Nat → IPNet → Heap × Option Nat
  | 0, h, me, _ => (h, me)
  | fuel + 1, h, me?, net =>
    match me? with
    | none => (h, none)
    | some me =>
      let h :=
        if bytesCmp net.ip (h.getter me).net.ip = .lt then
          let p := hRemoveNet fuel h (h.getter me).left net
          p.1.set me { p.1.getter me with left := p.2 }
        else h
      let h :=
        if (netDifference net (h.getter me).net).any
            (fun n => bytesCmp (h.getter me).net.ip n.ip = .lt) then
          let p := hRemoveNet fuel h (h.getter me).right net
          p.1.set me { p.1.getter me with right := p.2 }
        else h
      if containsNet net (h.getter me).net then hRemove fuel h me
      else if containsNet (h.getter me).net net then
        let diff := netDifference (h.getter me).net net
        let h := h.set me { h.getter me with net := diff.headD (h.getter me).net }
        (diff.drop 1).foldl
          (fun (p : Heap × Option Nat) n =>
            let q := p.1.alloc n
            hInsert fuel q.1 p.2 q.2)
          (h, some me)
      else (h, some me)

/-- The combining loop of `IPSet.InsertNet` on the heap.  The `changed` test
models the Go pointer comparison `newNet == newNode.net` (the local variable
`newNet` is reassigned exactly when a combination succeeded). -/
def hInsertNetLoop : Nat → Heap → Option Nat → IPNet → Heap × Option Nat
  | 0, h, root, _ => (h, root)
  | fuel + 1, h, root, newNet =>
    let a := h.alloc newNet
    let p := hInsert fuel a.1 root a.2
    let h := p.1
    let root := p.2
    if root ≠ some a.2 ∧ (h.getter a.2).up = none then (h, root)
    else
      let c1 := match hPrev fuel h a.2 with
        | some prev => canCombineNets (h.getter prev).net newNet
        | none => none
      let n1 := c1.getD newNet
      let c2 := match hNext fuel h a.2 with
        | some next => canCombineNets n1 (h.getter next).net
        | none => none
      let n2 := c2.getD n1
      if c1 = none ∧ c2 = none then (h, root)
      else hInsertNetLoop fuel h root n2

/-- An IPSet over the heap model. -/
structure HSet where
  heap : Heap
  root : Option Nat
deriving DecidableEq, Repr

def HSet.empty : HSet := ⟨⟨[], 0⟩, none⟩

def hFuel : Nat := 1000

def HSet.insertNet (s : HSet) (n : IPNet) : HSet :=
  let p := hInsertNetLoop hFuel s.heap s.root n
  ⟨p.1, p.2⟩

def HSet.removeNet (s : HSet) (n : IPNet) : HSet :=
  let p := hRemoveNet hFuel s.heap s.root n
  ⟨p.1, p.2⟩

def HSet.insertIP (s : HSet) (ip : List Nat) : HSet := s.insertNet (ipToNet ip)

def HSet.removeIP (s : HSet) (ip : List Nat) : HSet := s.removeNet (ipToNet ip)

/-- Ids reachable from the root through `left`/`right`. -/
def hReach : Nat → Heap → Option Nat → List Nat
  | 0, _, _ => []
  | _, _, none => []
  | fuel + 1, h, some me =>
    hReach fuel h (h.getter me).left ++ me :: hReach fuel h (h.getter me).right

/-- The stored CIDRs in order. -/
def HSet.walkNets (s : HSet) : List IPNet :=
  (hReach hFuel s.heap s.root).map (fun i => (s.heap.getter i).net)

/-- The bidirectional-link consistency stated by the spec: every child's `up`
points to its parent, and the root's `up` is nil. -/
def HSet.upConsistent (s : HSet) : Bool :=
  match s.root with
  | none => true
  | some r =>
    ((s.heap.getter r).up = none) &&
    (hReach hFuel s.heap s.root).all (fun i =>
      (match (s.heap.getter i).left with
        | some l => (s.heap.getter l).up = some i
        | none => true) &&
      (match (s.heap.getter i).right with
        | some rr => (s.heap.getter rr).up = some i
        | none => true))

/-- `first` on the heap. -/
def HSet.first (s : HSet) : Option Nat :=
  s.root.map (hLeftmost hFuel s.heap)

/-- The iteration loop of `GetIPs` (`for node := first(); node != nil;
node = node.next()`). -/
def hGetIPsLoop :
    Nat → Heap → Option Nat → Nat → List (List Nat) → List (List Nat)
  | 0, _, _, _, ips => ips
  | fuel + 1, h, node?, lim, ips =>
    match node? with
    | none => ips
    | some node =>
      let ips := ips ++ expandNet (h.getter node).net (lim - ips.length)
      hGetIPsLoop fuel h (hNext hFuel h node) lim ips

/-- `GetIPs` on the heap, following the `up` pointers via `next`. -/
def HSet.getIPs (s : HSet) (limit : Nat) : List (List Nat) :=
  let lim := if limit = 0 then 2 ^ 63 - 1 else limit
  hGetIPsLoop hFuel s.heap s.first lim []

/-! ## `ipmap.go` and the prefix trie

The façade code below is translated from `ipmap.go`.  The backing radix trie
(`github.com/ecbaldwin/trie`) is not part of this repository's sources, so the
trie operations are modelled from the specification: a trie state is the list
of its real `(key, value)` entries, keys compare by `(length, first length
bits)`, lookups are exact or longest-prefix matches over the entries, and
`Aggregate` follows the specification's aggregation rules. -/

/-- Big-endian byte string of a number, `w` bytes wide. -/
def natToBytes : Nat → Nat → List Nat
  | 0, _ => []
  | w + 1, x => natToBytes w (x / 256) ++ [x % 256]

/-- `trie.Key`: a prefix as a bit count plus a byte string. -/
structure Key where
  length : Nat
  bits : List Nat
deriving DecidableEq, Repr

/-- The first `length` bits of a key, as a number. -/
def keyVal (k : Key) : Nat := ipVal k.bits / 2 ^ (8 * k.bits.length - k.length)

/-- The first `l` bits of a key's byte string, as a number. -/
def keyBitsAt (k : Key) (l : Nat) : Nat := ipVal k.bits / 2 ^ (8 * k.bits.length - l)

/-- Modelled from the spec: two trie keys are equal iff their lengths are
equal and the first `length` bits of their byte strings agree. -/
def keyEq (a b : Key) : Bool := a.length = b.length && keyVal a = keyVal b

/-- Modelled from the spec: `a` is a (non-strict) prefix of `b`. -/
def keyIsPfxOf (a b : Key) : Bool := a.length ≤ b.length && keyVal a = keyBitsAt b a.length

/-- Error kinds surfaced at the boundary (spec §6). -/
inductive MapErr where
  | nilArg
  | familyMismatch
  | alreadyExists
deriving DecidableEq, Repr

/-- Modelled from the spec: a trie state is the list of its real entries. -/
abbrev Trie (α : Type) := List (Key × α)

/-- Modelled from the spec: strict insert fails with `AlreadyExists` on a
present key. -/
def trieInsert (t : Trie α) (k : Key) (v : α) : Except MapErr (Trie α) :=
  if t.any (fun e => keyEq e.1 k) then .error .alreadyExists
  else .ok (t ++ [(k, v)])

/-- Modelled from the spec: insert or overwrite in place. -/
def trieInsertOrUpdate (t : Trie α) (k : Key) (v : α) : Trie α :=
  if t.any (fun e => keyEq e.1 k) then
    t.map (fun e => if keyEq e.1 k then (e.1, v) else e)
  else t ++ [(k, v)]

/-- Modelled from the spec: the longest-prefix-match entry for a key, if
any. -/
def trieMatch (t : Trie α) (k : Key) : Option (Key × α) :=
  (t.filter (fun e => keyIsPfxOf e.1 k)).foldl
    (fun best e =>
      match best with
      | none => some e
      | some b => if b.1.length < e.1.length then some e else some b)
    none

/-- Modelled from the spec: delete the exact entry if present, silently. -/
def trieDelete (t : Trie α) (k : Key) : Trie α :=
  t.filter (fun e => ¬ keyEq e.1 k)

/-- Modelled from the spec: return the existing value or insert the given
one. -/
def trieGetOrInsert (t : Trie α) (k : Key) (v : α) : Trie α × α :=
  match t.find? (fun e => keyEq e.1 k) with
  | some e => (t, e.2)
  | none => (t ++ [(k, v)], v)

/-- `IPMap`: a width tag plus the trie. -/
structure IPMap (α : Type) where
  length : Nat
  trie : Trie α
deriving DecidableEq, Repr

def newIPv4Map : IPMap α := ⟨4, []⟩

def newIPv6Map : IPMap α := ⟨16, []⟩

/-- `Size`: the number of exact prefixes stored. -/
def IPMap.size (m : IPMap α) : Nat := m.trie.length

/-- `ipToKey`. -/
def ipToKey (ip : List Nat) : Key := ⟨8 * ip.length, ip⟩

/-- `prefixToKey`. -/
def pfxToKey (p : IPNet) : Key := ⟨(maskSize p.mask).1, p.ip⟩

/-- `keyToPrefix`: re-inflate a key to a full-width `IPNet`. -/
def keyToPfx (k : Key) (length : Nat) : IPNet :=
  ⟨(k.bits ++ List.replicate length 0).take length,
    cidrMask (k.length : Int) (8 * length)⟩

/-- `InsertPrefix`. -/
def IPMap.insertPfx (m : IPMap α) (p : Option IPNet) (v : α) :
    Except MapErr (IPMap α) :=
  match p with
  | none => .error .nilArg
  | some p =>
    if p.ip.length ≠ m.length then .error .familyMismatch
    else (trieInsert m.trie (pfxToKey p) v).map (fun t => ⟨m.length, t⟩)

/-- `Insert`: an IP as a host prefix. -/
def IPMap.insertIP (m : IPMap α) (ip : List Nat) (v : α) :
    Except MapErr (IPMap α) :=
  if ip.length ≠ m.length then .error .familyMismatch
  else (trieInsert m.trie (ipToKey ip) v).map (fun t => ⟨m.length, t⟩)

/-- `InsertOrUpdatePrefix`. -/
def IPMap.insertOrUpdatePfx (m : IPMap α) (p : Option IPNet) (v : α) :
    Except MapErr (IPMap α) :=
  match p with
  | none => .error .nilArg
  | some p =>
    if p.ip.length ≠ m.length then .error .familyMismatch
    else .ok ⟨m.length, trieInsertOrUpdate m.trie (pfxToKey p) v⟩

/-- `InsertOrUpdate`. -/
def IPMap.insertOrUpdateIP (m : IPMap α) (ip : List Nat) (v : α) :
    Except MapErr (IPMap α) :=
  if ip.length ≠ m.length then .error .familyMismatch
  else .ok ⟨m.length, trieInsertOrUpdate m.trie (ipToKey ip) v⟩

/-- `GetPrefix`: exact-match lookup. -/
def IPMap.getPfx (m : IPMap α) (p : Option IPNet) : Option α :=
  match p with
  | none => none
  | some p =>
    if p.ip.length ≠ m.length then none
    else
      match trieMatch m.trie (pfxToKey p) with
      | some e => if keyEq e.1 (pfxToKey p) then some e.2 else none
      | none => none

/-- `Get`. -/
def IPMap.getIP (m : IPMap α) (ip : List Nat) : Option α :=
  if ip.length ≠ m.length then none
  else
    match trieMatch m.trie (ipToKey ip) with
    | some e => if keyEq e.1 (ipToKey ip) then some e.2 else none
    | none => none

/-- `GetOrInsert`. -/
def IPMap.getOrInsertIP (m : IPMap α) (ip : List Nat) (v : α) :
    Except MapErr (IPMap α × α) :=
  if ip.length ≠ m.length then .error .familyMismatch
  else
    let p := trieGetOrInsert m.trie (ipToKey ip) v
    .ok (⟨m.length, p.1⟩, p.2)

/-- `MatchPrefix`: longest-prefix-match lookup, returning the re-inflated
matched prefix. -/
def IPMap.matchPfx (m : IPMap α) (p : Option IPNet) : Option (IPNet × α) :=
  match p with
  | none => none
  | some p =>
    if p.ip.length ≠ m.length then none
    else
      match trieMatch m.trie (pfxToKey p) with
      | some e => some (keyToPfx e.1 m.length, e.2)
      | none => none

/-- `Match`. -/
def IPMap.matchIP (m : IPMap α) (ip : List Nat) : Option (IPNet × α) :=
  if ip.length ≠ m.length then none
  else
    match trieMatch m.trie (ipToKey ip) with
    | some e => some (keyToPfx e.1 m.length, e.2)
    | none => none

/-- `RemovePrefix`: silent exact-match removal. -/
def IPMap.removePfx (m : IPMap α) (p : Option IPNet) : IPMap α :=
  match p with
  | none => m
  | some p =>
    if p.ip.length ≠ m.length then m
    else ⟨m.length, trieDelete m.trie (pfxToKey p)⟩

/-- `Remove`. -/
def IPMap.removeIP (m : IPMap α) (ip : List Nat) : IPMap α :=
  if ip.length ≠ m.length then m
  else ⟨m.length, trieDelete m.trie (ipToKey ip)⟩

/-! ### Aggregation, modelled from the spec

`Aggregate` visits the minimal set of `(prefix, value)` pairs preserving
longest-prefix-match semantics: a child whose value equals its nearest
ancestor's is omitted, a differing child is emitted, and two sibling halves
with equal values merge into their parent prefix even when the parent is not
stored.  The recursion below walks the prefix space from the root prefix,
carrying the inherited value, and returns the pairs emitted inside the region
together with a flag telling whether the emitted pairs cover the whole
region. -/

/-- The two half prefixes of a region (the region key keeps full-width byte
strings). -/
def keyHalves (w : Nat) (pfx : Key) : Key × Key :=
  (⟨pfx.length + 1, pfx.bits⟩,
   ⟨pfx.length + 1, natToBytes w ((2 * keyVal pfx + 1) * 2 ^ (8 * w - pfx.length - 1))⟩)

/-- Modelled from the spec: aggregation of the entries lying under region
`pfx`, given the value `inh` inherited from the nearest emitted ancestor. -/
def aggRegion [DecidableEq α] (w : Nat) :
    Nat → Key → Trie α → Option α → List (Key × α) × Bool
  | 0, _, _, _ => ([], false)
  | fuel + 1, pfx, entries, inh =>
    let hereVal := (entries.find? (fun e => keyEq e.1 pfx)).map (·.2)
    let inh' := match hereVal with | some v => some v | none => inh
    let below := entries.filter (fun e => keyIsPfxOf pfx e.1 && ¬ keyEq e.1 pfx)
    if below.isEmpty then
      match hereVal with
      | some v => if inh = some v then ([], false) else ([(pfx, v)], true)
      | none => ([], false)
    else
      let hs := keyHalves w pfx
      let p0 := aggRegion w fuel hs.1 (below.filter (fun e => keyIsPfxOf hs.1 e.1 || keyEq e.1 hs.1)) inh'
      let p1 := aggRegion w fuel hs.2 (below.filter (fun e => keyIsPfxOf hs.2 e.1 || keyEq e.1 hs.2)) inh'
      if p0.2 ∧ p1.2 then
        match p0.1, p1.1 with
        | [(k0, v0)], [(k1, v1)] =>
          if keyEq k0 hs.1 ∧ keyEq k1 hs.2 ∧ v0 = v1 then ([(pfx, v0)], true)
          else (p0.1 ++ p1.1, true)
        | _, _ => (p0.1 ++ p1.1, true)
      else
        match hereVal with
        | some v =>
          if inh = some v then (p0.1 ++ p1.1, false)
          else ((pfx, v) :: (p0.1 ++ p1.1), true)
        | none => (p0.1 ++ p1.1, false)

/-- `Aggregate`: the pairs visited by the aggregated walk, with keys
re-inflated to prefixes as in `trieCallback`. -/
def IPMap.aggregatePairs [DecidableEq α] (m : IPMap α) : List (IPNet × α) :=
  ((aggRegion m.length (8 * m.length + 1) ⟨0, List.replicate m.length 0⟩
      m.trie none).1).map (fun e => (keyToPfx e.1 m.length, e.2))

/-! ## Numeric view of byte strings -/

/-- All entries of the list are bytes. -/
def bytesOK (l : List Nat) : Prop := ∀ b ∈ l, b < 256

theorem ipVal_foldl (l : List Nat) (a : Nat) :
    l.foldl (fun a b => 256 * a + b) a = a * 256 ^ l.length + ipVal l := by
  induction l generalizing a with
  | nil => simp [ipVal]
  | cons b t ih =>
    simp only [ipVal, List.foldl_cons, List.length_cons]
    rw [ih (256 * a + b), ih (256 * 0 + b)]
    ring

theorem ipVal_cons (b : Nat) (t : List Nat) :
    ipVal (b :: t) = b * 256 ^ t.length + ipVal t := by
  simpa [ipVal] using ipVal_foldl t b

theorem ipVal_lt (l : List Nat) (h : bytesOK l) : ipVal l < 256 ^ l.length := by
  induction l with
  | nil => simp [ipVal]
  | cons b t ih =>
    have hb : b < 256 := h b (by simp)
    have ht : ipVal t < 256 ^ t.length := ih (fun x hx => h x (by simp [hx]))
    rw [ipVal_cons, List.length_cons, pow_succ]
    calc b * 256 ^ t.length + ipVal t < b * 256 ^ t.length + 256 ^ t.length := by omega
      _ = (b + 1) * 256 ^ t.length := by ring
      _ ≤ 256 * 256 ^ t.length := Nat.mul_le_mul_right _ (by omega)
      _ = 256 ^ t.length * 256 := Nat.mul_comm _ _

theorem ipVal_inj (a b : List Nat) (hlen : a.length = b.length)
    (ha : bytesOK a) (hb : bytesOK b) (h : ipVal a = ipVal b) : a = b := by
  induction a generalizing b with
  | nil => cases b with
    | nil => rfl
    | cons c t => simp at hlen
  | cons x t ih =>
    cases b with
    | nil => simp at hlen
    | cons y s =>
      simp only [List.length_cons, Nat.succ.injEq] at hlen
      have hxt : ipVal t < 256 ^ t.length := ipVal_lt t (fun z hz => ha z (by simp [hz]))
      have hys : ipVal s < 256 ^ s.length := ipVal_lt s (fun z hz => hb z (by simp [hz]))
      rw [ipVal_cons, ipVal_cons, hlen] at h
      have hxy : x = y := by
        by_contra hne
        rcases Nat.lt_or_ge x y with hlt | hge
        · have : x * 256 ^ s.length + ipVal t < y * 256 ^ s.length := by
            calc x * 256 ^ s.length + ipVal t
                < x * 256 ^ s.length + 256 ^ s.length := by rw [hlen] at hxt; omega
              _ = (x + 1) * 256 ^ s.length := by ring
              _ ≤ y * 256 ^ s.length := Nat.mul_le_mul_right _ (by omega)
          omega
        · have hyx : y < x := by omega
          have : y * 256 ^ s.length + ipVal s < x * 256 ^ s.length := by
            calc y * 256 ^ s.length + ipVal s
                < y * 256 ^ s.length + 256 ^ s.length := by omega
              _ = (y + 1) * 256 ^ s.length := by ring
              _ ≤ x * 256 ^ s.length := Nat.mul_le_mul_right _ (by omega)
          omega
      subst hxy
      have : ipVal t = ipVal s := by omega
      rw [ih s hlen (fun z hz => ha z (by simp [hz])) (fun z hz => hb z (by simp [hz])) this]

theorem bytesCmp_refl (a : List Nat) : bytesCmp a a = .eq := by
  induction a with
  | nil => rfl
  | cons x t ih => simp [bytesCmp, ih]

theorem bytesCmp_eq_iff (a b : List Nat) (hlen : a.length = b.length) :
    bytesCmp a b = .eq ↔ a = b := by
  constructor
  · intro h
    induction a generalizing b with
    | nil => cases b with
      | nil => rfl
      | cons y s => simp at hlen
    | cons x t ih =>
      cases b with
      | nil => simp at hlen
      | cons y s =>
        simp only [bytesCmp] at h
        by_cases h1 : x < y
        · simp [h1] at h
        · by_cases h2 : y < x
          · simp [h1, h2] at h
          · have hxy : x = y := by omega
            simp only [h1, h2, if_false] at h
            simp only [List.length_cons, Nat.succ.injEq] at hlen
            rw [hxy, ih s hlen h]
  · rintro rfl; exact bytesCmp_refl a

theorem bytesCmp_lt_iff (a b : List Nat) (hlen : a.length = b.length)
    (ha : bytesOK a) (hb : bytesOK b) :
    bytesCmp a b = .lt ↔ ipVal a < ipVal b := by
  induction a generalizing b with
  | nil =>
    cases b with
    | nil => simp [bytesCmp, ipVal]
    | cons y s => simp at hlen
  | cons x t ih =>
    cases b with
    | nil => simp at hlen
    | cons y s =>
      simp only [List.length_cons, Nat.succ.injEq] at hlen
      have hxt : ipVal t < 256 ^ t.length := ipVal_lt t (fun z hz => ha z (by simp [hz]))
      have hys : ipVal s < 256 ^ s.length := ipVal_lt s (fun z hz => hb z (by simp [hz]))
      rw [ipVal_cons, ipVal_cons]
      simp only [bytesCmp]
      by_cases h1 : x < y
      · simp only [h1, if_true, true_iff]
        calc x * 256 ^ t.length + ipVal t < x * 256 ^ t.length + 256 ^ t.length := by omega
          _ = (x + 1) * 256 ^ t.length := by ring
          _ ≤ y * 256 ^ t.length := Nat.mul_le_mul_right _ (by omega)
          _ ≤ y * 256 ^ s.length + ipVal s := by rw [hlen]; omega
      · by_cases h2 : y < x
        · simp only [h1, h2, if_false, if_true]
          constructor
          · intro h; exact absurd h (by simp)
          · intro h
            exfalso
            have hcon : y * 256 ^ s.length + ipVal s < x * 256 ^ s.length := by
              calc y * 256 ^ s.length + ipVal s
                  < y * 256 ^ s.length + 256 ^ s.length := by omega
                _ = (y + 1) * 256 ^ s.length := by ring
                _ ≤ x * 256 ^ s.length := Nat.mul_le_mul_right _ (by omega)
            rw [hlen] at h
            omega
        · have hxy : x = y := by omega
          subst hxy
          simp only [h1, h2, if_false]
          rw [ih s hlen (fun z hz => ha z (by simp [hz])) (fun z hz => hb z (by simp [hz])),
            hlen]
          omega

theorem bytesCmp_trichotomy (a b : List Nat) :
    bytesCmp a b = .lt ∨ bytesCmp a b = .eq ∨ bytesCmp a b = .gt := by
  cases h : bytesCmp a b <;> simp

theorem bytesCmp_gt_iff (a b : List Nat) (hlen : a.length = b.length)
    (ha : bytesOK a) (hb : bytesOK b) :
    bytesCmp a b = .gt ↔ ipVal b < ipVal a := by
  rcases bytesCmp_trichotomy a b with h | h | h
  · rw [h]
    rw [bytesCmp_lt_iff a b hlen ha hb] at h
    simp only [show (Ordering.lt = Ordering.gt) = False from by simp, false_iff]
    omega
  · rw [h]
    rw [bytesCmp_eq_iff a b hlen] at h
    subst h
    simp
  · rw [h]
    simp only [true_iff]
    have h1 : bytesCmp a b ≠ .lt := by rw [h]; simp
    have h2 : bytesCmp a b ≠ .eq := by rw [h]; simp
    rw [Ne, bytesCmp_lt_iff a b hlen ha hb] at h1
    rw [Ne, bytesCmp_eq_iff a b hlen] at h2
    have h3 : ipVal a ≠ ipVal b := fun he => h2 (ipVal_inj a b hlen ha hb he)
    omega

/-! ## Mask lemmas -/

theorem cidrMaskAux_length (k m : Nat) : (cidrMaskAux k m).length = m := by
  induction m generalizing k with
  | zero => rfl
  | succ m ih =>
    simp only [cidrMaskAux]
    by_cases h : 8 ≤ k <;> simp [h, ih]

theorem cidrMaskAux_zero (m : Nat) : cidrMaskAux 0 m = List.replicate m 0 := by
  induction m with
  | zero => rfl
  | succ m ih => simp [cidrMaskAux, ih, List.replicate_succ]

theorem cidrMaskAux_bytesOK (k m : Nat) : bytesOK (cidrMaskAux k m) := by
  induction m generalizing k with
  | zero => intro b hb; simp [cidrMaskAux] at hb
  | succ m ih =>
    intro b hb
    simp only [cidrMaskAux] at hb
    by_cases h : 8 ≤ k
    · simp only [h, if_true, List.mem_cons] at hb
      rcases hb with rfl | hb
      · omega
      · exact ih _ b hb
    · simp only [h, if_false, List.mem_cons] at hb
      rcases hb with rfl | hb
      · exact Nat.lt_succ_of_le (Nat.sub_le _ _)
      · exact ih _ b hb

theorem simpleMaskLength_cidrMaskAux (k m : Nat) (h : k ≤ 8 * m) :
    simpleMaskLength (cidrMaskAux k m) = some k := by
  induction m generalizing k with
  | zero =>
    have : k = 0 := by omega
    subst this
    rfl
  | succ m ih =>
    by_cases h8 : 8 ≤ k
    · simp only [cidrMaskAux, h8, if_true, simpleMaskLength]
      rw [ih (k - 8) (by omega)]
      simp only [Option.map_some']
      congr 1
      omega
    · have hk : k < 8 := by omega
      simp only [cidrMaskAux, h8, if_false, simpleMaskLength]
      have hne : ∀ j < 8, ¬ (255 - (255 >>> j) = 255) := by decide
      rw [if_neg (hne k hk)]
      have hclo : ∀ j < 8, cloAux 8 (255 - (255 >>> j)) = (j, 0) := by decide
      rw [hclo k hk]
      simp only [ne_eq, not_true_eq_false, if_false]
      rw [cidrMaskAux_zero]
      simp

theorem maskSize_cidrMaskAux (k m : Nat) (h : k ≤ 8 * m) :
    maskSize (cidrMaskAux k m) = (k, 8 * m) := by
  simp [maskSize, simpleMaskLength_cidrMaskAux k m h, cidrMaskAux_length]

theorem maskCmp_lt_iff (m j k : Nat) (hj : j ≤ 8 * m) (hk : k ≤ 8 * m) :
    bytesCmp (cidrMaskAux j m) (cidrMaskAux k m) = .lt ↔ j < k := by
  induction m generalizing j k with
  | zero =>
    have : j = 0 ∧ k = 0 := by omega
    rcases this with ⟨rfl, rfl⟩
    simp [cidrMaskAux, bytesCmp]
  | succ m ih =>
    by_cases h8j : 8 ≤ j <;> by_cases h8k : 8 ≤ k
    · simp only [cidrMaskAux, h8j, h8k, if_true, bytesCmp, Nat.lt_irrefl, if_false]
      rw [ih (j - 8) (k - 8) (by omega) (by omega)]
      omega
    · have hk8 : k < 8 := by omega
      have hfact : ∀ j < 8, 255 - (255 >>> j) < 255 := by decide
      have hlt : 255 - (255 >>> k) < 255 := hfact k hk8
      simp only [cidrMaskAux, h8j, h8k, if_true, if_false, bytesCmp]
      rw [if_neg (by omega), if_pos hlt]
      simp only [show (Ordering.gt = Ordering.lt) = False from by simp, false_iff]
      omega
    · have hj8 : j < 8 := by omega
      have hfact : ∀ i < 8, 255 - (255 >>> i) < 255 := by decide
      have hlt : 255 - (255 >>> j) < 255 := hfact j hj8
      simp only [cidrMaskAux, h8j, h8k, if_true, if_false, bytesCmp]
      rw [if_pos hlt]
      simp only [true_iff]
      omega
    · have hj8 : j < 8 := by omega
      have hk8 : k < 8 := by omega
      simp only [cidrMaskAux, h8j, h8k, if_false, bytesCmp]
      by_cases hlt : 255 - (255 >>> j) < 255 - (255 >>> k)
      · rw [if_pos hlt]
        simp only [true_iff]
        have : ∀ j < 8, ∀ k < 8,
            255 - (255 >>> j) < 255 - (255 >>> k) → j < k := by decide
        exact this j hj8 k hk8 hlt
      · rw [if_neg hlt]
        by_cases hgt : 255 - (255 >>> k) < 255 - (255 >>> j)
        · rw [if_pos hgt]
          simp only [show (Ordering.gt = Ordering.lt) = False from by simp, false_iff]
          have : ∀ j < 8, ∀ k < 8,
              255 - (255 >>> k) < 255 - (255 >>> j) → k < j := by decide
          have := this j hj8 k hk8 hgt
          omega
        · rw [if_neg hgt]
          have hjk : j = k := by
            have : ∀ j < 8, ∀ k < 8,
                ¬ 255 - (255 >>> j) < 255 - (255 >>> k) →
                ¬ 255 - (255 >>> k) < 255 - (255 >>> j) → j = k := by decide
            exact this j hj8 k hk8 hlt hgt
          subst hjk
          rw [bytesCmp_refl]
          simp

theorem maskCmp_eq_iff (m j k : Nat) (hj : j ≤ 8 * m) (hk : k ≤ 8 * m) :
    bytesCmp (cidrMaskAux j m) (cidrMaskAux k m) = .eq ↔ j = k := by
  rw [bytesCmp_eq_iff _ _ (by rw [cidrMaskAux_length, cidrMaskAux_length])]
  constructor
  · intro h
    have := congrArg simpleMaskLength h
    rw [simpleMaskLength_cidrMaskAux j m hj, simpleMaskLength_cidrMaskAux k m hk] at this
    simpa using this
  · rintro rfl; rfl

theorem ipVal_replicate_zero (n : Nat) : ipVal (List.replicate n 0) = 0 := by
  induction n with
  | zero => rfl
  | succ n ih => rw [List.replicate_succ, ipVal_cons, ih]; simp

theorem maskCmp_ne_gt_iff (m j k : Nat) (hj : j ≤ 8 * m) (hk : k ≤ 8 * m) :
    (bytesCmp (cidrMaskAux j m) (cidrMaskAux k m) ≠ .gt) ↔ j ≤ k := by
  rcases bytesCmp_trichotomy (cidrMaskAux j m) (cidrMaskAux k m) with h | h | h
  · rw [h]
    rw [maskCmp_lt_iff m j k hj hk] at h
    simp only [ne_eq]
    constructor
    · intro _; omega
    · intro _; simp
  · rw [h]
    rw [maskCmp_eq_iff m j k hj hk] at h
    simp only [ne_eq]
    constructor
    · intro _; omega
    · intro _; simp
  · rw [h]
    have h1 : bytesCmp (cidrMaskAux j m) (cidrMaskAux k m) ≠ .lt := by rw [h]; simp
    have h2 : bytesCmp (cidrMaskAux j m) (cidrMaskAux k m) ≠ .eq := by rw [h]; simp
    rw [Ne, maskCmp_lt_iff m j k hj hk] at h1
    rw [Ne, maskCmp_eq_iff m j k hj hk] at h2
    simp only [ne_eq, not_true_eq_false, false_iff]
    omega

/-! ## Canonical CIDRs and their numeric semantics

A canonical CIDR of width `w` stores a `w`-byte address whose bits beyond the
prefix length are zero, and a ones-then-zeros mask.  `Pure` additionally rules
out the 16-byte v4-mapped addresses, which Go's `To4` normalization inside
`IPNet.Contains` treats as 4-byte addresses. -/

/-- The prefix length stored in a net's mask. -/
def olen (n : IPNet) : Nat := (maskSize n.mask).1

/-- The numeric value of a net's address (the first address of the net). -/
def start (n : IPNet) : Nat := ipVal n.ip

/-- The number of addresses of a canonical net of width `w`. -/
def szE (w : Nat) (n : IPNet) : Nat := 2 ^ (8 * w - olen n)

/-- A canonical CIDR of width `w` (host bits zero, canonical mask). -/
structure Canon (w : Nat) (n : IPNet) : Prop where
  hw : w = 4 ∨ w = 16
  iplen : n.ip.length = w
  ipok : bytesOK n.ip
  klen : olen n ≤ 8 * w
  maskc : n.mask = cidrMaskAux (olen n) w
  hostz : start n % szE w n = 0

/-- A canonical CIDR whose address is not a 16-byte v4-mapped one. -/
structure Pure (w : Nat) (n : IPNet) extends Canon w n : Prop where
  nomap : w = 16 → to4 n.ip = none

/-- The well-formedness facts of `Pure` that do not require the host bits to
be zero (`canCombineNets` builds an intermediate net whose host bits may be
set). -/
structure NetOK (w : Nat) (n : IPNet) : Prop where
  hw : w = 4 ∨ w = 16
  iplen : n.ip.length = w
  ipok : bytesOK n.ip
  klen : olen n ≤ 8 * w
  maskc : n.mask = cidrMaskAux (olen n) w
  nomap : w = 16 → to4 n.ip = none

theorem Pure.netOK (w : Nat) (n : IPNet) (h : Pure w n) : NetOK w n :=
  ⟨h.hw, h.iplen, h.ipok, h.klen, h.maskc, h.nomap⟩

/-- Mathematical containment of canonical CIDRs: `a`'s interval contains
`b`'s. -/
def covers (w : Nat) (a b : IPNet) : Prop :=
  olen a ≤ olen b ∧ start b / szE w a = start a / szE w a

/-- An address value lies inside a canonical net. -/
def memN (w : Nat) (n : IPNet) (x : Nat) : Prop :=
  x / szE w n = start n / szE w n

theorem bytesOK_zipand (l m : List Nat) (h : bytesOK l) :
    bytesOK (List.zipWith (fun a b => a &&& b) l m) := by
  induction l generalizing m with
  | nil => intro z hz; simp at hz
  | cons b t ih =>
    cases m with
    | nil => intro z hz; simp at hz
    | cons c s =>
      intro z hz
      simp only [List.zipWith_cons_cons, List.mem_cons] at hz
      rcases hz with rfl | hz
      · exact Nat.lt_of_le_of_lt Nat.and_le_left (h b (by simp))
      · exact ih s (fun u hu => h u (by simp [hu])) z hz

theorem zipand_replicate_zero (t : List Nat) :
    List.zipWith (fun a b => a &&& b) t (List.replicate t.length 0)
      = List.replicate t.length 0 := by
  induction t with
  | nil => rfl
  | cons c s ihs =>
    simp only [List.length_cons, List.replicate_succ, List.zipWith_cons_cons, Nat.and_zero]
    rw [ihs]

/-- The masked value of a byte string under a canonical mask clears the low
`8·len − k` bits. -/
theorem maskedVal (l : List Nat) (k : Nat) (hok : bytesOK l) (hk : k ≤ 8 * l.length) :
    ipVal (List.zipWith (fun a b => a &&& b) l (cidrMaskAux k l.length)) =
      ipVal l / 2 ^ (8 * l.length - k) * 2 ^ (8 * l.length - k) := by
  induction l generalizing k with
  | nil => simp [ipVal, cidrMaskAux]
  | cons b t ih =>
    have hb : b < 256 := hok b (by simp)
    have htok : bytesOK t := fun z hz => hok z (by simp [hz])
    have htlt : ipVal t < 256 ^ t.length := ipVal_lt t htok
    by_cases h8 : 8 ≤ k
    · have hmask : cidrMaskAux k (b :: t).length = 255 :: cidrMaskAux (k - 8) t.length := by
        simp [cidrMaskAux, h8]
      rw [hmask]
      simp only [List.zipWith_cons_cons]
      have hland : b &&& 255 = b := by
        have : ∀ c < 256, c &&& 255 = c := by decide
        exact this b hb
      rw [hland, ipVal_cons, ipVal_cons]
      have hziplen : (List.zipWith (fun a b => a &&& b) t (cidrMaskAux (k - 8) t.length)).length
          = t.length := by
        rw [List.length_zipWith, cidrMaskAux_length]
        omega
      have hkb : k - 8 ≤ 8 * t.length := by
        simp only [List.length_cons] at hk
        omega
      rw [hziplen, ih (k - 8) htok hkb]
      have hexp : 8 * (b :: t).length - k = 8 * t.length - (k - 8) := by
        simp only [List.length_cons]
        omega
      rw [hexp]
      set E := 2 ^ (8 * t.length - (k - 8)) with hE
      have hEpos : 0 < E := Nat.pos_pow_of_pos _ (by omega)
      have hEdvd : E ∣ 256 ^ t.length := by
        have h256 : (256 : Nat) = 2 ^ 8 := by norm_num
        rw [h256, ← pow_mul]
        exact pow_dvd_pow 2 (by omega)
      obtain ⟨R, hR⟩ := hEdvd
      rw [hR]
      have key : (b * (E * R) + ipVal t) / E * E = b * (E * R) + ipVal t / E * E := by
        have h1 : b * (E * R) + ipVal t = E * (b * R) + ipVal t := by ring
        rw [h1, Nat.mul_add_div hEpos, Nat.add_mul]
        ring
      rw [key]
    · have hk8 : k < 8 := by omega
      have hmask : cidrMaskAux k (b :: t).length =
          (255 - (255 >>> k)) :: List.replicate t.length 0 := by
        simp only [List.length_cons, cidrMaskAux, h8, if_false]
        rw [cidrMaskAux_zero]
      rw [hmask]
      simp only [List.zipWith_cons_cons]
      rw [zipand_replicate_zero, ipVal_cons, ipVal_replicate_zero, List.length_replicate]
      have hland : b &&& (255 - (255 >>> k)) = b / 2 ^ (8 - k) * 2 ^ (8 - k) := by
        have hfact : ∀ c < 256, ∀ j < 8,
            c &&& (255 - (255 >>> j)) = c / 2 ^ (8 - j) * 2 ^ (8 - j) := by decide
        exact hfact b hb k hk8
      rw [hland, ipVal_cons]
      have hexp : 8 * (b :: t).length - k = 8 * t.length + (8 - k) := by
        simp only [List.length_cons]
        omega
      rw [hexp]
      have h256 : (256 : Nat) ^ t.length = 2 ^ (8 * t.length) := by
        rw [show (256 : Nat) = 2 ^ 8 from by norm_num, ← pow_mul]
      have htlt2 : ipVal t < 2 ^ (8 * t.length) := by rw [← h256]; exact htlt
      have hPpos : (0 : Nat) < 2 ^ (8 * t.length) := Nat.pos_pow_of_pos _ (by omega)
      rw [pow_add, h256]
      have hdiv : (b * 2 ^ (8 * t.length) + ipVal t) / (2 ^ (8 * t.length) * 2 ^ (8 - k))
          = b / 2 ^ (8 - k) := by
        rw [← Nat.div_div_eq_div_mul]
        have hfst : (b * 2 ^ (8 * t.length) + ipVal t) / 2 ^ (8 * t.length) = b := by
          rw [Nat.mul_comm b _, Nat.mul_add_div hPpos, Nat.div_eq_of_lt htlt2]
          omega
        rw [hfst]
      rw [hdiv]
      ring

/-- `To4` of a 4-byte address is the identity. -/
theorem to4_len4 (ip : List Nat) (h : ip.length = 4) : to4 ip = some ip := by
  unfold to4
  rw [if_pos h]

/-- On a well-formed net, Go's `networkNumberAndMask` is the identity. -/
theorem nnm_pure (w : Nat) (n : IPNet) (h : NetOK w n) :
    networkNumberAndMask n = some (n.ip, n.mask) := by
  have hmlen : n.mask.length = w := by rw [h.maskc, cidrMaskAux_length]
  have hiplen := h.iplen
  rcases h.hw with hw | hw
  · subst hw
    unfold networkNumberAndMask
    rw [to4_len4 n.ip hiplen]
    simp only [hiplen, hmlen]
    norm_num
  · subst hw
    have h16 : to4 n.ip = none := h.nomap rfl
    unfold networkNumberAndMask
    rw [h16]
    simp only [hiplen, hmlen]
    norm_num
    intro hcon
    rw [hiplen] at hcon
    exact absurd hcon (by decide)

/-- Characterization of Go's `IPNet.Contains` on a `Pure` net and a pure
query address: the first `olen` bits agree. -/
theorem ipnetContains_pure (w : Nat) (a : IPNet) (ha : NetOK w a) (q : List Nat)
    (hqlen : q.length = w) (hqok : bytesOK q) (hqmap : w = 16 → to4 q = none) :
    (ipnetContains a q = true) ↔ ipVal q / szE w a = start a / szE w a := by
  have hq4 : (to4 q).getD q = q := by
    rcases ha.hw with hw | hw
    · rw [to4_len4 q (by rw [hqlen, hw])]
      rfl
    · rw [hqmap hw]
      rfl
  unfold ipnetContains
  rw [nnm_pure w a ha]
  simp only [Option.getD_some, hq4]
  rw [if_neg (by rw [ha.iplen, hqlen]; simp)]
  have hmask : a.mask = cidrMaskAux (olen a) w := ha.maskc
  have hlen8 : olen a ≤ 8 * a.ip.length := by rw [ha.iplen]; exact ha.klen
  have hqlen8 : olen a ≤ 8 * q.length := by rw [hqlen]; exact ha.klen
  have hma : ipVal (List.zipWith (fun x y => x &&& y) a.ip a.mask)
      = ipVal a.ip / 2 ^ (8 * w - olen a) * 2 ^ (8 * w - olen a) := by
    rw [hmask]
    have := maskedVal a.ip (olen a) ha.ipok hlen8
    rw [ha.iplen] at this
    exact this
  have hmq : ipVal (List.zipWith (fun x y => x &&& y) q a.mask)
      = ipVal q / 2 ^ (8 * w - olen a) * 2 ^ (8 * w - olen a) := by
    rw [hmask]
    have := maskedVal q (olen a) hqok hqlen8
    rw [hqlen] at this
    exact this
  have hE : (0 : Nat) < 2 ^ (8 * w - olen a) := Nat.pos_pow_of_pos _ (by omega)
  constructor
  · intro h
    have hl : List.zipWith (fun x y => x &&& y) a.ip a.mask
        = List.zipWith (fun x y => x &&& y) q a.mask := by
      simpa using h
    have := congrArg ipVal hl
    rw [hma, hmq] at this
    have := Nat.eq_of_mul_eq_mul_right hE this
    unfold szE start
    omega
  · intro h
    unfold szE at h
    have hveq : ipVal (List.zipWith (fun x y => x &&& y) a.ip a.mask)
        = ipVal (List.zipWith (fun x y => x &&& y) q a.mask) := by
      unfold start at h
      rw [hma, hmq, h]
    have hlen1 : (List.zipWith (fun x y => x &&& y) a.ip a.mask).length
        = (List.zipWith (fun x y => x &&& y) q a.mask).length := by
      rw [List.length_zipWith, List.length_zipWith, ha.iplen, hqlen]
    have hok1 : bytesOK (List.zipWith (fun x y => x &&& y) a.ip a.mask) :=
      bytesOK_zipand a.ip a.mask ha.ipok
    have hok2 : bytesOK (List.zipWith (fun x y => x &&& y) q a.mask) :=
      bytesOK_zipand q a.mask hqok
    have := ipVal_inj _ _ hlen1 hok1 hok2 hveq
    simp [this]

/-- `IP.Equal` on two `Pure` nets is value equality of the addresses. -/
theorem ipEqual_pure (w : Nat) (a b : IPNet) (ha : NetOK w a) (hb : NetOK w b) :
    (ipEqual a.ip b.ip = true) ↔ start a = start b := by
  unfold ipEqual
  rw [if_pos (by rw [ha.iplen, hb.iplen])]
  rw [beq_iff_eq]
  constructor
  · intro h
    unfold start
    rw [h]
  · intro h
    exact ipVal_inj _ _ (by rw [ha.iplen, hb.iplen]) ha.ipok hb.ipok h

theorem szE_pos (w : Nat) (n : IPNet) : 0 < szE w n := Nat.pos_pow_of_pos _ (by omega)

theorem szE_dvd_of_le (w : Nat) (a b : IPNet) (h : olen b ≤ olen a) :
    szE w a ∣ szE w b :=
  pow_dvd_pow 2 (by omega)

/-- Two canonical nets agreeing on the first `olen a` bits with
`olen b ≤ olen a` have equal starts. -/
theorem canon_start_eq (w : Nat) (a b : IPNet) (ha : Canon w a) (hb : Canon w b)
    (hk : olen b ≤ olen a)
    (hdiv : start b / szE w a = start a / szE w a) : start a = start b := by
  have hEa : szE w a ∣ szE w b := szE_dvd_of_le w a b hk
  have hdvd_b : szE w a ∣ start b :=
    dvd_trans hEa (Nat.dvd_of_mod_eq_zero hb.hostz)
  have hdvd_a : szE w a ∣ start a := Nat.dvd_of_mod_eq_zero ha.hostz
  calc start a = szE w a * (start a / szE w a) := (Nat.mul_div_cancel' hdvd_a).symm
    _ = szE w a * (start b / szE w a) := by rw [hdiv]
    _ = start b := Nat.mul_div_cancel' hdvd_b

/-- Characterization of `containsNet` on non-v4-mapped canonical CIDRs:
mathematical containment. -/
theorem containsNet_pure (w : Nat) (a b : IPNet) (ha : Pure w a) (hb : Pure w b) :
    (containsNet a b = true) ↔ covers w a b := by
  unfold containsNet
  rw [if_neg (by rw [ha.iplen, hb.iplen]; simp)]
  have hic := ipnetContains_pure w a (ha.netOK w a) b.ip hb.iplen hb.ipok hb.nomap
  by_cases hcont : ipnetContains a b.ip = true
  · rw [hcont]
    simp only [Bool.not_true, Bool.false_eq_true, if_false]
    have hdiv : ipVal b.ip / szE w a = start a / szE w a := hic.mp hcont
    by_cases heq : ipEqual a.ip b.ip = true
    · rw [heq]
      simp only [Bool.not_true, Bool.false_eq_true, if_false]
      have hse : start a = start b := (ipEqual_pure w a b (ha.netOK w a) (hb.netOK w b)).mp heq
      rw [ha.maskc, hb.maskc]
      rw [decide_eq_true_iff]
      rw [maskCmp_ne_gt_iff w (olen a) (olen b) ha.klen hb.klen]
      unfold covers
      constructor
      · intro h
        exact ⟨h, hdiv⟩
      · intro h
        exact h.1
    · rw [Bool.not_eq_true] at heq
      rw [heq]
      simp only [Bool.not_false, if_true, true_iff]
      refine ⟨?_, hdiv⟩
      by_contra hlt
      have hba : olen b ≤ olen a := by omega
      have := canon_start_eq w a b ha.toCanon hb.toCanon hba hdiv
      have := (ipEqual_pure w a b (ha.netOK w a) (hb.netOK w b)).mpr this
      rw [heq] at this
      exact absurd this (by simp)
  · rw [Bool.not_eq_true] at hcont
    rw [hcont]
    simp only [Bool.not_false, if_true, Bool.false_eq_true, false_iff]
    intro hc
    have := hic.mpr hc.2
    rw [hcont] at this
    exact absurd this (by simp)

/-! ## Dyadic interval arithmetic for canonical CIDRs -/

/-- Membership as an interval condition. -/
theorem memN_iff (w : Nat) (n : IPNet) (hn : Canon w n) (x : Nat) :
    memN w n x ↔ start n ≤ x ∧ x < start n + szE w n := by
  have hE : 0 < szE w n := szE_pos w n
  have hdvd : szE w n ∣ start n := Nat.dvd_of_mod_eq_zero hn.hostz
  obtain ⟨q, hq⟩ := hdvd
  unfold memN
  rw [hq]
  rw [Nat.mul_div_cancel_left q hE]
  constructor
  · intro h
    have hmod := Nat.div_add_mod x (szE w n)
    have hmlt : x % szE w n < szE w n := Nat.mod_lt x hE
    rw [h] at hmod
    omega
  · intro ⟨h1, h2⟩
    obtain ⟨r, hr, rfl⟩ : ∃ r, r < szE w n ∧ x = szE w n * q + r := by
      refine ⟨x - szE w n * q, by omega, by omega⟩
    rw [Nat.mul_add_div hE, Nat.div_eq_of_lt hr]
    omega

theorem div_div_congr (E F x y : Nat) (hEF : E ∣ F) (hF : 0 < F)
    (h : x / E = y / E) : x / F = y / F := by
  obtain ⟨c, rfl⟩ := hEF
  have hE : 0 < E := by
    rcases Nat.eq_zero_or_pos E with h0 | h
    · subst h0; simp at hF
    · exact h
  rw [← Nat.div_div_eq_div_mul, ← Nat.div_div_eq_div_mul, h]

/-- Two canonical nets sharing an address nest one way or the other. -/
theorem overlap_nest (w : Nat) (a b : IPNet) (ha : Canon w a) (hb : Canon w b)
    (x : Nat) (hxa : memN w a x) (hxb : memN w b x) :
    covers w a b ∨ covers w b a := by
  rcases le_or_lt (olen a) (olen b) with h | h
  · left
    refine ⟨h, ?_⟩
    have hxb' : x / szE w a = start b / szE w a :=
      div_div_congr (szE w b) (szE w a) x (start b) (szE_dvd_of_le w b a h) (szE_pos w a) hxb
    unfold memN at hxa
    omega
  · right
    refine ⟨by omega, ?_⟩
    have hxa' : x / szE w b = start a / szE w b :=
      div_div_congr (szE w a) (szE w b) x (start a) (szE_dvd_of_le w a b (by omega))
        (szE_pos w b) hxa
    unfold memN at hxb
    omega

theorem aligned_lt_step (E x M : Nat) (hx : E ∣ x) (hM : E ∣ M) (h : x < M) :
    x + E ≤ M := by
  obtain ⟨p, rfl⟩ := hx
  obtain ⟨q, rfl⟩ := hM
  have hE : 0 < E := by
    rcases Nat.eq_zero_or_pos E with h0 | h1
    · subst h0; simp at h
    · exact h1
  have hpq : p < q := by
    by_contra hc
    push_neg at hc
    exact absurd (Nat.mul_le_mul_left E hc) (by omega)
  calc E * p + E = E * (p + 1) := by ring
    _ ≤ E * q := Nat.mul_le_mul_left E (by omega)

theorem start_lt (w : Nat) (n : IPNet) (hn : Canon w n) : start n < 2 ^ (8 * w) := by
  have := ipVal_lt n.ip hn.ipok
  rw [hn.iplen] at this
  unfold start
  calc ipVal n.ip < 256 ^ w := this
    _ = 2 ^ (8 * w) := by
      rw [show (256 : Nat) = 2 ^ 8 from by norm_num, ← pow_mul]

theorem szE_le (w : Nat) (n : IPNet) : szE w n ≤ 2 ^ (8 * w) :=
  Nat.pow_le_pow_right (by omega) (by omega)

/-- `covers` as interval containment. -/
theorem covers_iff_interval (w : Nat) (a b : IPNet) (ha : Canon w a) (hb : Canon w b) :
    covers w a b ↔ start a ≤ start b ∧ start b + szE w b ≤ start a + szE w a := by
  constructor
  · rintro ⟨hk, hdiv⟩
    have hmem : memN w a (start b) := hdiv
    rw [memN_iff w a ha (start b)] at hmem
    refine ⟨hmem.1, ?_⟩
    have hdvd1 : szE w b ∣ start b := Nat.dvd_of_mod_eq_zero hb.hostz
    have hdvd2 : szE w b ∣ start a + szE w a := by
      refine Nat.dvd_add ?_ (szE_dvd_of_le w b a hk)
      exact dvd_trans (szE_dvd_of_le w b a hk) (Nat.dvd_of_mod_eq_zero ha.hostz)
    exact aligned_lt_step (szE w b) (start b) (start a + szE w a) hdvd1 hdvd2 (by omega)
  · rintro ⟨h1, h2⟩
    have hb1 : 0 < szE w b := szE_pos w b
    have hsz : szE w b ≤ szE w a := by omega
    have hk : olen a ≤ olen b := by
      have hexp : 8 * w - olen b ≤ 8 * w - olen a :=
        (Nat.pow_le_pow_iff_right (by omega : 1 < 2)).mp hsz
      have := ha.klen
      have := hb.klen
      omega
    refine ⟨hk, ?_⟩
    have : memN w a (start b) := by
      rw [memN_iff w a ha (start b)]
      omega
    exact this

/-- `a`'s interval ends no later than `b`'s begins. -/
def before (w : Nat) (a b : IPNet) : Prop := start a + szE w a ≤ start b

theorem covers_refl (w : Nat) (a : IPNet) : covers w a a := ⟨le_refl _, rfl⟩

theorem covers_trans (w : Nat) (a b c : IPNet) (ha : Canon w a) (hb : Canon w b)
    (hc : Canon w c) (h1 : covers w a b) (h2 : covers w b c) : covers w a c := by
  rw [covers_iff_interval w a b ha hb] at h1
  rw [covers_iff_interval w b c hb hc] at h2
  rw [covers_iff_interval w a c ha hc]
  omega

/-- Canonical intervals: either nested one way, nested the other way, or
disjoint with one entirely before the other. -/
theorem net_trichotomy (w : Nat) (a b : IPNet) (ha : Canon w a) (hb : Canon w b) :
    covers w a b ∨ covers w b a ∨ before w a b ∨ before w b a := by
  by_cases h1 : before w a b
  · right; right; left; exact h1
  by_cases h2 : before w b a
  · right; right; right; exact h2
  unfold before at h1 h2
  push_neg at h1 h2
  rcases le_total (start a) (start b) with hab | hab
  · have hx : memN w a (start b) := by
      rw [memN_iff w a ha]
      exact ⟨hab, h1⟩
    have hy : memN w b (start b) := by
      rw [memN_iff w b hb]
      have := szE_pos w b
      omega
    rcases overlap_nest w a b ha hb _ hx hy with h | h
    · left; exact h
    · right; left; exact h
  · have hx : memN w a (start a) := by
      rw [memN_iff w a ha]
      have := szE_pos w a
      omega
    have hy : memN w b (start a) := by
      rw [memN_iff w b hb]
      exact ⟨hab, h2⟩
    rcases overlap_nest w a b ha hb _ hx hy with h | h
    · left; exact h
    · right; left; exact h

theorem ipVal_append (l1 l2 : List Nat) :
    ipVal (l1 ++ l2) = ipVal l1 * 256 ^ l2.length + ipVal l2 := by
  induction l1 with
  | nil => simp [ipVal]
  | cons b t ih =>
    rw [List.cons_append, ipVal_cons, ih, ipVal_cons, List.length_append, pow_add]
    ring

/-- Value characterization of a v4-mapped 16-byte address: its first 12 bytes
are `::ffff`, numerically `value / 2^32 = 65535`. -/
theorem to4_char (ip : List Nat) (hlen : ip.length = 16) (hok : bytesOK ip) :
    to4 ip = none ↔ ¬ ipVal ip / 2 ^ 32 = 65535 := by
  have hsplit : ip = ip.take 12 ++ ip.drop 12 := (List.take_append_drop 12 ip).symm
  have hlen1 : (ip.take 12).length = 12 := by rw [List.length_take]; omega
  have hlen2 : (ip.drop 12).length = 4 := by rw [List.length_drop]; omega
  have hok2 : bytesOK (ip.drop 12) := fun z hz => hok z (List.mem_of_mem_drop hz)
  have hok1 : bytesOK (ip.take 12) := fun z hz => hok z (List.mem_of_mem_take hz)
  have hval : ipVal ip / 2 ^ 32 = ipVal (ip.take 12) := by
    conv_lhs => rw [hsplit]
    rw [ipVal_append, hlen2]
    have hlt : ipVal (ip.drop 12) < 2 ^ 32 := by
      have := ipVal_lt (ip.drop 12) hok2
      rw [hlen2] at this
      norm_num at this ⊢
      omega
    rw [show (256 : Nat) ^ 4 = 2 ^ 32 from by norm_num]
    rw [Nat.mul_comm (ipVal (ip.take 12)) (2 ^ 32), Nat.mul_add_div (by norm_num)]
    rw [Nat.div_eq_of_lt hlt]
    omega
  have htake : ipVal (ip.take 12) = 65535 ↔ ip.take 12 = v4mapped := by
    constructor
    · intro h
      refine ipVal_inj _ _ (by rw [hlen1]; rfl) hok1 (by unfold bytesOK; decide) ?_
      rw [h]
      rfl
    · intro h
      rw [h]
      rfl
  have hcond : (ip.take 10 = List.replicate 10 0 ∧ ip.getD 10 0 = 255 ∧ ip.getD 11 0 = 255)
      ↔ ip.take 12 = v4mapped := by
    have h10 : ip.take 11 = ip.take 10 ++ (ip[10]?).toList := List.take_succ
    have h11 : ip.take 12 = ip.take 11 ++ (ip[11]?).toList := List.take_succ
    have hg10 : ip[10]? = some (ip.getD 10 0) := by
      rw [List.getD_eq_getElem?_getD]
      cases hx : ip[10]? with
      | none => rw [List.getElem?_eq_none_iff] at hx; omega
      | some v => rfl
    have hg11 : ip[11]? = some (ip.getD 11 0) := by
      rw [List.getD_eq_getElem?_getD]
      cases hx : ip[11]? with
      | none => rw [List.getElem?_eq_none_iff] at hx; omega
      | some v => rfl
    rw [h11, h10, hg10, hg11]
    have hv4 : v4mapped = List.replicate 10 0 ++ [(255 : Nat)] ++ [(255 : Nat)] := by decide
    constructor
    · rintro ⟨hz, h1, h2⟩
      rw [hz, h1, h2, hv4]
      simp
    · intro h
      rw [hv4] at h
      have hlt : (ip.take 10).length = 10 := by rw [List.length_take]; omega
      have e1 := List.append_inj h (by simp [hlt])
      have e2 := List.append_inj e1.1 (by simp [hlt])
      refine ⟨e2.1, ?_, ?_⟩
      · have h2 := e2.2
        simp at h2
        rw [List.getD_eq_getElem?_getD]
        exact h2
      · have h2 := e1.2
        simp at h2
        rw [List.getD_eq_getElem?_getD]
        exact h2
  unfold to4
  rw [if_neg (by omega)]
  rw [hval]
  by_cases hc : ip.take 10 = List.replicate 10 0 ∧ ip.getD 10 0 = 255 ∧ ip.getD 11 0 = 255
  · rw [if_pos ⟨hlen, hc.1, hc.2.1, hc.2.2⟩]
    have h65 : ipVal (List.take 12 ip) = 65535 := htake.mpr (hcond.mp hc)
    simp [h65]
  · rw [if_neg (fun h => hc ⟨h.2.1, h.2.2.1, h.2.2.2⟩)]
    constructor
    · intro _ hcon
      exact hc (hcond.mpr (htake.mp hcon))
    · intro _
      rfl

/-! ## Constructors of canonical nets -/

theorem cidrMask_eq (k w : Nat) (hw : w = 4 ∨ w = 16) (hk : k ≤ 8 * w) :
    cidrMask (k : Int) (8 * w) = cidrMaskAux k w := by
  unfold cidrMask
  rcases hw with rfl | rfl
  · rw [if_neg (by norm_num), if_neg (by omega)]
    norm_num
  · rw [if_neg (by norm_num), if_neg (by omega)]
    norm_num

theorem olen_mk (ip : List Nat) (k w : Nat) (hk : k ≤ 8 * w) :
    olen ⟨ip, cidrMaskAux k w⟩ = k := by
  unfold olen
  rw [show (IPNet.mk ip (cidrMaskAux k w)).mask = cidrMaskAux k w from rfl]
  rw [maskSize_cidrMaskAux k w hk]

theorem canon_mk (w k : Nat) (ip : List Nat) (hw : w = 4 ∨ w = 16) (hk : k ≤ 8 * w)
    (hlen : ip.length = w) (hok : bytesOK ip)
    (hz : ipVal ip % 2 ^ (8 * w - k) = 0) : Canon w ⟨ip, cidrMaskAux k w⟩ := by
  have ho := olen_mk ip k w hk
  exact ⟨hw, hlen, hok, by rw [ho]; exact hk, by rw [ho], by
    unfold start szE
    rw [ho]
    exact hz⟩

theorem pure_mk (w k : Nat) (ip : List Nat) (hw : w = 4 ∨ w = 16) (hk : k ≤ 8 * w)
    (hlen : ip.length = w) (hok : bytesOK ip)
    (hz : ipVal ip % 2 ^ (8 * w - k) = 0) (hmap : w = 16 → to4 ip = none) :
    Pure w ⟨ip, cidrMaskAux k w⟩ :=
  ⟨canon_mk w k ip hw hk hlen hok hz, hmap⟩

theorem natToBytes_length (w x : Nat) : (natToBytes w x).length = w := by
  induction w generalizing x with
  | zero => rfl
  | succ w ih => simp [natToBytes, ih]

theorem natToBytes_ok (w x : Nat) : bytesOK (natToBytes w x) := by
  induction w generalizing x with
  | zero => intro z hz; simp [natToBytes] at hz
  | succ w ih =>
    intro z hz
    simp only [natToBytes, List.mem_append, List.mem_singleton] at hz
    rcases hz with hz | rfl
    · exact ih (x / 256) z hz
    · exact Nat.mod_lt x (by norm_num)

theorem ipVal_natToBytes (w x : Nat) (h : x < 256 ^ w) :
    ipVal (natToBytes w x) = x := by
  induction w generalizing x with
  | zero =>
    simp [natToBytes, ipVal]
    omega
  | succ w ih =>
    simp only [natToBytes]
    rw [ipVal_append]
    have hx : x / 256 < 256 ^ w := by
      rw [Nat.div_lt_iff_lt_mul (by norm_num)]
      calc x < 256 ^ (w + 1) := h
        _ = 256 ^ w * 256 := by rw [pow_succ]
    rw [ih (x / 256) hx]
    have : ipVal [x % 256] = x % 256 := by
      rw [show [x % 256] = (x % 256) :: ([] : List Nat) from rfl, ipVal_cons]
      simp [ipVal]
    rw [this]
    simp only [List.length_singleton, pow_one]
    omega

/-- `ipToNet` produces the canonical host net. -/
theorem ipToNet_char (w : Nat) (ip : List Nat) (hw : w = 4 ∨ w = 16) (hlen : ip.length = w)
    (hok : bytesOK ip) (hmap : w = 16 → to4 ip = none) :
    Pure w (ipToNet ip) ∧ olen (ipToNet ip) = 8 * w ∧ start (ipToNet ip) = ipVal ip := by
  have hmask : ipToNet ip = ⟨ip, cidrMaskAux (8 * w) w⟩ := by
    unfold ipToNet
    rw [hlen]
    have hcast : (8 * (w : Int)) = ((8 * w : Nat) : Int) := by push_cast; ring
    rw [hcast, cidrMask_eq (8 * w) w hw (le_refl _)]
  rw [hmask]
  have hz : ipVal ip % 2 ^ (8 * w - 8 * w) = 0 := by rw [Nat.sub_self, pow_zero, Nat.mod_one]
  exact ⟨pure_mk w (8 * w) ip hw (le_refl _) hlen hok hz hmap,
    olen_mk ip (8 * w) w (le_refl _), rfl⟩

/-- Value comparison of the addresses of two well-formed nets. -/
theorem bytesCmp_start (w : Nat) (a b : IPNet) (ha : NetOK w a) (hb : NetOK w b) :
    (bytesCmp a.ip b.ip = .lt ↔ start a < start b) ∧
    (bytesCmp a.ip b.ip = .eq ↔ a.ip = b.ip) ∧
    (bytesCmp a.ip b.ip = .gt ↔ start b < start a) := by
  have hlen : a.ip.length = b.ip.length := by rw [ha.iplen, hb.iplen]
  exact ⟨bytesCmp_lt_iff a.ip b.ip hlen ha.ipok hb.ipok,
    bytesCmp_eq_iff a.ip b.ip hlen,
    bytesCmp_gt_iff a.ip b.ip hlen ha.ipok hb.ipok⟩

/-! ## `divideNetInHalf` characterization -/

/-- Pointwise combination of three byte lists. -/
def zipWith3 (g : Nat → Nat → Nat → Nat) : List Nat → List Nat → List Nat → List Nat
  | a :: as, b :: bs, c :: cs => g a b c :: zipWith3 g as bs cs
  | _, _, _ => []

/-- The byte operation of `divideNetInHalf`'s loop:
`ip[i] = mask[i] & (n.IP[i] | (mask[i] ^ n.Mask[i]))`. -/
def halfF (m' b m : Nat) : Nat := m' &&& (b ||| (m' ^^^ m))

theorem zipWith3_length (g : Nat → Nat → Nat → Nat) (a b c : List Nat)
    (hab : a.length = b.length) (hac : a.length = c.length) :
    (zipWith3 g a b c).length = a.length := by
  induction a generalizing b c with
  | nil =>
    cases b with
    | nil => rfl
    | cons y bs => simp at hab
  | cons x as ih =>
    cases b with
    | nil => simp at hab
    | cons y bs =>
      cases c with
      | nil => simp at hac
      | cons z cs =>
        simp only [zipWith3, List.length_cons]
        rw [ih bs cs (by simpa using hab) (by simpa using hac)]

theorem map_range_getD_zip3 (g : Nat → Nat → Nat → Nat) (a b c : List Nat) (w : Nat)
    (ha : a.length = w) (hb : b.length = w) (hc : c.length = w) :
    (List.range w).map (fun i => g (a.getD i 0) (b.getD i 0) (c.getD i 0)) =
      zipWith3 g a b c := by
  induction w generalizing a b c with
  | zero =>
    have : a = [] := List.length_eq_zero.mp ha
    have hb' : b = [] := List.length_eq_zero.mp hb
    have hc' : c = [] := List.length_eq_zero.mp hc
    subst this; subst hb'; subst hc'
    rfl
  | succ w ih =>
    cases a with
    | nil => simp at ha
    | cons x as =>
      cases b with
      | nil => simp at hb
      | cons y bs =>
        cases c with
        | nil => simp at hc
        | cons z cs =>
          rw [List.range_succ_eq_map]
          simp only [List.map_cons, List.map_map, List.getD_cons_zero, zipWith3]
          congr 1
          rw [show ((fun i => g ((x :: as).getD i 0) ((y :: bs).getD i 0) ((z :: cs).getD i 0))
              ∘ Nat.succ) = (fun i => g (as.getD i 0) (bs.getD i 0) (cs.getD i 0)) from ?_]
          · exact ih as bs cs (by simpa using ha) (by simpa using hb) (by simpa using hc)
          · funext i
            simp [List.getD_cons_succ]

/-- The second-half mask with one more bit, below a byte boundary. -/
theorem cidrMaskAux_succ_lt8 (k len : Nat) (hk : k < 8) :
    cidrMaskAux (k + 1) (len + 1) = (255 - (255 >>> (k + 1))) :: List.replicate len 0 := by
  by_cases h8 : 8 ≤ k + 1
  · have hk7 : k = 7 := by omega
    subst hk7
    simp only [cidrMaskAux, h8, if_true]
    rw [cidrMaskAux_zero]
    congr 1
  · simp only [cidrMaskAux, h8, if_false]
    rw [cidrMaskAux_zero]

theorem zipWith3_halfF_zero (len : Nat) :
    zipWith3 halfF (List.replicate len 0) (List.replicate len 0) (List.replicate len 0)
      = List.replicate len 0 := by
  induction len with
  | zero => rfl
  | succ len ih =>
    simp only [List.replicate_succ, zipWith3, ih]
    rfl

/-- Value of the second half's address bytes: the original address with the
next bit set. -/
theorem halfBytes_val (l : List Nat) (k : Nat) (hok : bytesOK l) (hk : k < 8 * l.length)
    (hz : ipVal l % 2 ^ (8 * l.length - k) = 0) :
    ipVal (zipWith3 halfF (cidrMaskAux (k + 1) l.length) l (cidrMaskAux k l.length)) =
      ipVal l + 2 ^ (8 * l.length - k - 1) ∧
    bytesOK (zipWith3 halfF (cidrMaskAux (k + 1) l.length) l (cidrMaskAux k l.length)) := by
  induction l generalizing k with
  | nil => simp at hk
  | cons b t ih =>
    have hb : b < 256 := hok b (by simp)
    have htok : bytesOK t := fun z hz => hok z (by simp [hz])
    have htlt : ipVal t < 256 ^ t.length := ipVal_lt t htok
    have h256 : (256 : Nat) ^ t.length = 2 ^ (8 * t.length) := by
      rw [show (256 : Nat) = 2 ^ 8 from by norm_num, ← pow_mul]
    by_cases h8 : 8 ≤ k
    · have hm : cidrMaskAux k (b :: t).length = 255 :: cidrMaskAux (k - 8) t.length := by
        simp [cidrMaskAux, h8]
      have hm' : cidrMaskAux (k + 1) (b :: t).length
          = 255 :: cidrMaskAux (k - 8 + 1) t.length := by
        simp only [List.length_cons, cidrMaskAux, show 8 ≤ k + 1 from by omega, if_true]
        congr 2
        omega
      rw [hm, hm']
      simp only [zipWith3]
      have hhead : halfF 255 b 255 = b := by
        have hfact : ∀ c < 256, halfF 255 c 255 = c := by decide
        exact hfact b hb
      rw [hhead]
      have hexp : 8 * (b :: t).length - k = 8 * t.length - (k - 8) := by
        simp only [List.length_cons]; omega
      rw [hexp] at hz
      have hvz : ipVal t % 2 ^ (8 * t.length - (k - 8)) = 0 := by
        have hdvd : (2 : Nat) ^ (8 * t.length - (k - 8)) ∣ 256 ^ t.length := by
          rw [h256]
          exact pow_dvd_pow 2 (by omega)
        have hself : ipVal (b :: t) % 256 ^ t.length = ipVal t := by
          rw [ipVal_cons, Nat.mul_add_mod' b _ _, Nat.mod_eq_of_lt htlt]
        calc ipVal t % 2 ^ (8 * t.length - (k - 8))
            = ipVal (b :: t) % 256 ^ t.length % 2 ^ (8 * t.length - (k - 8)) := by rw [hself]
          _ = ipVal (b :: t) % 2 ^ (8 * t.length - (k - 8)) := Nat.mod_mod_of_dvd _ hdvd
          _ = 0 := hz
      have hklt : k - 8 < 8 * t.length := by
        simp only [List.length_cons] at hk
        omega
      obtain ⟨hval, hok2⟩ := ih (k - 8) htok hklt hvz
      constructor
      · rw [ipVal_cons, ipVal_cons, hval]
        rw [zipWith3_length halfF (cidrMaskAux (k - 8 + 1) t.length) t
          (cidrMaskAux (k - 8) t.length) (by rw [cidrMaskAux_length])
          (by rw [cidrMaskAux_length, cidrMaskAux_length]), cidrMaskAux_length]
        have hex2 : 8 * (b :: t).length - k - 1 = 8 * t.length - (k - 8) - 1 := by
          simp only [List.length_cons]; omega
        rw [hex2]
        ring
      · intro z hz2
        simp only [List.mem_cons] at hz2
        rcases hz2 with rfl | hz2
        · exact hb
        · exact hok2 z hz2
    · have hk8 : k < 8 := by omega
      have hm : cidrMaskAux k (b :: t).length
          = (255 - (255 >>> k)) :: List.replicate t.length 0 := by
        simp only [List.length_cons, cidrMaskAux, h8, if_false]
        rw [cidrMaskAux_zero]
      have hm' : cidrMaskAux (k + 1) (b :: t).length
          = (255 - (255 >>> (k + 1))) :: List.replicate t.length 0 := by
        simp only [List.length_cons]
        exact cidrMaskAux_succ_lt8 k t.length hk8
      rw [hm, hm']
      have hexp : 8 * (b :: t).length - k = 8 * t.length + (8 - k) := by
        simp only [List.length_cons]; omega
      rw [hexp] at hz
      have hsplit : (2 : Nat) ^ (8 * t.length + (8 - k)) = 256 ^ t.length * 2 ^ (8 - k) := by
        rw [pow_add, h256]
      rw [hsplit] at hz
      have hP : (0 : Nat) < 256 ^ t.length := Nat.pos_pow_of_pos _ (by norm_num)
      have hPQ : ipVal (b :: t) % 256 ^ t.length = ipVal t := by
        rw [ipVal_cons, Nat.mul_add_mod' b _ _, Nat.mod_eq_of_lt htlt]
      have hv0 : ipVal t = 0 := by
        have hdvd2 : 256 ^ t.length ∣ ipVal (b :: t) :=
          dvd_trans ⟨2 ^ (8 - k), rfl⟩ (Nat.dvd_of_mod_eq_zero hz)
        rw [← hPQ]
        obtain ⟨c, hc⟩ := hdvd2
        rw [hc, Nat.mul_mod_right]
      have hb0 : b % 2 ^ (8 - k) = 0 := by
        rw [ipVal_cons, hv0, Nat.add_zero] at hz
        obtain ⟨c, hc⟩ := Nat.dvd_of_mod_eq_zero hz
        have hbc : b = 2 ^ (8 - k) * c := by
          have heq : 256 ^ t.length * b = 256 ^ t.length * (2 ^ (8 - k) * c) := by
            rw [Nat.mul_comm (256 ^ t.length) b, hc]
            ring
          exact Nat.eq_of_mul_eq_mul_left hP heq
        rw [hbc]
        simp [Nat.mul_mod_right]
      have ht : t = List.replicate t.length 0 :=
        ipVal_inj t _ (by rw [List.length_replicate]) htok
          (by intro z hz2; rw [List.eq_of_mem_replicate hz2]; norm_num)
          (by rw [hv0, ipVal_replicate_zero])
      rw [ht]
      simp only [zipWith3, List.length_replicate]
      have hhead : halfF (255 - (255 >>> (k + 1))) b (255 - (255 >>> k)) = b + 2 ^ (7 - k) ∧
          b + 2 ^ (7 - k) < 256 := by
        have hfact : ∀ c < 256, ∀ j < 8, c % 2 ^ (8 - j) = 0 →
            (halfF (255 - (255 >>> (j + 1))) c (255 - (255 >>> j)) = c + 2 ^ (7 - j) ∧
             c + 2 ^ (7 - j) < 256) := by decide
        exact hfact b hb k hk8 hb0
      rw [hhead.1, zipWith3_halfF_zero]
      constructor
      · rw [ipVal_cons, ipVal_cons, ipVal_replicate_zero, List.length_replicate]
        have hex : 8 * (b :: List.replicate t.length 0).length - k - 1
            = 8 * t.length + (7 - k) := by
          simp only [List.length_cons, List.length_replicate]
          omega
        rw [hex, pow_add, h256]
        ring
      · intro z hz2
        simp only [List.mem_cons] at hz2
        rcases hz2 with rfl | hz2
        · exact hhead.2
        · rw [List.eq_of_mem_replicate hz2]
          norm_num

theorem mod_pow_zero_step (x a b : Nat) (hab : a ≤ b) (h : x % 2 ^ b = 0) :
    x % 2 ^ a = 0 := by
  obtain ⟨c, hc⟩ := Nat.dvd_of_mod_eq_zero h
  rw [hc, show (2 : Nat) ^ b = 2 ^ a * 2 ^ (b - a) from by rw [← pow_add]; congr 1; omega]
  rw [Nat.mul_assoc]
  exact Nat.mul_mod_right _ _

/-- `divideNetInHalf` computed on a canonical net. -/
theorem divideNetInHalf_eq (w : Nat) (n : IPNet) (hn : Canon w n) (hlt : olen n < 8 * w) :
    divideNetInHalf n =
      (⟨n.ip, cidrMaskAux (olen n + 1) w⟩,
       ⟨zipWith3 halfF (cidrMaskAux (olen n + 1) w) n.ip (cidrMaskAux (olen n) w),
        cidrMaskAux (olen n + 1) w⟩) := by
  have hms : maskSize n.mask = (olen n, 8 * w) := by
    rw [hn.maskc, maskSize_cidrMaskAux _ _ hn.klen]
  have hcast : ((olen n : Int) + 1) = ((olen n + 1 : Nat) : Int) := by push_cast; ring
  have hmask' : cidrMask ((olen n : Int) + 1) (8 * w) = cidrMaskAux (olen n + 1) w := by
    rw [hcast, cidrMask_eq (olen n + 1) w hn.hw (by omega)]
  have hwif : (if 8 * w = 32 then 4 else 16) = w := by
    rcases hn.hw with rfl | rfl <;> norm_num
  unfold divideNetInHalf
  rw [hms]
  simp only [hwif, hmask']
  have hdiv8 : 8 * w / 8 = w := by omega
  rw [hdiv8]
  congr 1
  congr 1
  rw [← map_range_getD_zip3 halfF (cidrMaskAux (olen n + 1) w) n.ip
    (cidrMaskAux (olen n) w) w (by rw [cidrMaskAux_length]) hn.iplen
    (by rw [cidrMaskAux_length])]
  refine List.map_congr_left ?_
  intro i hi
  rw [List.mem_range] at hi
  rw [if_pos hi]
  unfold halfF
  rw [hn.maskc]

/-- The two halves of a canonical net: canonical, one bit longer, the first
keeps the address, the second starts at the midpoint. -/
theorem divideNetInHalf_char (w : Nat) (n : IPNet) (hn : Canon w n) (hlt : olen n < 8 * w) :
    Canon w (divideNetInHalf n).1 ∧ Canon w (divideNetInHalf n).2 ∧
    olen (divideNetInHalf n).1 = olen n + 1 ∧ olen (divideNetInHalf n).2 = olen n + 1 ∧
    start (divideNetInHalf n).1 = start n ∧
    start (divideNetInHalf n).2 = start n + 2 ^ (8 * w - olen n - 1) ∧
    (divideNetInHalf n).1.ip = n.ip := by
  have heq := divideNetInHalf_eq w n hn hlt
  have hz8 : ipVal n.ip % 2 ^ (8 * n.ip.length - olen n) = 0 := by
    rw [hn.iplen]
    exact hn.hostz
  have hk8 : olen n < 8 * n.ip.length := by rw [hn.iplen]; exact hlt
  have hv := halfBytes_val n.ip (olen n) hn.ipok hk8 hz8
  have hlen2 : (zipWith3 halfF (cidrMaskAux (olen n + 1) w) n.ip
      (cidrMaskAux (olen n) w)).length = w := by
    rw [zipWith3_length halfF _ _ _ (by rw [cidrMaskAux_length, hn.iplen])
      (by rw [cidrMaskAux_length, cidrMaskAux_length]), cidrMaskAux_length]
  have hmw : cidrMaskAux (olen n + 1) n.ip.length = cidrMaskAux (olen n + 1) w := by
    rw [hn.iplen]
  have hmw2 : cidrMaskAux (olen n) n.ip.length = cidrMaskAux (olen n) w := by
    rw [hn.iplen]
  rw [hmw, hmw2] at hv
  have hval2 : ipVal (zipWith3 halfF (cidrMaskAux (olen n + 1) w) n.ip
      (cidrMaskAux (olen n) w)) = start n + 2 ^ (8 * w - olen n - 1) := by
    rw [hv.1, hn.iplen]
    rfl
  have hz1 : ipVal n.ip % 2 ^ (8 * w - (olen n + 1)) = 0 :=
    mod_pow_zero_step _ _ _ (by omega) hn.hostz
  have hcfst : Canon w ⟨n.ip, cidrMaskAux (olen n + 1) w⟩ :=
    canon_mk w (olen n + 1) n.ip hn.hw (by omega) hn.iplen hn.ipok hz1
  have hz2 : ipVal (zipWith3 halfF (cidrMaskAux (olen n + 1) w) n.ip
      (cidrMaskAux (olen n) w)) % 2 ^ (8 * w - (olen n + 1)) = 0 := by
    rw [hval2, show 8 * w - olen n - 1 = 8 * w - (olen n + 1) from by omega,
        Nat.add_mod]
    have h1 : start n % 2 ^ (8 * w - (olen n + 1)) = 0 :=
      mod_pow_zero_step _ _ _ (by omega) hn.hostz
    rw [h1, Nat.mod_self]
    simp
  have hcsnd : Canon w ⟨zipWith3 halfF (cidrMaskAux (olen n + 1) w) n.ip
      (cidrMaskAux (olen n) w), cidrMaskAux (olen n + 1) w⟩ :=
    canon_mk w (olen n + 1) _ hn.hw (by omega) hlen2 hv.2 hz2
  rw [heq]
  refine ⟨hcfst, hcsnd, olen_mk _ _ _ (by omega), olen_mk _ _ _ (by omega), rfl, hval2, rfl⟩

/-! ### Fragments: the payload of `netDifference` -/

/-- Two canonical nets share no address. -/
def disjN (w : Nat) (a b : IPNet) : Prop := ∀ x, ¬ (memN w a x ∧ memN w b x)

theorem disjN_symm (w : Nat) (a b : IPNet) (h : disjN w a b) : disjN w b a :=
  fun x hx => h x ⟨hx.2, hx.1⟩

theorem memN_mono (w : Nat) (a b : IPNet) (ha : Canon w a) (hb : Canon w b)
    (hab : covers w a b) (x : Nat) (hx : memN w b x) : memN w a x := by
  rw [memN_iff w b hb] at hx
  rw [memN_iff w a ha]
  rw [covers_iff_interval w a b ha hb] at hab
  omega

theorem covers_iff_memN_start (w : Nat) (c b : IPNet) :
    covers w c b ↔ olen c ≤ olen b ∧ memN w c (start b) := Iff.rfl

theorem szE_half (w : Nat) (f : IPNet) (k : Nat) (h : olen f = k + 1) :
    szE w f = 2 ^ (8 * w - k - 1) := by
  unfold szE
  rw [h]
  congr 1

theorem szE_split (w : Nat) (n : IPNet) (h : olen n < 8 * w) :
    szE w n = 2 ^ (8 * w - olen n - 1) + 2 ^ (8 * w - olen n - 1) := by
  unfold szE
  obtain ⟨j, hj⟩ : ∃ j, 8 * w - olen n = j + 1 := ⟨8 * w - olen n - 1, by omega⟩
  rw [hj]
  simp only [Nat.add_sub_cancel]
  rw [pow_succ]
  omega

/-- A canonical net whose interval contains a non-v4-mapped address is not
itself v4-mapped. -/
theorem nomap_of_covers (h b : IPNet) (hh : Canon 16 h) (hb : Pure 16 b)
    (hcov : covers 16 h b) : to4 h.ip = none := by
  rw [to4_char h.ip hh.iplen hh.ipok]
  intro hmap
  rcases le_or_lt (olen h) 95 with hk | hk
  · have h33 : ipVal h.ip % 2 ^ 33 = 0 :=
      mod_pow_zero_step _ _ _ (by omega) hh.hostz
    obtain ⟨c, hc⟩ := Nat.dvd_of_mod_eq_zero h33
    rw [hc, show (2 : Nat) ^ 33 * c = 2 ^ 32 * (2 * c) from by ring,
      Nat.mul_div_cancel_left _ (by norm_num)] at hmap
    omega
  · have hdvd : szE 16 h ∣ 2 ^ 32 := pow_dvd_pow 2 (by omega)
    have hb32 : start b / 2 ^ 32 = start h / 2 ^ 32 :=
      div_div_congr (szE 16 h) (2 ^ 32) _ _ hdvd (by norm_num) hcov.2
    have hbmap : ¬ ipVal b.ip / 2 ^ 32 = 65535 := by
      rw [← to4_char b.ip hb.iplen hb.ipok]
      exact hb.nomap rfl
    exact hbmap (by rw [show ipVal b.ip = start b from rfl, hb32]; exact hmap)

/-- The two halves of a canonical net partition its interval. -/
theorem halves_partition (w : Nat) (a : IPNet) (ha : Canon w a) (hlt : olen a < 8 * w)
    (x : Nat) :
    memN w a x ↔ memN w (divideNetInHalf a).1 x ∨ memN w (divideNetInHalf a).2 x := by
  obtain ⟨hc1, hc2, ho1, ho2, hs1, hs2, _⟩ := divideNetInHalf_char w a ha hlt
  rw [memN_iff w a ha, memN_iff w _ hc1, memN_iff w _ hc2,
    szE_half w _ _ ho1, szE_half w _ _ ho2, hs1, hs2, szE_split w a hlt]
  omega

/-- The two halves of a canonical net are disjoint. -/
theorem halves_disj (w : Nat) (a : IPNet) (ha : Canon w a) (hlt : olen a < 8 * w) :
    disjN w (divideNetInHalf a).1 (divideNetInHalf a).2 := by
  obtain ⟨hc1, hc2, ho1, ho2, hs1, hs2, _⟩ := divideNetInHalf_char w a ha hlt
  intro x hx
  rw [memN_iff w _ hc1, memN_iff w _ hc2, szE_half w _ _ ho1, szE_half w _ _ ho2,
    hs1, hs2] at hx
  omega

/-- A net strictly inside a canonical net lies in exactly the half picked by
comparing its start with the midpoint. -/
theorem half_pick (w : Nat) (a b : IPNet) (ha : Canon w a) (hb : Canon w b)
    (hab : covers w a b) (hlt : olen a < olen b) (h8 : olen b ≤ 8 * w) :
    (start b < start (divideNetInHalf a).2 → covers w (divideNetInHalf a).1 b) ∧
    (¬ start b < start (divideNetInHalf a).2 → covers w (divideNetInHalf a).2 b) := by
  have hlt8 : olen a < 8 * w := by omega
  obtain ⟨hc1, hc2, ho1, ho2, hs1, hs2, _⟩ := divideNetInHalf_char w a ha hlt8
  have hmem : memN w a (start b) := hab.2
  have hpart := halves_partition w a ha hlt8 (start b)
  rw [hpart] at hmem
  constructor
  · intro hx
    rw [covers_iff_memN_start]
    refine ⟨by omega, ?_⟩
    rcases hmem with hm | hm
    · exact hm
    · rw [memN_iff w _ hc2, szE_half w _ _ ho2] at hm
      omega
  · intro hx
    rw [covers_iff_memN_start]
    refine ⟨by omega, ?_⟩
    rcases hmem with hm | hm
    · rw [memN_iff w _ hc1, szE_half w _ _ ho1, hs1] at hm
      exact absurd (by omega) hx
    · exact hm

structure Frags (w : Nat) (a b : IPNet) (cs : List IPNet) : Prop where
  canon : ∀ c ∈ cs, Canon w c
  inA : ∀ c ∈ cs, covers w a c
  len : cs.length = olen b - olen a
  olens : ∀ i (hi : i < cs.length), olen cs[i] = olen a + 1 + i
  disjB : ∀ c ∈ cs, disjN w c b
  pw : cs.Pairwise (disjN w)
  union : ∀ x, memN w a x ↔ (memN w b x ∨ ∃ c ∈ cs, memN w c x)

theorem netDifferenceF_succ (fuel : Nat) (a b : IPNet) :
    netDifferenceF (fuel + 1) a b =
      if a.ip.length ≠ b.ip.length then [a]
      else if containsNet b a then []
      else if !containsNet a b then [a]
      else if bytesCmp b.ip (divideNetInHalf a).2.ip = .lt then
        (divideNetInHalf a).2 :: netDifferenceF fuel (divideNetInHalf a).1 b
      else
        (divideNetInHalf a).1 :: netDifferenceF fuel (divideNetInHalf a).2 b := rfl

/-- The recursion of `netDifference` computes exactly the fragments of
`a` minus `b` whenever `a` covers `b` and the fuel is ample. -/
theorem netDifferenceF_spec (w : Nat) :
    ∀ d a b fuel, Pure w a → Pure w b → covers w a b → olen b ≤ 8 * w →
      olen b - olen a = d → d + 1 ≤ fuel →
      Frags w a b (netDifferenceF fuel a b) := by
  intro d
  induction d with
  | zero =>
    intro a b fuel ha hb hab h8 hd hfuel
    obtain ⟨fuel, rfl⟩ : ∃ f, fuel = f + 1 := ⟨fuel - 1, by omega⟩
    obtain ⟨hab1, hab2⟩ := hab
    have holen : olen a = olen b := by omega
    have hstart : start a = start b :=
      canon_start_eq w a b ha.toCanon hb.toCanon (by omega) hab2
    have hba : covers w b a := ⟨by omega, by rw [hstart]⟩
    have hcna : containsNet b a = true := (containsNet_pure w b a hb ha).mpr hba
    have hres : netDifferenceF (fuel + 1) a b = [] := by
      rw [netDifferenceF_succ,
        if_neg (show ¬ a.ip.length ≠ b.ip.length from
          fun h => h (by rw [ha.iplen, hb.iplen])),
        if_pos hcna]
    rw [hres]
    have hsz : szE w a = szE w b := by unfold szE; rw [holen]
    refine ⟨?_, ?_, ?_, ?_, ?_, List.Pairwise.nil, ?_⟩
    · intro c hc
      exact absurd hc (List.not_mem_nil c)
    · intro c hc
      exact absurd hc (List.not_mem_nil c)
    · rw [List.length_nil]
      omega
    · intro i hi
      rw [List.length_nil] at hi
      exact absurd hi (by omega)
    · intro c hc
      exact absurd hc (List.not_mem_nil c)
    · intro x
      rw [memN_iff w a ha.toCanon, memN_iff w b hb.toCanon, hstart, hsz]
      simp
  | succ d ih =>
    intro a b fuel ha hb hab h8 hd hfuel
    obtain ⟨fuel, rfl⟩ : ∃ f, fuel = f + 1 := ⟨fuel - 1, by omega⟩
    obtain ⟨hab1, hab2⟩ := hab
    have hab : covers w a b := ⟨hab1, hab2⟩
    have hln : olen a < olen b := by omega
    have hlt8 : olen a < 8 * w := by omega
    have hba : ¬ covers w b a := fun hc => absurd hc.1 (by omega)
    have hcna : containsNet b a = false := by
      rcases Bool.eq_false_or_eq_true (containsNet b a) with h | h
      · exact absurd ((containsNet_pure w b a hb ha).mp h) hba
      · exact h
    have hcab : containsNet a b = true := (containsNet_pure w a b ha hb).mpr hab
    obtain ⟨hc1, hc2, ho1, ho2, hs1, hs2, hip1⟩ :=
      divideNetInHalf_char w a ha.toCanon hlt8
    have hpick := half_pick w a b ha.toCanon hb.toCanon hab hln h8
    have hdisj12 := halves_disj w a ha.toCanon hlt8
    have hpart := halves_partition w a ha.toCanon hlt8
    have hKpos : 0 < 2 ^ (8 * w - olen a - 1) := Nat.pos_pow_of_pos _ (by omega)
    have hcov1 : covers w a (divideNetInHalf a).1 := ⟨by omega, by rw [hs1]⟩
    have hcov2 : covers w a (divideNetInHalf a).2 := by
      rw [covers_iff_memN_start]
      refine ⟨by omega, ?_⟩
      rw [memN_iff w a ha.toCanon, hs2, szE_split w a hlt8]
      omega
    have hblen : b.ip.length = (divideNetInHalf a).2.ip.length := by
      rw [hb.iplen, hc2.iplen]
    have hcmp := bytesCmp_lt_iff b.ip (divideNetInHalf a).2.ip hblen hb.ipok hc2.ipok
    by_cases hlt2 : start b < start (divideNetInHalf a).2
    · have hbr : bytesCmp b.ip (divideNetInHalf a).2.ip = .lt := hcmp.mpr hlt2
      have hcovh : covers w (divideNetInHalf a).1 b := hpick.1 hlt2
      have hpure1 : Pure w (divideNetInHalf a).1 :=
        ⟨hc1, fun h16 => by rw [hip1]; exact ha.nomap h16⟩
      obtain ⟨ihcanon, ihinA, ihlen, iholens, ihdisjB, ihpw, ihunion⟩ :=
        ih (divideNetInHalf a).1 b fuel hpure1 hb hcovh h8 (by omega) (by omega)
      have hres : netDifferenceF (fuel + 1) a b =
          (divideNetInHalf a).2 :: netDifferenceF fuel (divideNetInHalf a).1 b := by
        rw [netDifferenceF_succ,
          if_neg (show ¬ a.ip.length ≠ b.ip.length from
            fun h => h (by rw [ha.iplen, hb.iplen])),
          if_neg (show ¬ containsNet b a = true from by rw [hcna]; simp),
          if_neg (show ¬ (!containsNet a b) = true from by rw [hcab]; simp),
          if_pos hbr]
      rw [hres]
      refine ⟨?_, ?_, ?_, ?_, ?_, ?_, ?_⟩
      · intro c hc
        rcases List.mem_cons.mp hc with rfl | hc'
        · exact hc2
        · exact ihcanon c hc'
      · intro c hc
        rcases List.mem_cons.mp hc with rfl | hc'
        · exact hcov2
        · exact covers_trans w a (divideNetInHalf a).1 c ha.toCanon hc1
            (ihcanon c hc') hcov1 (ihinA c hc')
      · rw [List.length_cons, ihlen, ho1]
        omega
      · intro i hi
        match i with
        | 0 =>
          rw [List.getElem_cons_zero]
          omega
        | Nat.succ j =>
          rw [List.getElem_cons_succ]
          have hj : j < (netDifferenceF fuel (divideNetInHalf a).1 b).length := by
            rw [List.length_cons] at hi
            omega
          have := iholens j hj
          rw [ho1] at this
          omega
      · intro c hc
        rcases List.mem_cons.mp hc with rfl | hc'
        · intro x hx
          exact hdisj12 x
            ⟨memN_mono w (divideNetInHalf a).1 b hc1 hb.toCanon hcovh x hx.2, hx.1⟩
        · exact ihdisjB c hc'
      · refine List.Pairwise.cons ?_ ihpw
        intro c hc' x hx
        exact hdisj12 x
          ⟨memN_mono w (divideNetInHalf a).1 c hc1 (ihcanon c hc')
            (ihinA c hc') x hx.2, hx.1⟩
      · intro x
        constructor
        · intro hx
          rcases (hpart x).mp hx with h1 | h2
          · rcases (ihunion x).mp h1 with hbx | ⟨c, hc', hcx⟩
            · exact Or.inl hbx
            · exact Or.inr ⟨c, List.mem_cons_of_mem _ hc', hcx⟩
          · exact Or.inr ⟨_, List.mem_cons_self _ _, h2⟩
        · intro hx
          rcases hx with hbx | ⟨c, hc, hcx⟩
          · exact (hpart x).mpr (Or.inl ((ihunion x).mpr (Or.inl hbx)))
          · rcases List.mem_cons.mp hc with rfl | hc'
            · exact (hpart x).mpr (Or.inr hcx)
            · exact (hpart x).mpr (Or.inl ((ihunion x).mpr (Or.inr ⟨c, hc', hcx⟩)))
    · have hbr : ¬ bytesCmp b.ip (divideNetInHalf a).2.ip = .lt :=
        fun h => hlt2 (hcmp.mp h)
      have hcovh : covers w (divideNetInHalf a).2 b := hpick.2 hlt2
      have hpure2 : Pure w (divideNetInHalf a).2 :=
        ⟨hc2, fun h16 => nomap_of_covers (divideNetInHalf a).2 b
          (h16 ▸ hc2) (h16 ▸ hb) (h16 ▸ hcovh)⟩
      obtain ⟨ihcanon, ihinA, ihlen, iholens, ihdisjB, ihpw, ihunion⟩ :=
        ih (divideNetInHalf a).2 b fuel hpure2 hb hcovh h8 (by omega) (by omega)
      have hres : netDifferenceF (fuel + 1) a b =
          (divideNetInHalf a).1 :: netDifferenceF fuel (divideNetInHalf a).2 b := by
        rw [netDifferenceF_succ,
          if_neg (show ¬ a.ip.length ≠ b.ip.length from
            fun h => h (by rw [ha.iplen, hb.iplen])),
          if_neg (show ¬ containsNet b a = true from by rw [hcna]; simp),
          if_neg (show ¬ (!containsNet a b) = true from by rw [hcab]; simp),
          if_neg hbr]
      rw [hres]
      refine ⟨?_, ?_, ?_, ?_, ?_, ?_, ?_⟩
      · intro c hc
        rcases List.mem_cons.mp hc with rfl | hc'
        · exact hc1
        · exact ihcanon c hc'
      · intro c hc
        rcases List.mem_cons.mp hc with rfl | hc'
        · exact hcov1
        · exact covers_trans w a (divideNetInHalf a).2 c ha.toCanon hc2
            (ihcanon c hc') hcov2 (ihinA c hc')
      · rw [List.length_cons, ihlen, ho2]
        omega
      · intro i hi
        match i with
        | 0 =>
          rw [List.getElem_cons_zero]
          omega
        | Nat.succ j =>
          rw [List.getElem_cons_succ]
          have hj : j < (netDifferenceF fuel (divideNetInHalf a).2 b).length := by
            rw [List.length_cons] at hi
            omega
          have := iholens j hj
          rw [ho2] at this
          omega
      · intro c hc
        rcases List.mem_cons.mp hc with rfl | hc'
        · intro x hx
          exact hdisj12 x
            ⟨hx.1, memN_mono w (divideNetInHalf a).2 b hc2 hb.toCanon hcovh x hx.2⟩
        · exact ihdisjB c hc'
      · refine List.Pairwise.cons ?_ ihpw
        intro c hc' x hx
        exact hdisj12 x
          ⟨hx.1, memN_mono w (divideNetInHalf a).2 c hc2 (ihcanon c hc')
            (ihinA c hc') x hx.2⟩
      · intro x
        constructor
        · intro hx
          rcases (hpart x).mp hx with h1 | h2
          · exact Or.inr ⟨_, List.mem_cons_self _ _, h1⟩
          · rcases (ihunion x).mp h2 with hbx | ⟨c, hc', hcx⟩
            · exact Or.inl hbx
            · exact Or.inr ⟨c, List.mem_cons_of_mem _ hc', hcx⟩
        · intro hx
          rcases hx with hbx | ⟨c, hc, hcx⟩
          · exact (hpart x).mpr (Or.inr ((ihunion x).mpr (Or.inl hbx)))
          · rcases List.mem_cons.mp hc with rfl | hc'
            · exact (hpart x).mpr (Or.inl hcx)
            · exact (hpart x).mpr (Or.inr ((ihunion x).mpr (Or.inr ⟨c, hc', hcx⟩)))

/-- `netDifference` on a covering pair of canonical non-v4-mapped CIDRs. -/
theorem netDifference_frags (w : Nat) (a b : IPNet) (ha : Pure w a) (hb : Pure w b)
    (hab : covers w a b) : Frags w a b (netDifference a b) := by
  unfold netDifference
  rw [ha.iplen]
  exact netDifferenceF_spec w (olen b - olen a) a b (8 * w + 1) ha hb hab
    hb.klen rfl (by have := hb.klen; omega)

/-! ## Claim C2 -/

/-- C2: `netDifference a b` returns `[a]` when the widths differ, `[]` when
`b` contains `a`, `[a]` when neither contains the other, and otherwise the
ordered fragment list (pairwise-disjoint canonical CIDRs, each disjoint from
`b`, emitted largest prefix first, whose union with `b` is exactly `a`); on
`10.0.0.0/24` minus `10.0.0.120/29` it returns exactly
`[10.0.0.128/25, 10.0.0.0/26, 10.0.0.64/27, 10.0.0.96/28, 10.0.0.112/29]`.
Corrected: for equal widths this holds for canonical CIDRs that are not
16-byte v4-mapped; with exactly one v4-mapped operand the containment test
inside `netDifference` denies a mathematically containing pair, so the
decomposition fails (see the counterexample). -/
theorem claim_C2 :
    (∀ a b : IPNet, a.ip.length ≠ b.ip.length → netDifference a b = [a]) ∧
    (∀ w a b, Pure w a → Pure w b → covers w b a → netDifference a b = []) ∧
    (∀ w a b, Pure w a → Pure w b → ¬ covers w a b → ¬ covers w b a →
      netDifference a b = [a]) ∧
    (∀ w a b, Pure w a → Pure w b → covers w a b →
      Frags w a b (netDifference a b)) ∧
    netDifference ⟨[10, 0, 0, 0], cidrMask 24 32⟩ ⟨[10, 0, 0, 120], cidrMask 29 32⟩ =
      [⟨[10, 0, 0, 128], cidrMask 25 32⟩, ⟨[10, 0, 0, 0], cidrMask 26 32⟩,
       ⟨[10, 0, 0, 64], cidrMask 27 32⟩, ⟨[10, 0, 0, 96], cidrMask 28 32⟩,
       ⟨[10, 0, 0, 112], cidrMask 29 32⟩] := by
  refine ⟨?_, ?_, ?_, ?_, ?_⟩
  · intro a b h
    unfold netDifference
    rw [netDifferenceF_succ, if_pos h]
  · intro w a b ha hb hba
    unfold netDifference
    rw [netDifferenceF_succ,
      if_neg (show ¬ a.ip.length ≠ b.ip.length from
        fun h => h (by rw [ha.iplen, hb.iplen])),
      if_pos ((containsNet_pure w b a hb ha).mpr hba)]
  · intro w a b ha hb hnab hnba
    have hcna : containsNet b a = false := by
      rcases Bool.eq_false_or_eq_true (containsNet b a) with h | h
      · exact absurd ((containsNet_pure w b a hb ha).mp h) hnba
      · exact h
    have hcab : containsNet a b = false := by
      rcases Bool.eq_false_or_eq_true (containsNet a b) with h | h
      · exact absurd ((containsNet_pure w a b ha hb).mp h) hnab
      · exact h
    unfold netDifference
    rw [netDifferenceF_succ,
      if_neg (show ¬ a.ip.length ≠ b.ip.length from
        fun h => h (by rw [ha.iplen, hb.iplen])),
      if_neg (show ¬ containsNet b a = true from by rw [hcna]; simp),
      if_pos (show (!containsNet a b) = true from by rw [hcab]; rfl)]
  · intro w a b ha hb hab
    exact netDifference_frags w a b ha hb hab
  · decide

/-- C2 witness: the decomposition clause applied to the spec's own example
`10.0.0.0/24` minus `10.0.0.120/29`. -/
theorem claim_C2_witness :
    Frags 4 ⟨[10, 0, 0, 0], cidrMask 24 32⟩ ⟨[10, 0, 0, 120], cidrMask 29 32⟩
      (netDifference ⟨[10, 0, 0, 0], cidrMask 24 32⟩
        ⟨[10, 0, 0, 120], cidrMask 29 32⟩) :=
  claim_C2.2.2.2.1 4 ⟨[10, 0, 0, 0], cidrMask 24 32⟩ ⟨[10, 0, 0, 120], cidrMask 29 32⟩
    ⟨⟨Or.inl rfl, rfl, by unfold bytesOK; decide, by decide, by decide, by decide⟩,
      by decide⟩
    ⟨⟨Or.inl rfl, rfl, by unfold bytesOK; decide, by decide, by decide, by decide⟩,
      by decide⟩
    (by unfold covers; decide)

/-- C2 counterexample: `a = ::/0` and `b = ::ffff:0:0/128` have equal widths
and `a` mathematically contains `b` (the first `0` bits vacuously agree, and
`b`'s whole interval lies in `a`'s), so the claim requires a decomposition of
`a` minus `b` into fragments each disjoint from `b`; but `netDifference a b`
returns `[a]`, and `a` itself shares `b`'s address. -/
theorem claim_C2_cex :
    (⟨List.replicate 16 0, cidrMaskAux 0 16⟩ : IPNet).ip.length =
      (⟨[0, 0, 0, 0, 0, 0, 0, 0, 0, 0, 255, 255, 0, 0, 0, 0],
        cidrMaskAux 128 16⟩ : IPNet).ip.length ∧
    Canon 16 ⟨List.replicate 16 0, cidrMaskAux 0 16⟩ ∧
    Canon 16 ⟨[0, 0, 0, 0, 0, 0, 0, 0, 0, 0, 255, 255, 0, 0, 0, 0],
      cidrMaskAux 128 16⟩ ∧
    covers 16 ⟨List.replicate 16 0, cidrMaskAux 0 16⟩
      ⟨[0, 0, 0, 0, 0, 0, 0, 0, 0, 0, 255, 255, 0, 0, 0, 0], cidrMaskAux 128 16⟩ ∧
    netDifference ⟨List.replicate 16 0, cidrMaskAux 0 16⟩
      ⟨[0, 0, 0, 0, 0, 0, 0, 0, 0, 0, 255, 255, 0, 0, 0, 0], cidrMaskAux 128 16⟩ =
      [⟨List.replicate 16 0, cidrMaskAux 0 16⟩] ∧
    memN 16 ⟨List.replicate 16 0, cidrMaskAux 0 16⟩
      (start ⟨[0, 0, 0, 0, 0, 0, 0, 0, 0, 0, 255, 255, 0, 0, 0, 0],
        cidrMaskAux 128 16⟩) ∧
    memN 16 ⟨[0, 0, 0, 0, 0, 0, 0, 0, 0, 0, 255, 255, 0, 0, 0, 0],
        cidrMaskAux 128 16⟩
      (start ⟨[0, 0, 0, 0, 0, 0, 0, 0, 0, 0, 255, 255, 0, 0, 0, 0],
        cidrMaskAux 128 16⟩) := by
  refine ⟨rfl, ⟨Or.inr rfl, rfl, by unfold bytesOK; decide, by decide, by decide,
      by decide⟩,
    ⟨Or.inr rfl, rfl, by unfold bytesOK; decide, by decide, by decide, by decide⟩,
    ⟨by decide, by unfold start szE; decide⟩, by decide,
    by unfold memN start szE; decide, by unfold memN; decide⟩

/-! ## Claim C5 -/

/-- C5: `containsNet a b` is false whenever the byte widths differ, and for
canonical CIDRs of one width it is true exactly when `a`'s prefix is no
longer than `b`'s and the first `olen a` bits agree (with host bits zero,
bit agreement on the first `olen a` bits is division by `2 ^ (8w - olen a)`
agreeing); in particular `containsNet a a` is true.  Corrected: for equal
widths this holds for canonical CIDRs that are not 16-byte v4-mapped; when
exactly one operand is a v4-mapped address the `To4` normalization inside
`Contains` makes `containsNet` return false although the first `olen a` bits
agree (see the counterexample). -/
theorem claim_C5 :
    (∀ a b : IPNet, a.ip.length ≠ b.ip.length → containsNet a b = false) ∧
    (∀ w a b, Pure w a → Pure w b → (containsNet a b = true ↔ covers w a b)) ∧
    (∀ w a, Pure w a → containsNet a a = true) := by
  refine ⟨?_, ?_, ?_⟩
  · intro a b h
    unfold containsNet
    rw [if_pos h]
  · exact fun w a b ha hb => containsNet_pure w a b ha hb
  · exact fun w a ha => (containsNet_pure w a a ha ha).mpr (covers_refl w a)

/-- C5 witness: reflexivity at `10.0.0.0/24`. -/
theorem claim_C5_witness :
    containsNet ⟨[10, 0, 0, 0], cidrMaskAux 24 4⟩ ⟨[10, 0, 0, 0], cidrMaskAux 24 4⟩ =
      true :=
  claim_C5.2.2 4 ⟨[10, 0, 0, 0], cidrMaskAux 24 4⟩
    ⟨⟨Or.inl rfl, rfl, by unfold bytesOK; decide, by decide, by decide, by decide⟩,
      by decide⟩

/-- C5 counterexample: `a = ::/0` and `b = ::ffff:0:0/128` have the same
width, `olen a = 0 ≤ 128 = olen b`, and the first `0` bits agree vacuously
(both canonical, `a` covers `b`), yet `containsNet a b = false`: inside
`Contains` the v4-mapped `b.ip` is normalized to 4 bytes while `a`'s
network number stays 16 bytes, so the length test fails. -/
theorem claim_C5_cex :
    (⟨List.replicate 16 0, cidrMaskAux 0 16⟩ : IPNet).ip.length =
      (⟨[0, 0, 0, 0, 0, 0, 0, 0, 0, 0, 255, 255, 0, 0, 0, 0],
        cidrMaskAux 128 16⟩ : IPNet).ip.length ∧
    Canon 16 ⟨List.replicate 16 0, cidrMaskAux 0 16⟩ ∧
    Canon 16 ⟨[0, 0, 0, 0, 0, 0, 0, 0, 0, 0, 255, 255, 0, 0, 0, 0],
      cidrMaskAux 128 16⟩ ∧
    covers 16 ⟨List.replicate 16 0, cidrMaskAux 0 16⟩
      ⟨[0, 0, 0, 0, 0, 0, 0, 0, 0, 0, 255, 255, 0, 0, 0, 0], cidrMaskAux 128 16⟩ ∧
    containsNet ⟨List.replicate 16 0, cidrMaskAux 0 16⟩
      ⟨[0, 0, 0, 0, 0, 0, 0, 0, 0, 0, 255, 255, 0, 0, 0, 0], cidrMaskAux 128 16⟩ =
      false := by
  refine ⟨rfl, ⟨Or.inr rfl, rfl, by unfold bytesOK; decide, by decide, by decide,
      by decide⟩,
    ⟨Or.inr rfl, rfl, by unfold bytesOK; decide, by decide, by decide, by decide⟩,
    ⟨by decide, by unfold start szE; decide⟩, by decide⟩

/-! ## Claim C10 -/

/-- C10: the `IPSet` operations are total on nil and empty inputs:
`InsertNet nil` and `RemoveNet nil` leave the set unchanged, `ContainsNet`
is false on a nil receiver, a nil argument or an empty set, and `Contains`
on a nil receiver or an empty set is false. -/
theorem claim_C10 :
    (∀ s : IPSet, s.insertNet none = s) ∧
    (∀ s : IPSet, s.removeNet none = s) ∧
    (∀ n : Option IPNet, IPSet.containsNet none n = false) ∧
    (∀ s : Option IPSet, IPSet.containsNet s none = false) ∧
    (∀ n : Option IPNet, IPSet.containsNet (some ⟨ipTree.nil⟩) n = false) ∧
    (∀ ip : List Nat, IPSet.containsIP none ip = false) ∧
    (∀ ip : List Nat, IPSet.containsIP (some ⟨ipTree.nil⟩) ip = false) := by
  refine ⟨fun s => rfl, fun s => rfl, ?_, ?_, ?_, fun ip => rfl, fun ip => rfl⟩
  · intro n
    cases n <;> rfl
  · intro s
    cases s <;> rfl
  · intro n
    cases n <;> rfl

/-! ## Claim C7 -/

/-- C7: the `IPMap` boundary validates the family of every address and
prefix: a wrong-width key makes the error-returning mutations
(`Insert`, `InsertOrUpdate`, `GetOrInsert`, and their prefix forms) fail
with `FamilyMismatch` leaving the map unchanged, and makes the queries and
the silent removes (`Get`, `Match`, `Remove`) return nothing or do nothing.
Corrected: `IPSet` is not such a container — `InsertNet` returns no error
and performs no family check at all, so a v6 set accepts a v4 net and is
changed by it (see the counterexample). -/
theorem claim_C7 :
    (∀ (α : Type) (m : IPMap α) (ip : List Nat) (v : α), ip.length ≠ m.length →
      m.insertIP ip v = .error .familyMismatch ∧
      m.insertOrUpdateIP ip v = .error .familyMismatch ∧
      m.getOrInsertIP ip v = .error .familyMismatch ∧
      m.getIP ip = none ∧ m.matchIP ip = none ∧ m.removeIP ip = m) ∧
    (∀ (α : Type) (m : IPMap α) (p : IPNet) (v : α), p.ip.length ≠ m.length →
      m.insertPfx (some p) v = .error .familyMismatch ∧
      m.insertOrUpdatePfx (some p) v = .error .familyMismatch ∧
      m.getPfx (some p) = none ∧ m.matchPfx (some p) = none ∧
      m.removePfx (some p) = m) := by
  constructor
  · intro α m ip v h
    refine ⟨?_, ?_, ?_, ?_, ?_, ?_⟩
    · unfold IPMap.insertIP
      rw [if_pos h]
    · unfold IPMap.insertOrUpdateIP
      rw [if_pos h]
    · unfold IPMap.getOrInsertIP
      rw [if_pos h]
    · unfold IPMap.getIP
      rw [if_pos h]
    · unfold IPMap.matchIP
      rw [if_pos h]
    · unfold IPMap.removeIP
      rw [if_pos h]
  · intro α m p v h
    refine ⟨?_, ?_, ?_, ?_, ?_⟩
    · simp only [IPMap.insertPfx]
      rw [if_pos h]
    · simp only [IPMap.insertOrUpdatePfx]
      rw [if_pos h]
    · simp only [IPMap.getPfx]
      rw [if_pos h]
    · simp only [IPMap.matchPfx]
      rw [if_pos h]
    · simp only [IPMap.removePfx]
      rw [if_pos h]

/-- C7 witness: a v6 map rejects the v4 address `10.0.0.1` with
`FamilyMismatch` on `Insert` and ignores it on `Get` and `Remove`. -/
theorem claim_C7_witness :
    (newIPv6Map (α := Bool)).insertIP [10, 0, 0, 1] true =
      .error .familyMismatch ∧
    (newIPv6Map (α := Bool)).insertOrUpdateIP [10, 0, 0, 1] true =
      .error .familyMismatch ∧
    (newIPv6Map (α := Bool)).getOrInsertIP [10, 0, 0, 1] true =
      .error .familyMismatch ∧
    (newIPv6Map (α := Bool)).getIP [10, 0, 0, 1] = none ∧
    (newIPv6Map (α := Bool)).matchIP [10, 0, 0, 1] = none ∧
    (newIPv6Map (α := Bool)).removeIP [10, 0, 0, 1] = newIPv6Map :=
  claim_C7.1 Bool newIPv6Map [10, 0, 0, 1] true (by decide)

/-- C7 counterexample: `IPSet.InsertNet` does not reject the other family:
inserting `10.0.0.0/24` into a set holding only `2001:db8::/32` adds a
second node and the set then reports the v4 net as contained. -/
theorem claim_C7_cex :
    (((⟨ipTree.nil⟩ : IPSet).insertNet
        (some ⟨[32, 1, 13, 184] ++ List.replicate 12 0,
          cidrMaskAux 32 16⟩)).tree.numNodes = 1) ∧
    ((((⟨ipTree.nil⟩ : IPSet).insertNet
        (some ⟨[32, 1, 13, 184] ++ List.replicate 12 0,
          cidrMaskAux 32 16⟩)).insertNet
        (some ⟨[10, 0, 0, 0], cidrMaskAux 24 4⟩)).tree.numNodes = 2) ∧
    IPSet.containsNet
      (some (((⟨ipTree.nil⟩ : IPSet).insertNet
        (some ⟨[32, 1, 13, 184] ++ List.replicate 12 0,
          cidrMaskAux 32 16⟩)).insertNet
        (some ⟨[10, 0, 0, 0], cidrMaskAux 24 4⟩)))
      (some ⟨[10, 0, 0, 0], cidrMaskAux 24 4⟩) = true := by
  refine ⟨by decide, by decide, by decide⟩

/-! ## Claims C8 and C9

The heap model keeps the `up` pointers explicit.  On the repository's own
test sequence (`TestIPSet_RemoveTop`): insert `10.0.0.2`, insert `10.0.0.1`,
remove `10.0.0.2`, the root is removed through `remove`'s `replaceMe`
closure, which patches the parent's child link only when a parent exists and
otherwise leaves the promoted child's stale `up` pointer in place. -/

/-- C8: after insert `10.0.0.2`, insert `10.0.0.1` the up-links are
consistent, but removing `10.0.0.2` (the root) promotes node 1 to the root
with its `up` still pointing at the removed node 0: the up-link invariant is
violated by the code (`remove`'s `replaceMe` does not clear `newChild.up`
when `me.up == nil`). -/
theorem claim_C8 :
    HSet.upConsistent ((HSet.empty.insertIP [10, 0, 0, 2]).insertIP [10, 0, 0, 1]) =
      true ∧
    HSet.upConsistent (((HSet.empty.insertIP [10, 0, 0, 2]).insertIP
      [10, 0, 0, 1]).removeIP [10, 0, 0, 2]) = false ∧
    (((HSet.empty.insertIP [10, 0, 0, 2]).insertIP [10, 0, 0, 1]).removeIP
      [10, 0, 0, 2]).root = some 1 ∧
    ((((HSet.empty.insertIP [10, 0, 0, 2]).insertIP [10, 0, 0, 1]).removeIP
      [10, 0, 0, 2]).heap.getter 1).up = some 0 := by
  refine ⟨by decide, by decide, by decide, by decide⟩

/-- C9: after the same sequence the tree stores exactly `10.0.0.1/32`, yet
`GetIPs 0` follows the stale `up` pointer in `next` and yields the removed
address `10.0.0.2` as well — it does not yield the addresses of the stored
CIDRs. -/
theorem claim_C9 :
    (((HSet.empty.insertIP [10, 0, 0, 2]).insertIP [10, 0, 0, 1]).removeIP
      [10, 0, 0, 2]).walkNets = [⟨[10, 0, 0, 1], [255, 255, 255, 255]⟩] ∧
    (((HSet.empty.insertIP [10, 0, 0, 2]).insertIP [10, 0, 0, 1]).removeIP
      [10, 0, 0, 2]).getIPs 0 = [[10, 0, 0, 1], [10, 0, 0, 2]] := by
  refine ⟨by decide, by decide⟩

/-! ## Claim C4 -/

/-- The v4 map after inserting `10.224.24.2/31`, `10.224.24.1/32` and
`10.224.24.0/32`, all with value `true`. -/
def aggMapIn : IPMap Bool :=
  ⟨4, [(⟨31, [10, 224, 24, 2]⟩, true), (⟨32, [10, 224, 24, 1]⟩, true),
       (⟨32, [10, 224, 24, 0]⟩, true)]⟩

/-- The map holding exactly the pairs `Aggregate` visits on `aggMapIn`. -/
def aggMapOut : IPMap Bool :=
  ⟨4, (aggMapIn.aggregatePairs).map (fun e => (pfxToKey e.1, e.2))⟩

theorem matchIP_val (α : Type) (m : IPMap α) (ip : List Nat)
    (h : ip.length = m.length) :
    (m.matchIP ip).map Prod.snd = (trieMatch m.trie (ipToKey ip)).map Prod.snd := by
  unfold IPMap.matchIP
  rw [if_neg (by simp [h])]
  cases htm : trieMatch m.trie (ipToKey ip) <;> simp

theorem c4lpm_in (x : Nat) (hx : x < 2 ^ 32) :
    (trieMatch aggMapIn.trie (ipToKey (natToBytes 4 x))).map Prod.snd =
      (if 182458368 ≤ x ∧ x ≤ 182458371 then some true else none) := by
  have hlen := natToBytes_length 4 x
  have hval : ipVal (natToBytes 4 x) = x := by
    refine ipVal_natToBytes 4 x ?_
    have h256 : (256 : Nat) ^ 4 = 2 ^ 32 := by norm_num
    omega
  by_cases h0 : x = 182458368
  · subst h0; decide
  by_cases h1 : x = 182458369
  · subst h1; decide
  by_cases h2 : x / 2 = 91229185
  · have : x = 182458370 ∨ x = 182458371 := by omega
    rcases this with rfl | rfl <;> decide
  · have c31 : keyIsPfxOf ⟨31, [10, 224, 24, 2]⟩ (ipToKey (natToBytes 4 x)) =
        false := by
      unfold keyIsPfxOf keyVal keyBitsAt ipToKey
      have e31 : ipVal [10, 224, 24, 2] = 182458370 := by decide
      simp [hlen, hval, e31]
      omega
    have c1 : keyIsPfxOf ⟨32, [10, 224, 24, 1]⟩ (ipToKey (natToBytes 4 x)) =
        false := by
      unfold keyIsPfxOf keyVal keyBitsAt ipToKey
      have e1 : ipVal [10, 224, 24, 1] = 182458369 := by decide
      simp [hlen, hval, e1]
      omega
    have c0 : keyIsPfxOf ⟨32, [10, 224, 24, 0]⟩ (ipToKey (natToBytes 4 x)) =
        false := by
      unfold keyIsPfxOf keyVal keyBitsAt ipToKey
      have e0 : ipVal [10, 224, 24, 0] = 182458368 := by decide
      simp [hlen, hval, e0]
      omega
    rw [if_neg (by omega)]
    show (trieMatch [(⟨31, [10, 224, 24, 2]⟩, true), (⟨32, [10, 224, 24, 1]⟩, true),
      (⟨32, [10, 224, 24, 0]⟩, (true : Bool))] (ipToKey (natToBytes 4 x))).map
        Prod.snd = none
    unfold trieMatch
    simp only [List.filter_cons, c31, c1, c0, List.filter_nil]
    simp

theorem c4lpm_out (x : Nat) (hx : x < 2 ^ 32) :
    (trieMatch aggMapOut.trie (ipToKey (natToBytes 4 x))).map Prod.snd =
      (if 182458368 ≤ x ∧ x ≤ 182458371 then some true else none) := by
  have hlen := natToBytes_length 4 x
  have hval : ipVal (natToBytes 4 x) = x := by
    refine ipVal_natToBytes 4 x ?_
    have h256 : (256 : Nat) ^ 4 = 2 ^ 32 := by norm_num
    omega
  have htrie : aggMapOut.trie = [(⟨30, [10, 224, 24, 0]⟩, true)] := by decide
  rw [htrie]
  by_cases h4 : x / 4 = 45614592
  · have : x = 182458368 ∨ x = 182458369 ∨ x = 182458370 ∨ x = 182458371 := by
      omega
    rcases this with rfl | rfl | rfl | rfl <;> decide
  · have c30 : keyIsPfxOf ⟨30, [10, 224, 24, 0]⟩ (ipToKey (natToBytes 4 x)) =
        false := by
      unfold keyIsPfxOf keyVal keyBitsAt ipToKey
      have e0 : ipVal [10, 224, 24, 0] = 182458368 := by decide
      simp [hlen, hval, e0]
      omega
    rw [if_neg (by omega)]
    unfold trieMatch
    simp only [List.filter_cons, c30, List.filter_nil]
    simp

/-- C4: inserting `10.224.24.2/31 = true`, `10.224.24.1/32 = true` and
`10.224.24.0/32 = true` into a v4 map succeeds, `Aggregate` visits exactly
the single pair `(10.224.24.0/30, true)`, and for every v4 address the
longest-prefix match against the aggregated pairs is defined exactly where
it is defined against the stored entries and yields the same value. -/
theorem claim_C4 :
    (((newIPv4Map (α := Bool)).insertPfx
        (some ⟨[10, 224, 24, 2], cidrMask 31 32⟩) true).bind
      (fun m => (m.insertPfx (some ⟨[10, 224, 24, 1], cidrMask 32 32⟩) true).bind
        (fun m => m.insertPfx (some ⟨[10, 224, 24, 0], cidrMask 32 32⟩) true)) =
      Except.ok aggMapIn) ∧
    aggMapIn.aggregatePairs = [(⟨[10, 224, 24, 0], cidrMask 30 32⟩, true)] ∧
    (∀ x : Nat, x < 2 ^ 32 →
      (aggMapOut.matchIP (natToBytes 4 x)).map Prod.snd =
        (aggMapIn.matchIP (natToBytes 4 x)).map Prod.snd) := by
  refine ⟨by rfl, by decide, ?_⟩
  intro x hx
  have hlen := natToBytes_length 4 x
  rw [matchIP_val Bool aggMapOut (natToBytes 4 x) (by rw [hlen]; rfl),
    matchIP_val Bool aggMapIn (natToBytes 4 x) (by rw [hlen]; rfl),
    c4lpm_in x hx, c4lpm_out x hx]

/-- C4 witness: the longest-prefix-match equivalence applied at the address
`10.224.24.3`, which none of the stored entries lists exactly. -/
theorem claim_C4_witness :
    (aggMapOut.matchIP (natToBytes 4 182458371)).map Prod.snd =
      (aggMapIn.matchIP (natToBytes 4 182458371)).map Prod.snd :=
  claim_C4.2.2 182458371 (by norm_num)

/-! ## The disjoint-CIDR tree invariant -/

/-- Structural invariant of the disjoint-CIDR search tree: every stored net is
canonical and non-v4-mapped, every net of the left subtree lies strictly
before the node's net, and every net of the right subtree strictly after.
`before` implies disjointness, so all stored nets are pairwise disjoint. -/
inductive SInv (w : Nat) : ipTree → Prop where
  | nil : SInv w .nil
  | node {l r : ipTree} {m : IPNet} :
      SInv w l → SInv w r → Pure w m →
      (∀ x ∈ l.walkNets, before w x m) →
      (∀ x ∈ r.walkNets, before w m x) →
      SInv w (.node l m r)

theorem before_trans (w : Nat) (a b c : IPNet) (h1 : before w a b)
    (h2 : before w b c) : before w a c := by
  have := szE_pos w b
  unfold before at *
  omega

theorem before_asym (w : Nat) (a b : IPNet) (h1 : before w a b)
    (h2 : before w b a) : False := by
  have := szE_pos w a
  have := szE_pos w b
  unfold before at *
  omega

theorem before_disj (w : Nat) (a b : IPNet) (ha : Canon w a) (hb : Canon w b)
    (h : before w a b) : disjN w a b := by
  intro x hx
  rw [memN_iff w a ha, memN_iff w b hb] at hx
  unfold before at h
  omega

theorem sinv_pure (w : Nat) (t : ipTree) (h : SInv w t) :
    ∀ x ∈ t.walkNets, Pure w x := by
  induction h with
  | nil => intro x hx; exact absurd hx (List.not_mem_nil x)
  | node hSl hSr hm hlm hmr ihl ihr =>
    intro x hx
    rw [ipTree.walkNets, List.mem_append, List.mem_cons] at hx
    rcases hx with hx | hx | hx
    · exact ihl x hx
    · exact hx ▸ hm
    · exact ihr x hx

theorem sinv_pairwise (w : Nat) (t : ipTree) (h : SInv w t) :
    t.walkNets.Pairwise (before w) := by
  induction h with
  | nil => exact List.Pairwise.nil
  | node hSl hSr hm hlm hmr ihl ihr =>
    rw [ipTree.walkNets]
    rw [List.pairwise_append]
    refine ⟨ihl, ?_, ?_⟩
    · rw [List.pairwise_cons]
      exact ⟨hmr, ihr⟩
    · intro a ha b hb
      rw [List.mem_cons] at hb
      rcases hb with rfl | hb
      · exact hlm a ha
      · exact before_trans w a _ b (hlm a ha) (hmr b hb)

/-- `trimLeft` removes exactly the nets contained in `top`, provided every
net of the subtree is strictly before `top` or inside it (which holds for
the left subtree of a node `top` replaces). -/
theorem trimLeft_ok (w : Nat) (top : IPNet) (htop : Pure w top) :
    ∀ t, SInv w t →
    (∀ x ∈ t.walkNets, before w x top ∨ covers w top x) →
    SInv w (t.trimLeft top) ∧
    (t.trimLeft top).walkNets =
      t.walkNets.filter (fun x => !(containsNet top x)) := by
  intro t
  induction t with
  | nil => intro _ _; exact ⟨SInv.nil, rfl⟩
  | node l m r ihl ihr =>
    intro hS hb
    cases hS with
    | node hSl hSr hm hlm hmr =>
    have hbl : ∀ x ∈ l.walkNets, before w x top ∨ covers w top x := by
      intro x hx
      exact hb x (by rw [ipTree.walkNets, List.mem_append]; exact Or.inl hx)
    have hbr : ∀ x ∈ r.walkNets, before w x top ∨ covers w top x := by
      intro x hx
      refine hb x ?_
      rw [ipTree.walkNets, List.mem_append, List.mem_cons]
      exact Or.inr (Or.inr hx)
    have hbm : before w m top ∨ covers w top m := by
      refine hb m ?_
      rw [ipTree.walkNets, List.mem_append, List.mem_cons]
      exact Or.inr (Or.inl rfl)
    have hcnt := containsNet_pure w top m htop hm
    rw [ipTree.walkNets]
    by_cases hc : containsNet top m = true
    · have hcm : covers w top m := hcnt.mp hc
      obtain ⟨ihS, ihw⟩ := ihl hSl hbl
      have hrdrop : ∀ y ∈ r.walkNets, containsNet top y = true := by
        intro y hy
        have hmy := hmr y hy
        have hy' : Pure w y := sinv_pure w r hSr y hy
        rcases hbr y hy with hyt | hyt
        · exfalso
          rw [covers_iff_interval w top m htop.toCanon hm.toCanon] at hcm
          have h1 := szE_pos w m
          have h2 := szE_pos w y
          unfold before at hmy hyt
          omega
        · exact (containsNet_pure w top y htop hy').mpr hyt
      constructor
      · rw [ipTree.trimLeft, if_pos hc]
        exact ihS
      · rw [ipTree.trimLeft, if_pos hc, ihw, List.filter_append,
          List.filter_cons]
        rw [hc]
        simp only [Bool.not_true, Bool.false_eq_true, if_false]
        have : r.walkNets.filter (fun x => !(containsNet top x)) = [] := by
          rw [List.filter_eq_nil_iff]
          intro y hy
          rw [hrdrop y hy]
          simp
        rw [this, List.append_nil]
    · have hcm : ¬ covers w top m := fun h => hc (hcnt.mpr h)
      have hmt : before w m top := hbm.resolve_right hcm
      obtain ⟨ihS, ihw⟩ := ihr hSr hbr
      have hlkeep : ∀ x ∈ l.walkNets, containsNet top x = false := by
        intro x hx
        have hx' : Pure w x := sinv_pure w l hSl x hx
        have hxm := hlm x hx
        rcases Bool.eq_false_or_eq_true (containsNet top x) with h | h
        · exfalso
          have hcov := (containsNet_pure w top x htop hx').mp h
          rw [covers_iff_interval w top x htop.toCanon hx'.toCanon] at hcov
          have h1 := szE_pos w x
          have h2 := szE_pos w m
          unfold before at hxm hmt
          omega
        · exact h
      constructor
      · rw [ipTree.trimLeft, if_neg hc]
        refine SInv.node hSl ihS hm hlm ?_
        intro x hx
        rw [ihw, List.mem_filter] at hx
        exact hmr x hx.1
      · have hcf : containsNet top m = false := by
          rcases Bool.eq_false_or_eq_true (containsNet top m) with h | h
          · exact absurd h hc
          · exact h
        rw [ipTree.trimLeft, if_neg hc, ipTree.walkNets, ihw,
          List.filter_append, List.filter_cons]
        rw [hcf]
        simp only [Bool.not_false, if_true]
        have : l.walkNets.filter (fun x => !(containsNet top x)) = l.walkNets := by
          rw [List.filter_eq_self]
          intro y hy
          rw [hlkeep y hy]
          simp
        rw [this]

/-- Mirror of `trimLeft_ok` for the right subtree. -/
theorem trimRight_ok (w : Nat) (top : IPNet) (htop : Pure w top) :
    ∀ t, SInv w t →
    (∀ x ∈ t.walkNets, before w top x ∨ covers w top x) →
    SInv w (t.trimRight top) ∧
    (t.trimRight top).walkNets =
      t.walkNets.filter (fun x => !(containsNet top x)) := by
  intro t
  induction t with
  | nil => intro _ _; exact ⟨SInv.nil, rfl⟩
  | node l m r ihl ihr =>
    intro hS hb
    cases hS with
    | node hSl hSr hm hlm hmr =>
    have hbl : ∀ x ∈ l.walkNets, before w top x ∨ covers w top x := by
      intro x hx
      exact hb x (by rw [ipTree.walkNets, List.mem_append]; exact Or.inl hx)
    have hbr : ∀ x ∈ r.walkNets, before w top x ∨ covers w top x := by
      intro x hx
      refine hb x ?_
      rw [ipTree.walkNets, List.mem_append, List.mem_cons]
      exact Or.inr (Or.inr hx)
    have hbm : before w top m ∨ covers w top m := by
      refine hb m ?_
      rw [ipTree.walkNets, List.mem_append, List.mem_cons]
      exact Or.inr (Or.inl rfl)
    have hcnt := containsNet_pure w top m htop hm
    rw [ipTree.walkNets]
    by_cases hc : containsNet top m = true
    · have hcm : covers w top m := hcnt.mp hc
      obtain ⟨ihS, ihw⟩ := ihr hSr hbr
      have hldrop : ∀ y ∈ l.walkNets, containsNet top y = true := by
        intro y hy
        have hym := hlm y hy
        have hy' : Pure w y := sinv_pure w l hSl y hy
        rcases hbl y hy with hyt | hyt
        · exfalso
          rw [covers_iff_interval w top m htop.toCanon hm.toCanon] at hcm
          have h1 := szE_pos w m
          have h2 := szE_pos w y
          unfold before at hym hyt
          omega
        · exact (containsNet_pure w top y htop hy').mpr hyt
      constructor
      · rw [ipTree.trimRight, if_pos hc]
        exact ihS
      · rw [ipTree.trimRight, if_pos hc, ihw, List.filter_append,
          List.filter_cons]
        rw [hc]
        simp only [Bool.not_true, Bool.false_eq_true, if_false]
        have : l.walkNets.filter (fun x => !(containsNet top x)) = [] := by
          rw [List.filter_eq_nil_iff]
          intro y hy
          rw [hldrop y hy]
          simp
        rw [this, List.nil_append]
    · have hcm : ¬ covers w top m := fun h => hc (hcnt.mpr h)
      have hmt : before w top m := hbm.resolve_right hcm
      obtain ⟨ihS, ihw⟩ := ihl hSl hbl
      have hrkeep : ∀ x ∈ r.walkNets, containsNet top x = false := by
        intro x hx
        have hx' : Pure w x := sinv_pure w r hSr x hx
        have hxm := hmr x hx
        rcases Bool.eq_false_or_eq_true (containsNet top x) with h | h
        · exfalso
          have hcov := (containsNet_pure w top x htop hx').mp h
          rw [covers_iff_interval w top x htop.toCanon hx'.toCanon] at hcov
          have h1 := szE_pos w x
          have h2 := szE_pos w m
          unfold before at hxm hmt
          omega
        · exact h
      constructor
      · rw [ipTree.trimRight, if_neg hc]
        refine SInv.node ihS hSr hm ?_ hmr
        intro x hx
        rw [ihw, List.mem_filter] at hx
        exact hlm x hx.1
      · have hcf : containsNet top m = false := by
          rcases Bool.eq_false_or_eq_true (containsNet top m) with h | h
          · exact absurd h hc
          · exact h
        rw [ipTree.trimRight, if_neg hc, ipTree.walkNets, ihw,
          List.filter_append, List.filter_cons]
        rw [hcf]
        simp only [Bool.not_false, if_true]
        have : r.walkNets.filter (fun x => !(containsNet top x)) = r.walkNets := by
          rw [List.filter_eq_self]
          intro y hy
          rw [hrkeep y hy]
          simp
        rw [this]

theorem covered_eq_contains (n : IPNet) : ∀ t, covered t n = t.contains n := by
  intro t
  induction t with
  | nil => rfl
  | node l m r ihl ihr =>
    simp only [covered, ipTree.contains, ihl, ihr]

/-- Inserting an already-covered net leaves the tree unchanged. -/
theorem insert_covered (n : IPNet) :
    ∀ t : ipTree, t.contains n = true → t.insert n = t := by
  intro t
  induction t with
  | nil => intro h; exact absurd h (by rw [ipTree.contains]; simp)
  | node l m r ihl ihr =>
    intro h
    rw [ipTree.contains] at h
    rw [ipTree.insert]
    by_cases hc1 : containsNet m n = true
    · rw [if_pos hc1]
    rw [if_neg hc1] at h ⊢
    by_cases hc2 : containsNet n m = true
    · rw [if_pos hc2] at h
      exact absurd h (by simp)
    rw [if_neg hc2] at h ⊢
    by_cases hlt : bytesCmp n.ip m.ip = .lt
    · rw [if_pos hlt] at h ⊢
      rw [ihl h]
    · rw [if_neg hlt] at h ⊢
      rw [ihr h]

/-- `insert` of a fresh canonical net: the invariant is preserved and the
stored nets become `n` together with the old nets not contained in `n`. -/
theorem insert_ok (w : Nat) (n : IPNet) (hn : Pure w n) :
    ∀ t, SInv w t → t.contains n = false →
    SInv w (t.insert n) ∧
    (∀ y, y ∈ (t.insert n).walkNets ↔
      (y = n ∨ (y ∈ t.walkNets ∧ containsNet n y = false))) := by
  intro t
  induction t with
  | nil =>
    intro _ _
    refine ⟨SInv.node SInv.nil SInv.nil hn ?_ ?_, ?_⟩
    · intro x hx; exact absurd hx (List.not_mem_nil x)
    · intro x hx; exact absurd hx (List.not_mem_nil x)
    · intro y
      show y ∈ ipTree.walkNets (.node .nil n .nil) ↔ _
      rw [ipTree.walkNets, ipTree.walkNets, ipTree.walkNets]
      simp
  | node l m r ihl ihr =>
    intro hS hcov
    cases hS with
    | node hSl hSr hm hlm hmr =>
    rw [ipTree.contains] at hcov
    rw [ipTree.insert]
    by_cases hc1 : containsNet m n = true
    · rw [if_pos hc1] at hcov
      exact absurd hcov (by simp)
    rw [if_neg hc1] at hcov ⊢
    have hncm : ¬ covers w m n := fun h => hc1 ((containsNet_pure w m n hm hn).mpr h)
    by_cases hc2 : containsNet n m = true
    · -- n replaces this node and trims both subtrees
      rw [if_pos hc2]
      have hcnm : covers w n m := (containsNet_pure w n m hn hm).mp hc2
      have hbl : ∀ x ∈ l.walkNets, before w x n ∨ covers w n x := by
        intro x hx
        have hx' : Pure w x := sinv_pure w l hSl x hx
        have hxm := hlm x hx
        rcases net_trichotomy w x n hx'.toCanon hn.toCanon with h | h | h | h
        · exfalso
          have : covers w x m := covers_trans w x n m hx'.toCanon hn.toCanon
            hm.toCanon h hcnm
          rw [covers_iff_interval w x m hx'.toCanon hm.toCanon] at this
          have := szE_pos w m
          unfold before at hxm
          omega
        · exact Or.inr h
        · exact Or.inl h
        · exfalso
          rw [covers_iff_interval w n m hn.toCanon hm.toCanon] at hcnm
          have h1 := szE_pos w x
          have h2 := szE_pos w m
          unfold before at h hxm
          omega
      have hbr : ∀ x ∈ r.walkNets, before w n x ∨ covers w n x := by
        intro x hx
        have hx' : Pure w x := sinv_pure w r hSr x hx
        have hxm := hmr x hx
        rcases net_trichotomy w x n hx'.toCanon hn.toCanon with h | h | h | h
        · exfalso
          have : covers w x m := covers_trans w x n m hx'.toCanon hn.toCanon
            hm.toCanon h hcnm
          rw [covers_iff_interval w x m hx'.toCanon hm.toCanon] at this
          have := szE_pos w m
          unfold before at hxm
          omega
        · exact Or.inr h
        · exfalso
          rw [covers_iff_interval w n m hn.toCanon hm.toCanon] at hcnm
          have h1 := szE_pos w x
          have h2 := szE_pos w m
          unfold before at h hxm
          omega
        · exact Or.inl h
      obtain ⟨hSl', hwl'⟩ := trimLeft_ok w n hn l hSl hbl
      obtain ⟨hSr', hwr'⟩ := trimRight_ok w n hn r hSr hbr
      constructor
      · refine SInv.node hSl' hSr' hn ?_ ?_
        · intro x hx
          rw [hwl', List.mem_filter] at hx
          have hxf : containsNet n x = false := by
            rcases Bool.eq_false_or_eq_true (containsNet n x) with h | h
            · rw [h] at hx
              exact absurd hx.2 (by simp)
            · exact h
          have hx' : Pure w x := sinv_pure w l hSl x hx.1
          have hnc : ¬ covers w n x :=
            fun h => by rw [(containsNet_pure w n x hn hx').mpr h] at hxf; simp at hxf
          exact (hbl x hx.1).resolve_right hnc
        · intro x hx
          rw [hwr', List.mem_filter] at hx
          have hxf : containsNet n x = false := by
            rcases Bool.eq_false_or_eq_true (containsNet n x) with h | h
            · rw [h] at hx
              exact absurd hx.2 (by simp)
            · exact h
          have hx' : Pure w x := sinv_pure w r hSr x hx.1
          have hnc : ¬ covers w n x :=
            fun h => by rw [(containsNet_pure w n x hn hx').mpr h] at hxf; simp at hxf
          exact (hbr x hx.1).resolve_right hnc
      · intro y
        rw [ipTree.walkNets, ipTree.walkNets, hwl', hwr']
        rw [List.mem_append, List.mem_cons, List.mem_append, List.mem_cons,
          List.mem_filter, List.mem_filter]
        constructor
        · rintro (⟨hy, hyf⟩ | rfl | ⟨hy, hyf⟩)
          · exact Or.inr ⟨Or.inl hy, by revert hyf; cases containsNet n y <;> simp⟩
          · exact Or.inl rfl
          · exact Or.inr ⟨Or.inr (Or.inr hy), by revert hyf; cases containsNet n y <;> simp⟩
        · rintro (rfl | ⟨hy | rfl | hy, hyf⟩)
          · exact Or.inr (Or.inl rfl)
          · exact Or.inl ⟨hy, by rw [hyf]; rfl⟩
          · rw [hc2] at hyf
            exact absurd hyf (by simp)
          · exact Or.inr (Or.inr ⟨hy, by rw [hyf]; rfl⟩)
    rw [if_neg hc2] at hcov ⊢
    have hncn : ¬ covers w n m := fun h => hc2 ((containsNet_pure w n m hn hm).mpr h)
    have htri : before w n m ∨ before w m n := by
      rcases net_trichotomy w m n hm.toCanon hn.toCanon with h | h | h | h
      · exact absurd h hncm
      · exact absurd h hncn
      · exact Or.inr h
      · exact Or.inl h
    have hlen : n.ip.length = m.ip.length := by rw [hn.iplen, hm.iplen]
    have hcmp := bytesCmp_lt_iff n.ip m.ip hlen hn.ipok hm.ipok
    by_cases hlt : bytesCmp n.ip m.ip = .lt
    · rw [if_pos hlt] at hcov ⊢
      have hnm : before w n m := by
        rcases htri with h | h
        · exact h
        · exfalso
          have h1 : start n < start m := hcmp.mp hlt
          have h2 := szE_pos w m
          unfold before at h
          omega
      obtain ⟨ihS, ihw⟩ := ihl hSl hcov
      constructor
      · refine SInv.node ihS hSr hm ?_ hmr
        intro x hx
        rcases (ihw x).mp hx with rfl | ⟨hx', _⟩
        · exact hnm
        · exact hlm x hx'
      · intro y
        rw [ipTree.walkNets, ipTree.walkNets, List.mem_append, List.mem_cons,
          List.mem_append, List.mem_cons, ihw y]
        have hrf : ∀ x ∈ r.walkNets, containsNet n x = false := by
          intro x hx
          have hx' : Pure w x := sinv_pure w r hSr x hx
          rcases Bool.eq_false_or_eq_true (containsNet n x) with h | h
          · exfalso
            have hcv := (containsNet_pure w n x hn hx').mp h
            rw [covers_iff_interval w n x hn.toCanon hx'.toCanon] at hcv
            have hmx := hmr x hx
            have := szE_pos w x
            have := szE_pos w m
            unfold before at hnm hmx
            omega
          · exact h
        have hmf : containsNet n m = false := by
          rcases Bool.eq_false_or_eq_true (containsNet n m) with h | h
          · exact absurd ((containsNet_pure w n m hn hm).mp h) hncn
          · exact h
        constructor
        · rintro ((rfl | ⟨hy, hyf⟩) | rfl | hy)
          · exact Or.inl rfl
          · exact Or.inr ⟨Or.inl hy, hyf⟩
          · exact Or.inr ⟨Or.inr (Or.inl rfl), hmf⟩
          · exact Or.inr ⟨Or.inr (Or.inr hy), hrf y hy⟩
        · rintro (rfl | ⟨hy | rfl | hy, hyf⟩)
          · exact Or.inl (Or.inl rfl)
          · exact Or.inl (Or.inr ⟨hy, hyf⟩)
          · exact Or.inr (Or.inl rfl)
          · exact Or.inr (Or.inr hy)
    · rw [if_neg hlt] at hcov ⊢
      have hmn : before w m n := by
        rcases htri with h | h
        · exfalso
          refine hlt (hcmp.mpr ?_)
          show start n < start m
          have h2 := szE_pos w n
          unfold before at h
          omega
        · exact h
      obtain ⟨ihS, ihw⟩ := ihr hSr hcov
      constructor
      · refine SInv.node hSl ihS hm hlm ?_
        intro x hx
        rcases (ihw x).mp hx with rfl | ⟨hx', _⟩
        · exact hmn
        · exact hmr x hx'
      · intro y
        rw [ipTree.walkNets, ipTree.walkNets, List.mem_append, List.mem_cons,
          List.mem_append, List.mem_cons, ihw y]
        have hlf : ∀ x ∈ l.walkNets, containsNet n x = false := by
          intro x hx
          have hx' : Pure w x := sinv_pure w l hSl x hx
          rcases Bool.eq_false_or_eq_true (containsNet n x) with h | h
          · exfalso
            have hcv := (containsNet_pure w n x hn hx').mp h
            rw [covers_iff_interval w n x hn.toCanon hx'.toCanon] at hcv
            have hxm := hlm x hx
            have := szE_pos w x
            have := szE_pos w m
            unfold before at hmn hxm
            omega
          · exact h
        have hmf : containsNet n m = false := by
          rcases Bool.eq_false_or_eq_true (containsNet n m) with h | h
          · exact absurd ((containsNet_pure w n m hn hm).mp h) hncn
          · exact h
        constructor
        · rintro (hy | rfl | (rfl | ⟨hy, hyf⟩))
          · exact Or.inr ⟨Or.inl hy, hlf y hy⟩
          · exact Or.inr ⟨Or.inr (Or.inl rfl), hmf⟩
          · exact Or.inl rfl
          · exact Or.inr ⟨Or.inr (Or.inr hy), hyf⟩
        · rintro (rfl | ⟨hy | rfl | hy, hyf⟩)
          · exact Or.inr (Or.inr (Or.inl rfl))
          · exact Or.inl hy
          · exact Or.inr (Or.inl rfl)
          · exact Or.inr (Or.inr (Or.inr ⟨hy, hyf⟩))

/-- `contains` decides whether some stored net covers the query. -/
theorem contains_sem (w : Nat) (q : IPNet) (hq : Pure w q) :
    ∀ t, SInv w t →
    (t.contains q = true ↔ ∃ m ∈ t.walkNets, covers w m q) := by
  intro t
  induction t with
  | nil =>
    intro _
    rw [ipTree.contains]
    constructor
    · intro h; exact absurd h (by simp)
    · rintro ⟨m, hm, _⟩; exact absurd hm (List.not_mem_nil m)
  | node l m r ihl ihr =>
    intro hS
    cases hS with
    | node hSl hSr hm hlm hmr =>
    rw [ipTree.contains]
    have hmem : m ∈ (ipTree.node l m r).walkNets := by
      rw [ipTree.walkNets, List.mem_append, List.mem_cons]
      exact Or.inr (Or.inl rfl)
    by_cases hc1 : containsNet m q = true
    · rw [if_pos hc1]
      exact ⟨fun _ => ⟨m, hmem, (containsNet_pure w m q hm hq).mp hc1⟩,
        fun _ => rfl⟩
    rw [if_neg hc1]
    have hncm : ¬ covers w m q := fun h => hc1 ((containsNet_pure w m q hm hq).mpr h)
    by_cases hc2 : containsNet q m = true
    · rw [if_pos hc2]
      have hcqm : covers w q m := (containsNet_pure w q m hq hm).mp hc2
      constructor
      · intro h; exact absurd h (by simp)
      · rintro ⟨x, hx, hxq⟩
        exfalso
        rw [ipTree.walkNets, List.mem_append, List.mem_cons] at hx
        rcases hx with hx | rfl | hx
        · have hx' : Pure w x := sinv_pure w l hSl x hx
          have : covers w x m := covers_trans w x q m hx'.toCanon hq.toCanon
            hm.toCanon hxq hcqm
          rw [covers_iff_interval w x m hx'.toCanon hm.toCanon] at this
          have hxm := hlm x hx
          have := szE_pos w m
          unfold before at hxm
          omega
        · exact hncm hxq
        · have hx' : Pure w x := sinv_pure w r hSr x hx
          have : covers w x m := covers_trans w x q m hx'.toCanon hq.toCanon
            hm.toCanon hxq hcqm
          rw [covers_iff_interval w x m hx'.toCanon hm.toCanon] at this
          have hmx := hmr x hx
          have := szE_pos w m
          unfold before at hmx
          omega
    rw [if_neg hc2]
    have hncq : ¬ covers w q m := fun h => hc2 ((containsNet_pure w q m hq hm).mpr h)
    have htri : before w q m ∨ before w m q := by
      rcases net_trichotomy w m q hm.toCanon hq.toCanon with h | h | h | h
      · exact absurd h hncm
      · exact absurd h hncq
      · exact Or.inr h
      · exact Or.inl h
    have hlen : q.ip.length = m.ip.length := by rw [hq.iplen, hm.iplen]
    have hcmp := bytesCmp_lt_iff q.ip m.ip hlen hq.ipok hm.ipok
    by_cases hlt : bytesCmp q.ip m.ip = .lt
    · rw [if_pos hlt]
      have hqm : before w q m := by
        rcases htri with h | h
        · exact h
        · exfalso
          have h1 : start q < start m := hcmp.mp hlt
          have h2 := szE_pos w q
          unfold before at h
          omega
      rw [ihl hSl]
      constructor
      · rintro ⟨x, hx, hxq⟩
        refine ⟨x, ?_, hxq⟩
        rw [ipTree.walkNets, List.mem_append]
        exact Or.inl hx
      · rintro ⟨x, hx, hxq⟩
        rw [ipTree.walkNets, List.mem_append, List.mem_cons] at hx
        rcases hx with hx | rfl | hx
        · exact ⟨x, hx, hxq⟩
        · exact absurd hxq hncm
        · exfalso
          have hx' : Pure w x := sinv_pure w r hSr x hx
          rw [covers_iff_interval w x q hx'.toCanon hq.toCanon] at hxq
          have hmx := hmr x hx
          have := szE_pos w q
          have := szE_pos w m
          unfold before at hqm hmx
          omega
    · rw [if_neg hlt]
      have hmq : before w m q := by
        rcases htri with h | h
        · exfalso
          refine hlt (hcmp.mpr ?_)
          show start q < start m
          have h2 := szE_pos w q
          unfold before at h
          omega
        · exact h
      rw [ihr hSr]
      constructor
      · rintro ⟨x, hx, hxq⟩
        refine ⟨x, ?_, hxq⟩
        rw [ipTree.walkNets, List.mem_append, List.mem_cons]
        exact Or.inr (Or.inr hx)
      · rintro ⟨x, hx, hxq⟩
        rw [ipTree.walkNets, List.mem_append, List.mem_cons] at hx
        rcases hx with hx | rfl | hx
        · exfalso
          have hx' : Pure w x := sinv_pure w l hSl x hx
          rw [covers_iff_interval w x q hx'.toCanon hq.toCanon] at hxq
          have hxm := hlm x hx
          have := szE_pos w q
          have := szE_pos w m
          unfold before at hmq hxm
          omega
        · exact absurd hxq hncm
        · exact ⟨x, hx, hxq⟩

/-! ## Sibling halves and `canCombineNets` -/

theorem canon_ext (w : Nat) (a b : IPNet) (ha : Canon w a) (hb : Canon w b)
    (ho : olen a = olen b) (hs : start a = start b) : a = b := by
  have hip : a.ip = b.ip :=
    ipVal_inj _ _ (by rw [ha.iplen, hb.iplen]) ha.ipok hb.ipok hs
  have hm : a.mask = b.mask := by rw [ha.maskc, hb.maskc, ho]
  cases a
  cases b
  simp only [IPNet.mk.injEq]
  exact ⟨hip, hm⟩

/-- Two distinct canonical CIDRs of one prefix length lying in the same
parent prefix: exactly the two halves of that parent. -/
def SibPair (w : Nat) (a b : IPNet) : Prop :=
  a ≠ b ∧ olen a = olen b ∧ 1 ≤ olen a ∧
  start a / (2 * szE w a) = start b / (2 * szE w a)

theorem szE_congr (w : Nat) (a b : IPNet) (h : olen a = olen b) :
    szE w a = szE w b := by
  unfold szE
  rw [h]

theorem sibPair_symm (w : Nat) (a b : IPNet) (h : SibPair w a b) :
    SibPair w b a := by
  obtain ⟨hne, ho, hk, hd⟩ := h
  rw [szE_congr w a b ho] at hd
  exact ⟨fun he => hne he.symm, ho.symm, by omega, hd.symm⟩

/-- The starts of a sibling pair differ by exactly the half size, and the
lower one is aligned to the parent. -/
theorem sibPair_starts (w : Nat) (a b : IPNet) (ha : Canon w a) (hb : Canon w b)
    (h : SibPair w a b) (hlow : start a < start b) :
    start b = start a + szE w a ∧ start a % (2 * szE w a) = 0 := by
  obtain ⟨hne, ho, hk, hd⟩ := h
  have hK := szE_pos w a
  obtain ⟨qa, hqa⟩ : ∃ q, start a = szE w a * q := by
    obtain ⟨q, hq⟩ := Nat.dvd_of_mod_eq_zero ha.hostz
    exact ⟨q, hq⟩
  obtain ⟨qb, hqb⟩ : ∃ q, start b = szE w a * q := by
    rw [szE_congr w a b ho]
    obtain ⟨q, hq⟩ := Nat.dvd_of_mod_eq_zero hb.hostz
    exact ⟨q, hq⟩
  have hda : start a / (2 * szE w a) = qa / 2 := by
    rw [hqa, Nat.mul_comm 2 (szE w a), Nat.mul_div_mul_left qa 2 hK]
  have hdb : start b / (2 * szE w a) = qb / 2 := by
    rw [hqb, Nat.mul_comm 2 (szE w a), Nat.mul_div_mul_left qb 2 hK]
  rw [hda, hdb] at hd
  have hqne : qa ≠ qb := by
    intro hq
    rw [hq, ← hqb] at hqa
    omega
  have hqb1 : qb = qa + 1 := by
    rcases Nat.lt_or_ge qa qb with hlt | hge
    · omega
    · exfalso
      have : szE w a * qb ≤ szE w a * qa := Nat.mul_le_mul_left _ (by omega)
      omega
  have hqa2 : qa % 2 = 0 := by omega
  constructor
  · rw [hqa, hqb, hqb1]
    ring
  · rw [hqa]
    obtain ⟨m, hm⟩ : ∃ m, qa = 2 * m := ⟨qa / 2, by omega⟩
    rw [hm, show szE w a * (2 * m) = 2 * szE w a * m from by ring]
    exact Nat.mul_mod_right _ _

/-- The parent of a sibling pair (built on the lower half's address). -/
theorem sibPair_parent (w : Nat) (a b : IPNet) (ha : Pure w a) (hb : Pure w b)
    (h : SibPair w a b) (hlow : start a < start b) :
    Pure w ⟨a.ip, cidrMaskAux (olen a - 1) w⟩ ∧
    olen (⟨a.ip, cidrMaskAux (olen a - 1) w⟩ : IPNet) = olen a - 1 ∧
    start (⟨a.ip, cidrMaskAux (olen a - 1) w⟩ : IPNet) = start a ∧
    (∀ x, memN w ⟨a.ip, cidrMaskAux (olen a - 1) w⟩ x ↔
      (memN w a x ∨ memN w b x)) := by
  obtain ⟨hsb, hal⟩ := sibPair_starts w a b ha.toCanon hb.toCanon h hlow
  obtain ⟨hne, ho, hk, hd⟩ := h
  have hK := szE_pos w a
  have h2K : (2 : Nat) * szE w a = 2 ^ (8 * w - (olen a - 1)) := by
    unfold szE
    rw [show 8 * w - (olen a - 1) = (8 * w - olen a) + 1 from by
      have := ha.klen
      omega]
    rw [pow_succ]
    ring
  have hz : ipVal a.ip % 2 ^ (8 * w - (olen a - 1)) = 0 := by
    rw [← h2K]
    exact hal
  have hP : Pure w ⟨a.ip, cidrMaskAux (olen a - 1) w⟩ :=
    pure_mk w (olen a - 1) a.ip ha.hw (by have := ha.klen; omega) ha.iplen
      ha.ipok hz ha.nomap
  have hoP : olen (⟨a.ip, cidrMaskAux (olen a - 1) w⟩ : IPNet) = olen a - 1 :=
    olen_mk a.ip (olen a - 1) w (by have := ha.klen; omega)
  refine ⟨hP, hoP, rfl, ?_⟩
  intro x
  have hszP : szE w ⟨a.ip, cidrMaskAux (olen a - 1) w⟩ = 2 * szE w a := by
    unfold szE
    rw [hoP, ← h2K]
    unfold szE
    rfl
  rw [memN_iff w _ hP.toCanon, memN_iff w a ha.toCanon, memN_iff w b hb.toCanon,
    hszP, show start (⟨a.ip, cidrMaskAux (olen a - 1) w⟩ : IPNet) = start a from rfl,
    ← szE_congr w a b ho, hsb]
  omega

/-- A net has at most one sibling in a collection of canonical nets. -/
theorem sibPair_unique (w : Nat) (n z1 z2 : IPNet) (hn : Canon w n)
    (h1 : Canon w z1) (h2 : Canon w z2) (hs1 : SibPair w n z1)
    (hs2 : SibPair w n z2) : z1 = z2 := by
  have hd1 := hs1.2.2.2
  have hd2 := hs2.2.2.2
  have ho1 := hs1.2.1
  have ho2 := hs2.2.1
  have hD : 0 < 2 * szE w n := by have := szE_pos w n; omega
  refine canon_ext w z1 z2 h1 h2 (by omega) ?_
  rcases Nat.lt_trichotomy (start n) (start z1) with hl1 | he1 | hg1
  · obtain ⟨hb1, _⟩ := sibPair_starts w n z1 hn h1 hs1 hl1
    rcases Nat.lt_trichotomy (start n) (start z2) with hl2 | he2 | hg2
    · obtain ⟨hb2, _⟩ := sibPair_starts w n z2 hn h2 hs2 hl2
      omega
    · exact absurd (canon_ext w n z2 hn h2 (by omega) he2) hs2.1
    · obtain ⟨hb2, _⟩ := sibPair_starts w z2 n h2 hn (sibPair_symm w n z2 hs2) hg2
      rw [szE_congr w z2 n (by omega)] at hb2
      exfalso
      have hz12 : start z1 = start z2 + 2 * szE w n := by omega
      have hstep : start z1 / (2 * szE w n) = start z2 / (2 * szE w n) + 1 := by
        rw [hz12]
        exact Nat.add_div_right _ hD
      omega
  · exact absurd (canon_ext w n z1 hn h1 (by omega) he1) hs1.1
  · obtain ⟨hb1, _⟩ := sibPair_starts w z1 n h1 hn (sibPair_symm w n z1 hs1) hg1
    rw [szE_congr w z1 n (by omega)] at hb1
    rcases Nat.lt_trichotomy (start n) (start z2) with hl2 | he2 | hg2
    · obtain ⟨hb2, _⟩ := sibPair_starts w n z2 hn h2 hs2 hl2
      exfalso
      have hz12 : start z2 = start z1 + 2 * szE w n := by omega
      have hstep : start z2 / (2 * szE w n) = start z1 / (2 * szE w n) + 1 := by
        rw [hz12]
        exact Nat.add_div_right _ hD
      omega
    · exact absurd (canon_ext w n z2 hn h2 (by omega) he2) hs2.1
    · obtain ⟨hb2, _⟩ := sibPair_starts w z2 n h2 hn (sibPair_symm w n z2 hs2) hg2
      rw [szE_congr w z2 n (by omega)] at hb2
      omega

theorem netOK_parent (w : Nat) (a : IPNet) (ha : Pure w a) (hk : 1 ≤ olen a) :
    NetOK w ⟨a.ip, cidrMaskAux (olen a - 1) w⟩ := by
  have ho := olen_mk a.ip (olen a - 1) w (by have := ha.klen; omega)
  exact ⟨ha.hw, ha.iplen, ha.ipok, by rw [ho]; have := ha.klen; omega,
    by rw [ho], ha.nomap⟩

theorem szE_parent (w : Nat) (a : IPNet) (hk : 1 ≤ olen a) (h8 : olen a ≤ 8 * w) :
    szE w (⟨a.ip, cidrMaskAux (olen a - 1) w⟩ : IPNet) = 2 * szE w a := by
  unfold szE
  rw [olen_mk a.ip (olen a - 1) w (by omega),
    show 8 * w - (olen a - 1) = (8 * w - olen a) + 1 from by omega, pow_succ]
  ring

/-- `canCombineNets` succeeds on a sibling pair given low half first. -/
theorem canCombine_some (w : Nat) (a b : IPNet) (ha : Pure w a) (hb : Pure w b)
    (hsib : SibPair w a b) (hlow : start a < start b) :
    canCombineNets a b = some ⟨a.ip, cidrMaskAux (olen a - 1) w⟩ := by
  obtain ⟨hne, ho, hk, hd⟩ := hsib
  have hipne : ¬ ipEqual a.ip b.ip = true := by
    rw [ipEqual_pure w a b (ha.netOK w a) (hb.netOK w b)]
    omega
  have hmeq : bytesCmp a.mask b.mask = .eq := by
    rw [ha.maskc, hb.maskc, ho]
    exact bytesCmp_refl _
  have hms : maskSize a.mask = (olen a, 8 * w) := by
    rw [ha.maskc, maskSize_cidrMaskAux _ _ ha.klen]
  have hcast : ((olen a : Int) - 1) = ((olen a - 1 : Nat) : Int) := by omega
  have hmask : cidrMask ((olen a : Int) - 1) (8 * w) = cidrMaskAux (olen a - 1) w := by
    rw [hcast, cidrMask_eq (olen a - 1) w ha.hw (by have := ha.klen; omega)]
  have hP := netOK_parent w a ha hk
  have hcont : ipnetContains ⟨a.ip, cidrMaskAux (olen a - 1) w⟩ b.ip = true := by
    rw [ipnetContains_pure w _ hP b.ip hb.iplen hb.ipok hb.nomap]
    rw [szE_parent w a hk ha.klen]
    show ipVal b.ip / (2 * szE w a) = ipVal a.ip / (2 * szE w a)
    exact hd.symm
  unfold canCombineNets
  rw [if_neg hipne, if_neg (fun h => h hmeq), hms]
  simp only [hmask]
  rw [if_pos hcont]

/-- `canCombineNets` fails on every non-sibling pair of canonical nets. -/
theorem canCombine_none (w : Nat) (a b : IPNet) (ha : Pure w a) (hb : Pure w b)
    (hns : ¬ SibPair w a b) : canCombineNets a b = none := by
  unfold canCombineNets
  by_cases hip : ipEqual a.ip b.ip = true
  · rw [if_pos hip]
  rw [if_neg hip]
  have hse : start a ≠ start b := by
    rw [ipEqual_pure w a b (ha.netOK w a) (hb.netOK w b)] at hip
    exact hip
  by_cases ho : olen a = olen b
  · have hmeq : bytesCmp a.mask b.mask = .eq := by
      rw [ha.maskc, hb.maskc, ho]
      exact bytesCmp_refl _
    rw [if_neg (fun h => h hmeq)]
    have hms : maskSize a.mask = (olen a, 8 * w) := by
      rw [ha.maskc, maskSize_cidrMaskAux _ _ ha.klen]
    rw [hms]
    by_cases hk : 1 ≤ olen a
    · have hcast : ((olen a : Int) - 1) = ((olen a - 1 : Nat) : Int) := by omega
      have hmask : cidrMask ((olen a : Int) - 1) (8 * w) =
          cidrMaskAux (olen a - 1) w := by
        rw [hcast, cidrMask_eq (olen a - 1) w ha.hw (by have := ha.klen; omega)]
      simp only [hmask]
      have hP := netOK_parent w a ha hk
      have hne : a ≠ b := by
        intro he
        rw [he] at hse
        exact hse rfl
      have hdne : ¬ start a / (2 * szE w a) = start b / (2 * szE w a) :=
        fun hd => hns ⟨hne, ho, hk, hd⟩
      have hcont : ¬ ipnetContains ⟨a.ip, cidrMaskAux (olen a - 1) w⟩ b.ip = true := by
        rw [ipnetContains_pure w _ hP b.ip hb.iplen hb.ipok hb.nomap]
        rw [szE_parent w a hk ha.klen]
        intro hcd
        exact hdne (hcd.symm)
      rw [if_neg hcont]
    · have hk0 : olen a = 0 := by omega
      have hcast : ((olen a : Int) - 1) = -1 := by omega
      have hmask : cidrMask ((olen a : Int) - 1) (8 * w) = [] := by
        rw [hcast]
        unfold cidrMask
        rcases ha.hw with hw | hw <;> subst hw <;> norm_num
      simp only [hmask]
      have hcont : ¬ ipnetContains ⟨a.ip, ([] : List Nat)⟩ b.ip = true := by
        unfold ipnetContains
        have hnnm : networkNumberAndMask ⟨a.ip, ([] : List Nat)⟩ = none := by
          unfold networkNumberAndMask
          rcases ha.hw with hw | hw
          · rw [to4_len4 a.ip (by rw [ha.iplen, hw])]
            norm_num
          · rw [ha.nomap hw]
            rw [show (⟨a.ip, ([] : List Nat)⟩ : IPNet).ip.length = 16 from by
              rw [ha.iplen, hw]]
            norm_num
        rw [hnnm]
        have hblen : ((to4 b.ip).getD b.ip).length = w := by
          rcases hb.hw with hw | hw
          · rw [to4_len4 b.ip (by rw [hb.iplen, hw])]
            simp only [Option.getD_some]
            rw [hb.iplen]
          · rw [hb.nomap hw]
            simp only [Option.getD_none]
            rw [hb.iplen]
        simp only [Option.getD_none]
        rw [if_pos ?_]
        · simp
        · show ¬ (([] : List Nat).length = ((to4 b.ip).getD b.ip).length)
          rw [hblen]
          rcases hb.hw with hw | hw <;> simp [hw]
      rw [if_neg hcont]
  · have hmne : ¬ bytesCmp a.mask b.mask = .eq := by
      rw [ha.maskc, hb.maskc]
      rw [maskCmp_eq_iff w (olen a) (olen b) ha.klen hb.klen]
      exact ho
    rw [if_pos hmne]

/-! ## In-order neighbors in the sorted walk -/

theorem before_irrefl (w : Nat) (n : IPNet) (h : before w n n) : False := by
  have := szE_pos w n
  unfold before at h
  omega

theorem findIdxQ_unique {α : Type} (p : α → Bool) (l : List α) :
    ∀ i (hi : i < l.length), p (l.get ⟨i, hi⟩) = true →
    (∀ j (hj : j < l.length), p (l.get ⟨j, hj⟩) = true → j = i) →
    l.findIdx? p = some i := by
  induction l with
  | nil => intro i hi _ _; exact absurd hi (by simp)
  | cons a t ih =>
    intro i hi hyes huniq
    match i with
    | 0 =>
      have hyes' : p a = true := hyes
      rw [List.findIdx?_cons, if_pos hyes']
    | Nat.succ j =>
      have hpa : ¬ p a = true := by
        intro hpa
        exact absurd (huniq 0 (by simp) hpa) (by omega)
      rw [List.findIdx?_cons, if_neg hpa, List.findIdx?_succ]
      have hj : j < t.length := by
        rw [List.length_cons] at hi
        omega
      rw [ih j hj hyes (fun j' hj' hp => by
        have := huniq (j' + 1) (by rw [List.length_cons]; omega) hp
        omega)]
      rfl

/-- The index of an element of a duplicate-free (`before`-sorted) walk, and
what `neighborsIn` returns at it. -/
theorem neighborsIn_spec (w : Nat) (l : List IPNet) (hs : l.Pairwise (before w))
    (n : IPNet) (i : Nat) (hi : i < l.length) (hni : l.get ⟨i, hi⟩ = n) :
    neighborsIn l n =
      ((if i = 0 then none else l.get? (i - 1)), l.get? (i + 1)) := by
  have hpw := List.pairwise_iff_getElem.mp hs
  have huniq : ∀ j (hj : j < l.length),
      (decide (l.get ⟨j, hj⟩ = n)) = true → j = i := by
    intro j hj hp
    rw [decide_eq_true_eq] at hp
    rcases Nat.lt_trichotomy j i with h | h | h
    · exfalso
      have hbf := hpw j i hj hi h
      rw [show l[j] = l.get ⟨j, hj⟩ from rfl,
        show l[i] = l.get ⟨i, hi⟩ from rfl, hni, hp] at hbf
      exact before_irrefl w n hbf
    · exact h
    · exfalso
      have hbf := hpw i j hi hj h
      rw [show l[i] = l.get ⟨i, hi⟩ from rfl,
        show l[j] = l.get ⟨j, hj⟩ from rfl, hni, hp] at hbf
      exact before_irrefl w n hbf
  have hfind : l.findIdx? (fun x => x = n) = some i := by
    refine findIdxQ_unique (fun x => decide (x = n)) l i hi ?_ huniq
    rw [decide_eq_true_eq]
    exact hni
  unfold neighborsIn
  rw [hfind]

/-- A net strictly before `n` and contiguous with it is `n`'s in-order
predecessor. -/
theorem prev_of_contig (w : Nat) (l : List IPNet) (hs : l.Pairwise (before w))
    (n b : IPNet) (i : Nat) (hi : i < l.length) (hni : l.get ⟨i, hi⟩ = n)
    (hb : b ∈ l) (hbn : before w b n) (hcont : start n = start b + szE w b) :
    (neighborsIn l n).1 = some b := by
  have hpw := List.pairwise_iff_getElem.mp hs
  obtain ⟨⟨j, hj⟩, hbj⟩ := List.mem_iff_get.mp hb
  have hji : j < i := by
    rcases Nat.lt_trichotomy j i with h | h | h
    · exact h
    · exfalso
      subst h
      have hbe : b = n := by
        rw [← hbj]
        exact hni
      subst hbe
      exact before_irrefl w b hbn
    · exfalso
      have hbf := hpw i j hi hj h
      rw [show l[i] = l.get ⟨i, hi⟩ from rfl,
        show l[j] = l.get ⟨j, hj⟩ from rfl, hni, hbj] at hbf
      exact before_irrefl w b (before_trans w b n b hbn hbf)
  have hadj : i = j + 1 := by
    by_contra hne
    have hj1 : j + 1 < l.length := by omega
    have h1 := hpw j (j + 1) hj hj1 (by omega)
    have h2 := hpw (j + 1) i hj1 hi (by omega)
    rw [show l[j] = l.get ⟨j, hj⟩ from rfl,
      show l[j + 1] = l.get ⟨j + 1, hj1⟩ from rfl, hbj] at h1
    rw [show l[j + 1] = l.get ⟨j + 1, hj1⟩ from rfl,
      show l[i] = l.get ⟨i, hi⟩ from rfl, hni] at h2
    have := szE_pos w (l.get ⟨j + 1, hj1⟩)
    unfold before at h1 h2
    omega
  rw [neighborsIn_spec w l hs n i hi hni]
  show (if i = 0 then none else l.get? (i - 1)) = some b
  rw [if_neg (by omega), show i - 1 = j from by omega, List.get?_eq_getElem?,
    List.getElem?_eq_getElem hj]
  rw [show l[j] = l.get ⟨j, hj⟩ from rfl, hbj]

/-- A net strictly after `n` and contiguous with it is `n`'s in-order
successor. -/
theorem next_of_contig (w : Nat) (l : List IPNet) (hs : l.Pairwise (before w))
    (n b : IPNet) (i : Nat) (hi : i < l.length) (hni : l.get ⟨i, hi⟩ = n)
    (hb : b ∈ l) (hbn : before w n b) (hcont : start b = start n + szE w n) :
    (neighborsIn l n).2 = some b := by
  have hpw := List.pairwise_iff_getElem.mp hs
  obtain ⟨⟨j, hj⟩, hbj⟩ := List.mem_iff_get.mp hb
  have hji : i < j := by
    rcases Nat.lt_trichotomy i j with h | h | h
    · exact h
    · exfalso
      subst h
      have hbe : b = n := by
        rw [← hbj]
        exact hni
      subst hbe
      exact before_irrefl w b hbn
    · exfalso
      have hbf := hpw j i hj hi h
      rw [show l[j] = l.get ⟨j, hj⟩ from rfl,
        show l[i] = l.get ⟨i, hi⟩ from rfl, hni, hbj] at hbf
      exact before_irrefl w b (before_trans w b n b hbf hbn)
  have hadj : j = i + 1 := by
    by_contra hne
    have hi1 : i + 1 < l.length := by omega
    have h1 := hpw i (i + 1) hi hi1 (by omega)
    have h2 := hpw (i + 1) j hi1 hj (by omega)
    rw [show l[i] = l.get ⟨i, hi⟩ from rfl,
      show l[i + 1] = l.get ⟨i + 1, hi1⟩ from rfl, hni] at h1
    rw [show l[i + 1] = l.get ⟨i + 1, hi1⟩ from rfl,
      show l[j] = l.get ⟨j, hj⟩ from rfl, hbj] at h2
    have := szE_pos w (l.get ⟨i + 1, hi1⟩)
    unfold before at h1 h2
    omega
  rw [neighborsIn_spec w l hs n i hi hni]
  show l.get? (i + 1) = some b
  rw [List.get?_eq_getElem?, show i + 1 = j from by omega,
    List.getElem?_eq_getElem hj]
  rw [show l[j] = l.get ⟨j, hj⟩ from rfl, hbj]

/-- What a returned predecessor satisfies. -/
theorem prev_mem (w : Nat) (l : List IPNet) (hs : l.Pairwise (before w))
    (n : IPNet) (i : Nat) (hi : i < l.length) (hni : l.get ⟨i, hi⟩ = n)
    (p : IPNet) (hp : (neighborsIn l n).1 = some p) :
    p ∈ l ∧ before w p n := by
  rw [neighborsIn_spec w l hs n i hi hni] at hp
  have hpw := List.pairwise_iff_getElem.mp hs
  by_cases h0 : i = 0
  · rw [if_pos h0] at hp
    exact absurd hp (by simp)
  · rw [if_neg h0] at hp
    have hi1 : i - 1 < l.length := by omega
    rw [List.get?_eq_getElem?, List.getElem?_eq_getElem hi1] at hp
    have hpl : l[i - 1] ∈ l := List.getElem_mem hi1
    have hbefore := hpw (i - 1) i hi1 hi (by omega)
    rw [show l[i] = l.get ⟨i, hi⟩ from rfl, hni] at hbefore
    rw [Option.some_inj] at hp
    rw [← hp]
    exact ⟨hpl, hbefore⟩

/-- What a returned successor satisfies. -/
theorem next_mem (w : Nat) (l : List IPNet) (hs : l.Pairwise (before w))
    (n : IPNet) (i : Nat) (hi : i < l.length) (hni : l.get ⟨i, hi⟩ = n)
    (q : IPNet) (hq : (neighborsIn l n).2 = some q) :
    q ∈ l ∧ before w n q := by
  rw [neighborsIn_spec w l hs n i hi hni] at hq
  have hpw := List.pairwise_iff_getElem.mp hs
  have hq' : l.get? (i + 1) = some q := hq
  by_cases h1 : i + 1 < l.length
  · rw [List.get?_eq_getElem?, List.getElem?_eq_getElem h1] at hq'
    have hql : l[i + 1] ∈ l := List.getElem_mem h1
    have hbefore := hpw i (i + 1) hi h1 (by omega)
    rw [show l[i] = l.get ⟨i, hi⟩ from rfl, hni] at hbefore
    rw [Option.some_inj] at hq'
    rw [← hq']
    exact ⟨hql, hbefore⟩
  · rw [List.get?_eq_getElem?, List.getElem?_eq_none (by omega)] at hq'
    exact absurd hq' (by simp)

/-! ## The combining loop of `IPSet.InsertNet` -/

/-- The address-level contents of a tree. -/
def Sem (w : Nat) (t : ipTree) (x : Nat) : Prop := ∃ m ∈ t.walkNets, memN w m x

/-- No two stored nets are combinable sibling halves. -/
def NoCombine (w : Nat) (t : ipTree) : Prop :=
  ∀ x ∈ t.walkNets, ∀ y ∈ t.walkNets, ¬ SibPair w x y

theorem nodes_not_covers (w : Nat) (t : ipTree) (hS : SInv w t) :
    ∀ x ∈ t.walkNets, ∀ y ∈ t.walkNets, x ≠ y → ¬ covers w x y := by
  intro x hx y hy hne hcov
  obtain ⟨⟨i, hi⟩, hxi⟩ := List.mem_iff_get.mp hx
  obtain ⟨⟨j, hj⟩, hyj⟩ := List.mem_iff_get.mp hy
  have hpw := List.pairwise_iff_getElem.mp (sinv_pairwise w t hS)
  have hxp : Pure w x := sinv_pure w t hS x hx
  have hyp : Pure w y := sinv_pure w t hS y hy
  rw [covers_iff_interval w x y hxp.toCanon hyp.toCanon] at hcov
  have hij : i ≠ j := by
    intro h
    subst h
    refine hne ?_
    rw [← hxi, ← hyj]
  have hsy := szE_pos w y
  have hsx := szE_pos w x
  rcases Nat.lt_or_ge i j with h | h
  · have hbf := hpw i j hi hj h
    rw [show t.walkNets[i] = t.walkNets.get ⟨i, hi⟩ from rfl,
      show t.walkNets[j] = t.walkNets.get ⟨j, hj⟩ from rfl, hxi, hyj] at hbf
    unfold before at hbf
    omega
  · have hbf := hpw j i hj hi (by omega)
    rw [show t.walkNets[j] = t.walkNets.get ⟨j, hj⟩ from rfl,
      show t.walkNets[i] = t.walkNets.get ⟨i, hi⟩ from rfl, hxi, hyj] at hbf
    unfold before at hbf
    omega

theorem insert_sem (w : Nat) (n : IPNet) (t : ipTree) (hS : SInv w t)
    (hn : Pure w n) (hcov : t.contains n = false) (x : Nat) :
    Sem w (t.insert n) x ↔ (Sem w t x ∨ memN w n x) := by
  obtain ⟨hS', hw'⟩ := insert_ok w n hn t hS hcov
  constructor
  · rintro ⟨m, hm, hmx⟩
    rcases (hw' m).mp hm with rfl | ⟨hmt, _⟩
    · exact Or.inr hmx
    · exact Or.inl ⟨m, hmt, hmx⟩
  · rintro (⟨m, hm, hmx⟩ | hnx)
    · rcases Bool.eq_false_or_eq_true (containsNet n m) with hc | hc
      · have hm' : Pure w m := sinv_pure w t hS m hm
        have hcv := (containsNet_pure w n m hn hm').mp hc
        exact ⟨n, (hw' n).mpr (Or.inl rfl),
          memN_mono w n m hn.toCanon hm'.toCanon hcv x hmx⟩
      · exact ⟨m, (hw' m).mpr (Or.inr ⟨hm, hc⟩), hmx⟩
    · exact ⟨n, (hw' n).mpr (Or.inl rfl), hnx⟩

theorem sibPair_parent_covers (w : Nat) (a b : IPNet) (ha : Pure w a)
    (hb : Pure w b) (h : SibPair w a b) (hlow : start a < start b) :
    covers w ⟨a.ip, cidrMaskAux (olen a - 1) w⟩ a ∧
    covers w ⟨a.ip, cidrMaskAux (olen a - 1) w⟩ b := by
  obtain ⟨hP, hoP, hsP, hU⟩ := sibPair_parent w a b ha hb h hlow
  have hka := h.2.2.1
  have hob := h.2.1
  constructor
  · rw [covers_iff_memN_start]
    exact ⟨by rw [hoP]; omega, (hU (start a)).mpr (Or.inl rfl)⟩
  · rw [covers_iff_memN_start]
    exact ⟨by rw [hoP]; omega, (hU (start b)).mpr (Or.inr rfl)⟩

/-- The candidate combined with the in-order predecessor. -/
def loopN1 (L : List IPNet) (n : IPNet) : IPNet :=
  match (neighborsIn L n).1 with
  | some p => (canCombineNets p n).getD n
  | none => n

/-- The candidate additionally combined with the in-order successor. -/
def loopN2 (L : List IPNet) (n : IPNet) : IPNet :=
  match (neighborsIn L n).2 with
  | some nx => (canCombineNets (loopN1 L n) nx).getD (loopN1 L n)
  | none => loopN1 L n

theorem insertNetLoop_succ (fuel : Nat) (t : ipTree) (n : IPNet) :
    insertNetLoop (fuel + 1) t n =
      if covered t n then t.insert n
      else if loopN2 (t.insert n).walkNets n = n then t.insert n
      else insertNetLoop fuel (t.insert n) (loopN2 (t.insert n).walkNets n) := by
  show (let t' := t.insert n
        if covered t n then t'
        else
          let pn := neighborsIn t'.walkNets n
          let n1 := match pn.1 with
            | some p => (canCombineNets p n).getD n
            | none => n
          let n2 := match pn.2 with
            | some nx => (canCombineNets n1 nx).getD n1
            | none => n1
          if n2 = n then t' else insertNetLoop fuel t' n2) = _
  rfl

/-- The combining loop of `IPSet.InsertNet`: starting from an invariant tree
whose only combinable pairs (if any) lie inside `n`, the loop yields an
invariant, fully-combined tree holding exactly the old addresses plus `n`'s. -/
theorem insertNetLoop_ok (w : Nat) :
    ∀ fuel t n, SInv w t → Pure w n →
    (∀ x ∈ t.walkNets, ∀ y ∈ t.walkNets, SibPair w x y →
      covers w n x ∧ covers w n y) →
    olen n + 1 ≤ fuel →
    SInv w (insertNetLoop fuel t n) ∧
    NoCombine w (insertNetLoop fuel t n) ∧
    (∀ x, Sem w (insertNetLoop fuel t n) x ↔ (Sem w t x ∨ memN w n x)) := by
  intro fuel
  induction fuel with
  | zero => intro t n _ _ _ hf; omega
  | succ fuel ih =>
    intro t n hS hn hH hfuel
    rw [insertNetLoop_succ]
    by_cases hcv : covered t n = true
    · rw [if_pos hcv]
      rw [covered_eq_contains] at hcv
      rw [insert_covered n t hcv]
      obtain ⟨m0, hm0, hm0n⟩ := (contains_sem w n hn t hS).mp hcv
      have hm0' : Pure w m0 := sinv_pure w t hS m0 hm0
      refine ⟨hS, ?_, ?_⟩
      · intro x hx y hy hxy
        obtain ⟨hcx, hcy⟩ := hH x hx y hy hxy
        have hx' : Pure w x := sinv_pure w t hS x hx
        have hy' : Pure w y := sinv_pure w t hS y hy
        have hmx : covers w m0 x := covers_trans w m0 n x hm0'.toCanon
          hn.toCanon hx'.toCanon hm0n hcx
        have hmy : covers w m0 y := covers_trans w m0 n y hm0'.toCanon
          hn.toCanon hy'.toCanon hm0n hcy
        by_cases hxm : x = m0
        · exact nodes_not_covers w t hS m0 hm0 y hy
            (fun he => hxy.1 (hxm.trans he)) hmy
        · exact nodes_not_covers w t hS m0 hm0 x hx
            (fun he => hxm he.symm) hmx
      · intro x
        constructor
        · exact Or.inl
        · rintro (h | h)
          · exact h
          · exact ⟨m0, hm0, memN_mono w m0 n hm0'.toCanon hn.toCanon hm0n x h⟩
    · have hcf : t.contains n = false := by
        rw [← covered_eq_contains]
        rcases Bool.eq_false_or_eq_true (covered t n) with h | h
        · exact absurd h hcv
        · exact h
      rw [if_neg hcv]
      obtain ⟨hS', hw'⟩ := insert_ok w n hn t hS hcf
      have hsem' := insert_sem w n t hS hn hcf
      have hnL : n ∈ (t.insert n).walkNets := (hw' n).mpr (Or.inl rfl)
      obtain ⟨⟨i, hi⟩, hni⟩ := List.mem_iff_get.mp hnL
      have hsort := sinv_pairwise w (t.insert n) hS'
      have hLpure : ∀ z ∈ (t.insert n).walkNets, Pure w z :=
        sinv_pure w (t.insert n) hS'
      have hpairs : ∀ x ∈ (t.insert n).walkNets, ∀ y ∈ (t.insert n).walkNets,
          SibPair w x y → (x = n ∨ y = n) := by
        intro x hx y hy hxy
        by_cases hxn : x = n
        · exact Or.inl hxn
        by_cases hyn : y = n
        · exact Or.inr hyn
        exfalso
        obtain ⟨hxt, hxf⟩ := ((hw' x).mp hx).resolve_left hxn
        obtain ⟨hyt, hyf⟩ := ((hw' y).mp hy).resolve_left hyn
        obtain ⟨hcx, _⟩ := hH x hxt y hyt hxy
        rw [(containsNet_pure w n x hn (sinv_pure w t hS x hxt)).mpr hcx] at hxf
        exact absurd hxf (by simp)
      have hbud : ∀ z ∈ (t.insert n).walkNets, SibPair w n z →
          ((start z < start n →
            (neighborsIn (t.insert n).walkNets n).1 = some z) ∧
           (start n < start z →
            (neighborsIn (t.insert n).walkNets n).2 = some z)) := by
        intro z hz hsz
        have hz' : Pure w z := hLpure z hz
        constructor
        · intro hlz
          obtain ⟨hcontig, _⟩ := sibPair_starts w z n hz'.toCanon hn.toCanon
            (sibPair_symm w n z hsz) hlz
          exact prev_of_contig w _ hsort n z i hi hni hz
            (by unfold before; omega) hcontig
        · intro hgz
          obtain ⟨hcontig, _⟩ := sibPair_starts w n z hn.toCanon hz'.toCanon
            hsz hgz
          exact next_of_contig w _ hsort n z i hi hni hz
            (by unfold before; omega) hcontig
      have hbudside : ∀ z ∈ (t.insert n).walkNets, SibPair w n z →
          start z < start n ∨ start n < start z := by
        intro z hz hsz
        rcases Nat.lt_trichotomy (start z) (start n) with h | h | h
        · exact Or.inl h
        · exfalso
          exact hsz.1 (canon_ext w n z hn.toCanon (hLpure z hz).toCanon
            hsz.2.1 h.symm)
        · exact Or.inr h
      have hmain :
          (loopN2 (t.insert n).walkNets n = n ∧
            ∀ z ∈ (t.insert n).walkNets, ¬ SibPair w n z) ∨
          (∃ S : List IPNet, (∀ z ∈ S, z ∈ (t.insert n).walkNets ∧ z ≠ n) ∧
            Pure w (loopN2 (t.insert n).walkNets n) ∧
            olen (loopN2 (t.insert n).walkNets n) < olen n ∧
            loopN2 (t.insert n).walkNets n ≠ n ∧
            (∀ x ∈ (t.insert n).walkNets, ∀ y ∈ (t.insert n).walkNets,
              SibPair w x y →
              covers w (loopN2 (t.insert n).walkNets n) x ∧
              covers w (loopN2 (t.insert n).walkNets n) y) ∧
            (∀ x, memN w (loopN2 (t.insert n).walkNets n) x ↔
              (memN w n x ∨ ∃ c ∈ S, memN w c x))) := by
        rcases hp : (neighborsIn (t.insert n).walkNets n).1 with _ | p
        · -- no predecessor
          have hn1 : loopN1 (t.insert n).walkNets n = n := by
            unfold loopN1
            rw [hp]
          rcases hq : (neighborsIn (t.insert n).walkNets n).2 with _ | q
          · -- no successor either: no combination
            have hn2 : loopN2 (t.insert n).walkNets n = n := by
              unfold loopN2
              rw [hq, hn1]
            refine Or.inl ⟨hn2, ?_⟩
            intro z hz hsz
            rcases hbudside z hz hsz with h | h
            · rw [(hbud z hz hsz).1 h] at hp
              exact absurd hp (by simp)
            · rw [(hbud z hz hsz).2 h] at hq
              exact absurd hq (by simp)
          · obtain ⟨hqL, hnq⟩ := next_mem w _ hsort n i hi hni q hq
            have hq' : Pure w q := hLpure q hqL
            by_cases hqs : SibPair w n q
            · -- combine with the successor only
              have hlow : start n < start q := by
                have := szE_pos w n
                unfold before at hnq
                omega
              have hn2 : loopN2 (t.insert n).walkNets n =
                  ⟨n.ip, cidrMaskAux (olen n - 1) w⟩ := by
                unfold loopN2
                rw [hq, hn1]
                show (canCombineNets n q).getD n = _
                rw [canCombine_some w n q hn hq' hqs hlow]
                rfl
              obtain ⟨hPp, hPo, hPs, hPU⟩ := sibPair_parent w n q hn hq' hqs hlow
              obtain ⟨hCa, hCb⟩ := sibPair_parent_covers w n q hn hq' hqs hlow
              have hkn := hqs.2.2.1
              refine Or.inr ⟨[q], ?_, ?_, ?_, ?_, ?_, ?_⟩
              · intro z hz
                rw [List.mem_singleton] at hz
                subst hz
                exact ⟨hqL, fun he => hqs.1 he.symm⟩
              · rw [hn2]; exact hPp
              · rw [hn2, hPo]; omega
              · rw [hn2]
                intro he
                have := congrArg olen he
                rw [hPo] at this
                omega
              · intro x hx y hy hxy
                rw [hn2]
                rcases hpairs x hx y hy hxy with rfl | rfl
                · have hzq : y = q := sibPair_unique w x y q hn.toCanon
                    (hLpure y hy).toCanon hq'.toCanon hxy hqs
                  subst hzq
                  exact ⟨hCa, hCb⟩
                · have hzq : x = q := sibPair_unique w y x q hn.toCanon
                    (hLpure x hx).toCanon hq'.toCanon (sibPair_symm w x y hxy) hqs
                  subst hzq
                  exact ⟨hCb, hCa⟩
              · intro x
                rw [hn2, hPU x]
                simp
            · have hn2 : loopN2 (t.insert n).walkNets n = n := by
                unfold loopN2
                rw [hq, hn1]
                show (canCombineNets n q).getD n = _
                rw [canCombine_none w n q hn hq' hqs]
                rfl
              refine Or.inl ⟨hn2, ?_⟩
              intro z hz hsz
              rcases hbudside z hz hsz with h | h
              · rw [(hbud z hz hsz).1 h] at hp
                exact absurd hp (by simp)
              · rw [(hbud z hz hsz).2 h] at hq
                rw [Option.some_inj] at hq
                subst hq
                exact hqs hsz
        · obtain ⟨hpL, hpn⟩ := prev_mem w _ hsort n i hi hni p hp
          have hp' : Pure w p := hLpure p hpL
          by_cases hps : SibPair w p n
          · -- combine with the predecessor
            have hplow : start p < start n := by
              have := szE_pos w p
              unfold before at hpn
              omega
            have hn1 : loopN1 (t.insert n).walkNets n =
                ⟨p.ip, cidrMaskAux (olen p - 1) w⟩ := by
              unfold loopN1
              rw [hp]
              show (canCombineNets p n).getD n = _
              rw [canCombine_some w p n hp' hn hps hplow]
              rfl
            obtain ⟨hPp, hPo, hPs, hPU⟩ := sibPair_parent w p n hp' hn hps hplow
            obtain ⟨hCa, hCb⟩ := sibPair_parent_covers w p n hp' hn hps hplow
            have hkp := hps.2.2.1
            have hop : olen p = olen n := hps.2.1
            rcases hq : (neighborsIn (t.insert n).walkNets n).2 with _ | q
            · -- only the predecessor combines
              have hn2 : loopN2 (t.insert n).walkNets n =
                  ⟨p.ip, cidrMaskAux (olen p - 1) w⟩ := by
                unfold loopN2
                rw [hq, hn1]
              refine Or.inr ⟨[p], ?_, ?_, ?_, ?_, ?_, ?_⟩
              · intro z hz
                rw [List.mem_singleton] at hz
                subst hz
                exact ⟨hpL, hps.1⟩
              · rw [hn2]; exact hPp
              · rw [hn2, hPo]; omega
              · rw [hn2]
                intro he
                have := congrArg olen he
                rw [hPo] at this
                omega
              · intro x hx y hy hxy
                rw [hn2]
                have hpsn : SibPair w n p := sibPair_symm w p n hps
                rcases hpairs x hx y hy hxy with rfl | rfl
                · have hzq : y = p := sibPair_unique w x y p hn.toCanon
                    (hLpure y hy).toCanon hp'.toCanon hxy hpsn
                  subst hzq
                  exact ⟨hCb, hCa⟩
                · have hzq : x = p := sibPair_unique w y x p hn.toCanon
                    (hLpure x hx).toCanon hp'.toCanon (sibPair_symm w x y hxy) hpsn
                  subst hzq
                  exact ⟨hCa, hCb⟩
              · intro x
                rw [hn2, hPU x]
                constructor
                · rintro (h | h)
                  · exact Or.inr ⟨p, List.mem_singleton_self p, h⟩
                  · exact Or.inl h
                · rintro (h | ⟨c, hc, hcx⟩)
                  · exact Or.inr h
                  · rw [List.mem_singleton] at hc
                    subst hc
                    exact Or.inl hcx
            · obtain ⟨hqL, hnq⟩ := next_mem w _ hsort n i hi hni q hq
              have hq' : Pure w q := hLpure q hqL
              by_cases hqs : SibPair w (⟨p.ip, cidrMaskAux (olen p - 1) w⟩ : IPNet) q
              · -- both sides combine
                have hlow2 : start (⟨p.ip, cidrMaskAux (olen p - 1) w⟩ : IPNet) <
                    start q := by
                  have h1 := szE_pos w n
                  unfold before at hnq
                  rw [hPs]
                  omega
                have hn2 : loopN2 (t.insert n).walkNets n =
                    ⟨(⟨p.ip, cidrMaskAux (olen p - 1) w⟩ : IPNet).ip,
                      cidrMaskAux
                        (olen (⟨p.ip, cidrMaskAux (olen p - 1) w⟩ : IPNet) - 1)
                        w⟩ := by
                  unfold loopN2
                  rw [hq, hn1]
                  show (canCombineNets ⟨p.ip, cidrMaskAux (olen p - 1) w⟩ q).getD
                    ⟨p.ip, cidrMaskAux (olen p - 1) w⟩ = _
                  rw [canCombine_some w _ q hPp hq' hqs hlow2]
                  rfl
                obtain ⟨hP2p, hP2o, hP2s, hP2U⟩ :=
                  sibPair_parent w _ q hPp hq' hqs hlow2
                obtain ⟨hC2a, hC2b⟩ :=
                  sibPair_parent_covers w _ q hPp hq' hqs hlow2
                have hk2 := hqs.2.2.1
                refine Or.inr ⟨[p, q], ?_, ?_, ?_, ?_, ?_, ?_⟩
                · intro z hz
                  rw [List.mem_cons, List.mem_singleton] at hz
                  rcases hz with rfl | rfl
                  · exact ⟨hpL, hps.1⟩
                  · exact ⟨hqL, fun he => before_irrefl w n (he ▸ hnq)⟩
                · rw [hn2]; exact hP2p
                · rw [hn2, hP2o, hPo]; omega
                · rw [hn2]
                  intro he
                  have := congrArg olen he
                  rw [hP2o, hPo] at this
                  omega
                · intro x hx y hy hxy
                  rw [hn2]
                  have hpsn : SibPair w n p := sibPair_symm w p n hps
                  have hCan : covers w (⟨(⟨p.ip, cidrMaskAux (olen p - 1) w⟩ : IPNet).ip,
                      cidrMaskAux (olen (⟨p.ip, cidrMaskAux (olen p - 1) w⟩ : IPNet) - 1) w⟩ : IPNet) n :=
                    covers_trans w _ _ n hP2p.toCanon hPp.toCanon hn.toCanon hC2a hCb
                  have hCap : covers w (⟨(⟨p.ip, cidrMaskAux (olen p - 1) w⟩ : IPNet).ip,
                      cidrMaskAux (olen (⟨p.ip, cidrMaskAux (olen p - 1) w⟩ : IPNet) - 1) w⟩ : IPNet) p :=
                    covers_trans w _ _ p hP2p.toCanon hPp.toCanon hp'.toCanon hC2a hCa
                  rcases hpairs x hx y hy hxy with rfl | rfl
                  · have hzq : y = p := sibPair_unique w x y p hn.toCanon
                      (hLpure y hy).toCanon hp'.toCanon hxy hpsn
                    subst hzq
                    exact ⟨hCan, hCap⟩
                  · have hzq : x = p := sibPair_unique w y x p hn.toCanon
                      (hLpure x hx).toCanon hp'.toCanon (sibPair_symm w x y hxy) hpsn
                    subst hzq
                    exact ⟨hCap, hCan⟩
                · intro x
                  rw [hn2, hP2U x, hPU x]
                  constructor
                  · rintro ((h | h) | h)
                    · exact Or.inr ⟨p, by simp, h⟩
                    · exact Or.inl h
                    · exact Or.inr ⟨q, by simp, h⟩
                  · rintro (h | ⟨c, hc, hcx⟩)
                    · exact Or.inl (Or.inr h)
                    · rw [List.mem_cons, List.mem_singleton] at hc
                      rcases hc with rfl | rfl
                      · exact Or.inl (Or.inl hcx)
                      · exact Or.inr hcx
              · -- successor does not combine with the parent
                have hn2 : loopN2 (t.insert n).walkNets n =
                    ⟨p.ip, cidrMaskAux (olen p - 1) w⟩ := by
                  unfold loopN2
                  rw [hq, hn1]
                  show (canCombineNets ⟨p.ip, cidrMaskAux (olen p - 1) w⟩ q).getD
                    ⟨p.ip, cidrMaskAux (olen p - 1) w⟩ = _
                  rw [canCombine_none w _ q hPp hq' hqs]
                  rfl
                refine Or.inr ⟨[p], ?_, ?_, ?_, ?_, ?_, ?_⟩
                · intro z hz
                  rw [List.mem_singleton] at hz
                  subst hz
                  exact ⟨hpL, hps.1⟩
                · rw [hn2]; exact hPp
                · rw [hn2, hPo]; omega
                · rw [hn2]
                  intro he
                  have := congrArg olen he
                  rw [hPo] at this
                  omega
                · intro x hx y hy hxy
                  rw [hn2]
                  have hpsn : SibPair w n p := sibPair_symm w p n hps
                  rcases hpairs x hx y hy hxy with rfl | rfl
                  · have hzq : y = p := sibPair_unique w x y p hn.toCanon
                      (hLpure y hy).toCanon hp'.toCanon hxy hpsn
                    subst hzq
                    exact ⟨hCb, hCa⟩
                  · have hzq : x = p := sibPair_unique w y x p hn.toCanon
                      (hLpure x hx).toCanon hp'.toCanon (sibPair_symm w x y hxy) hpsn
                    subst hzq
                    exact ⟨hCa, hCb⟩
                · intro x
                  rw [hn2, hPU x]
                  constructor
                  · rintro (h | h)
                    · exact Or.inr ⟨p, List.mem_singleton_self p, h⟩
                    · exact Or.inl h
                  · rintro (h | ⟨c, hc, hcx⟩)
                    · exact Or.inr h
                    · rw [List.mem_singleton] at hc
                      subst hc
                      exact Or.inl hcx
          · -- predecessor does not combine
            have hn1 : loopN1 (t.insert n).walkNets n = n := by
              unfold loopN1
              rw [hp]
              show (canCombineNets p n).getD n = _
              rw [canCombine_none w p n hp' hn hps]
              rfl
            rcases hq : (neighborsIn (t.insert n).walkNets n).2 with _ | q
            · have hn2 : loopN2 (t.insert n).walkNets n = n := by
                unfold loopN2
                rw [hq, hn1]
              refine Or.inl ⟨hn2, ?_⟩
              intro z hz hsz
              rcases hbudside z hz hsz with h | h
              · rw [(hbud z hz hsz).1 h] at hp
                rw [Option.some_inj] at hp
                subst hp
                exact hps (sibPair_symm w n z hsz)
              · rw [(hbud z hz hsz).2 h] at hq
                exact absurd hq (by simp)
            · obtain ⟨hqL, hnq⟩ := next_mem w _ hsort n i hi hni q hq
              have hq' : Pure w q := hLpure q hqL
              by_cases hqs : SibPair w n q
              · have hlow : start n < start q := by
                  have := szE_pos w n
                  unfold before at hnq
                  omega
                have hn2 : loopN2 (t.insert n).walkNets n =
                    ⟨n.ip, cidrMaskAux (olen n - 1) w⟩ := by
                  unfold loopN2
                  rw [hq, hn1]
                  show (canCombineNets n q).getD n = _
                  rw [canCombine_some w n q hn hq' hqs hlow]
                  rfl
                obtain ⟨hPp, hPo, hPs, hPU⟩ := sibPair_parent w n q hn hq' hqs hlow
                obtain ⟨hCa, hCb⟩ := sibPair_parent_covers w n q hn hq' hqs hlow
                have hkn := hqs.2.2.1
                refine Or.inr ⟨[q], ?_, ?_, ?_, ?_, ?_, ?_⟩
                · intro z hz
                  rw [List.mem_singleton] at hz
                  subst hz
                  exact ⟨hqL, fun he => hqs.1 he.symm⟩
                · rw [hn2]; exact hPp
                · rw [hn2, hPo]; omega
                · rw [hn2]
                  intro he
                  have := congrArg olen he
                  rw [hPo] at this
                  omega
                · intro x hx y hy hxy
                  rw [hn2]
                  rcases hpairs x hx y hy hxy with rfl | rfl
                  · have hzq : y = q := sibPair_unique w x y q hn.toCanon
                      (hLpure y hy).toCanon hq'.toCanon hxy hqs
                    subst hzq
                    exact ⟨hCa, hCb⟩
                  · have hzq : x = q := sibPair_unique w y x q hn.toCanon
                      (hLpure x hx).toCanon hq'.toCanon (sibPair_symm w x y hxy) hqs
                    subst hzq
                    exact ⟨hCb, hCa⟩
                · intro x
                  rw [hn2, hPU x]
                  simp
              · have hn2 : loopN2 (t.insert n).walkNets n = n := by
                  unfold loopN2
                  rw [hq, hn1]
                  show (canCombineNets n q).getD n = _
                  rw [canCombine_none w n q hn hq' hqs]
                  rfl
                refine Or.inl ⟨hn2, ?_⟩
                intro z hz hsz
                rcases hbudside z hz hsz with h | h
                · rw [(hbud z hz hsz).1 h] at hp
                  rw [Option.some_inj] at hp
                  subst hp
                  exact hps (sibPair_symm w n z hsz)
                · rw [(hbud z hz hsz).2 h] at hq
                  rw [Option.some_inj] at hq
                  subst hq
                  exact hqs hsz
      rcases hmain with ⟨hn2eq, hnob⟩ | ⟨S, hSsub, hPn2, holn2, hn2ne, hHn2, hUn2⟩
      · rw [if_pos hn2eq]
        refine ⟨hS', ?_, hsem'⟩
        intro x hx y hy hxy
        rcases hpairs x hx y hy hxy with rfl | rfl
        · exact hnob y hy hxy
        · exact hnob x hx (sibPair_symm w x y hxy)
      · rw [if_neg hn2ne]
        have hfuel' : olen (loopN2 (t.insert n).walkNets n) + 1 ≤ fuel := by
          omega
        obtain ⟨hSr, hNCr, hSemr⟩ :=
          ih (t.insert n) (loopN2 (t.insert n).walkNets n) hS' hPn2 hHn2 hfuel'
        refine ⟨hSr, hNCr, ?_⟩
        intro x
        rw [hSemr x, hsem' x]
        constructor
        · rintro ((h | h) | h2)
          · exact Or.inl h
          · exact Or.inr h
          · rcases (hUn2 x).mp h2 with h | ⟨c, hc, hcx⟩
            · exact Or.inr h
            · obtain ⟨hcL, hcne⟩ := hSsub c hc
              rcases (hw' c).mp hcL with rfl | ⟨hct, _⟩
              · exact absurd rfl hcne
              · exact Or.inl ⟨c, hct, hcx⟩
        · rintro (h | h)
          · exact Or.inl (Or.inl h)
          · exact Or.inl (Or.inr h)

/-! ## Set-level invariant and operations -/

/-- The well-formedness of an `IPSet`: an invariant search tree with no
combinable pair left. -/
def SetInv (w : Nat) (s : IPSet) : Prop := SInv w s.tree ∧ NoCombine w s.tree

theorem setInv_empty (w : Nat) : SetInv w ⟨.nil⟩ := by
  refine ⟨SInv.nil, ?_⟩
  intro x hx
  rw [ipTree.walkNets] at hx
  exact absurd hx (List.not_mem_nil x)

theorem insertNet_ok (w : Nat) (s : IPSet) (n : IPNet) (h : SetInv w s)
    (hn : Pure w n) :
    SetInv w (s.insertNet (some n)) ∧
    (∀ x, Sem w (s.insertNet (some n)).tree x ↔ (Sem w s.tree x ∨ memN w n x)) := by
  have hfuel : olen n + 1 ≤ (maskSize n.mask).1 + 2 := by
    show olen n + 1 ≤ olen n + 2
    omega
  obtain ⟨hS, hNC, hSem⟩ := insertNetLoop_ok w ((maskSize n.mask).1 + 2) s.tree n
    h.1 hn (fun x hx y hy hxy => absurd hxy (h.2 x hx y hy)) hfuel
  exact ⟨⟨hS, hNC⟩, hSem⟩

theorem foldl_insert_ok (w : Nat) (ns : List IPNet) :
    (∀ n ∈ ns, Pure w n) → ∀ s : IPSet, SetInv w s →
    SetInv w (ns.foldl (fun s n => s.insertNet (some n)) s) ∧
    (∀ x, Sem w (ns.foldl (fun s n => s.insertNet (some n)) s).tree x ↔
      (Sem w s.tree x ∨ ∃ n ∈ ns, memN w n x)) := by
  induction ns with
  | nil =>
    intro _ s h
    refine ⟨h, ?_⟩
    intro x
    simp
  | cons a t ihn =>
    intro hns s h
    have ha : Pure w a := hns a (List.mem_cons_self a t)
    obtain ⟨h1, h2⟩ := insertNet_ok w s a h ha
    obtain ⟨ih1, ih2⟩ := ihn (fun n hn => hns n (List.mem_cons_of_mem a hn))
      (s.insertNet (some a)) h1
    rw [List.foldl_cons]
    refine ⟨ih1, ?_⟩
    intro x
    rw [ih2 x, h2 x]
    constructor
    · rintro ((h' | h') | ⟨c, hc, hcx⟩)
      · exact Or.inl h'
      · exact Or.inr ⟨a, List.mem_cons_self a t, h'⟩
      · exact Or.inr ⟨c, List.mem_cons_of_mem a hc, hcx⟩
    · rintro (h' | ⟨c, hc, hcx⟩)
      · exact Or.inl (Or.inl h')
      · rcases List.mem_cons.mp hc with rfl | hc'
        · exact Or.inl (Or.inr hcx)
        · exact Or.inr ⟨c, hc', hcx⟩

/-- A sequence of `InsertNet` calls starting from the empty set. -/
def insertAll (ns : List IPNet) : IPSet :=
  ns.foldl (fun s n => s.insertNet (some n)) ⟨.nil⟩

theorem insertAll_ok (w : Nat) (ns : List IPNet) (hns : ∀ n ∈ ns, Pure w n) :
    SetInv w (insertAll ns) ∧
    (∀ x, Sem w (insertAll ns).tree x ↔ ∃ n ∈ ns, memN w n x) := by
  obtain ⟨h1, h2⟩ := foldl_insert_ok w ns hns ⟨.nil⟩ (setInv_empty w)
  refine ⟨h1, ?_⟩
  intro x
  unfold insertAll
  rw [h2 x]
  constructor
  · rintro (⟨m, hm, _⟩ | h)
    · rw [show (⟨.nil⟩ : IPSet).tree = .nil from rfl, ipTree.walkNets] at hm
      exact absurd hm (List.not_mem_nil m)
    · exact h
  · exact Or.inr

/-- `Contains` on a well-formed set decides address membership. -/
theorem containsIP_sem (w : Nat) (s : IPSet) (hs : SInv w s.tree)
    (hw : w = 4 ∨ w = 16) (ip : List Nat) (hl : ip.length = w)
    (hok : bytesOK ip) (hmap : w = 16 → to4 ip = none) :
    (IPSet.containsIP (some s) ip = true ↔ Sem w s.tree (ipVal ip)) := by
  obtain ⟨hp, hol, hst⟩ := ipToNet_char w ip hw hl hok hmap
  show s.tree.contains (ipToNet ip) = true ↔ _
  rw [contains_sem w (ipToNet ip) hp s.tree hs]
  unfold Sem
  constructor
  · rintro ⟨m, hm, hcv⟩
    refine ⟨m, hm, ?_⟩
    rw [covers_iff_memN_start] at hcv
    rw [← hst]
    exact hcv.2
  · rintro ⟨m, hm, hmx⟩
    refine ⟨m, hm, ?_⟩
    rw [covers_iff_memN_start]
    have hm' : Pure w m := sinv_pure w s.tree hs m hm
    refine ⟨by rw [hol]; exact hm'.klen, ?_⟩
    rw [hst]
    exact hmx

/-- `Union` of well-formed sets: well-formed, and its addresses are exactly
the union of the operands' addresses. -/
theorem union_sem (w : Nat) (A B : IPSet) (hA : SetInv w A) (hB : SetInv w B) :
    SetInv w (A.union B) ∧
    (∀ x, Sem w (A.union B).tree x ↔ (Sem w A.tree x ∨ Sem w B.tree x)) := by
  have hAp : ∀ n ∈ A.tree.walkNets, Pure w n := sinv_pure w A.tree hA.1
  have hBp : ∀ n ∈ B.tree.walkNets, Pure w n := sinv_pure w B.tree hB.1
  obtain ⟨h1, h2⟩ := foldl_insert_ok w A.tree.walkNets hAp ⟨.nil⟩ (setInv_empty w)
  obtain ⟨h3, h4⟩ := foldl_insert_ok w B.tree.walkNets hBp
    (A.tree.walkNets.foldl (fun s n => s.insertNet (some n)) ⟨.nil⟩) h1
  refine ⟨h3, ?_⟩
  intro x
  unfold IPSet.union
  rw [h4 x, h2 x]
  have hnil : ¬ Sem w (⟨.nil⟩ : IPSet).tree x := by
    rintro ⟨m, hm, _⟩
    rw [show (⟨.nil⟩ : IPSet).tree = .nil from rfl, ipTree.walkNets] at hm
    exact absurd hm (List.not_mem_nil m)
  unfold Sem
  constructor
  · rintro ((h' | h') | h')
    · exact absurd h' hnil
    · exact Or.inl h'
    · exact Or.inr h'
  · rintro (h' | h')
    · exact Or.inl (Or.inr h')
    · exact Or.inr h'

/-! ## Claim C1 -/

/-- C1: after any sequence of `InsertNet` calls with canonical CIDRs of one
family starting from the empty set, the stored CIDRs are pairwise
non-containing and share no address, and `canCombineNets` fails on every
in-order-adjacent pair, in both orders.  Corrected: this holds for canonical
CIDRs that are not 16-byte v4-mapped; with a v4-mapped canonical CIDR in the
sequence the containment test inside `insert` misjudges a containing pair and
the tree can hold one node's CIDR inside another's (see the
counterexample). -/
theorem claim_C1 (w : Nat) (ns : List IPNet) (hns : ∀ n ∈ ns, Pure w n) :
    (∀ x ∈ (insertAll ns).tree.walkNets, ∀ y ∈ (insertAll ns).tree.walkNets,
      x ≠ y → ¬ covers w x y ∧ ∀ a : Nat, ¬ (memN w x a ∧ memN w y a)) ∧
    (∀ i (hi : i + 1 < (insertAll ns).tree.walkNets.length),
      canCombineNets ((insertAll ns).tree.walkNets.get ⟨i, Nat.lt_of_succ_lt hi⟩)
        ((insertAll ns).tree.walkNets.get ⟨i + 1, hi⟩) = none ∧
      canCombineNets ((insertAll ns).tree.walkNets.get ⟨i + 1, hi⟩)
        ((insertAll ns).tree.walkNets.get ⟨i, Nat.lt_of_succ_lt hi⟩) = none) := by
  obtain ⟨⟨hS, hNC⟩, _⟩ := insertAll_ok w ns hns
  constructor
  · intro x hx y hy hne
    refine ⟨nodes_not_covers w _ hS x hx y hy hne, ?_⟩
    intro a ha
    have hx' : Pure w x := sinv_pure w _ hS x hx
    have hy' : Pure w y := sinv_pure w _ hS y hy
    rcases overlap_nest w x y hx'.toCanon hy'.toCanon a ha.1 ha.2 with h | h
    · exact nodes_not_covers w _ hS x hx y hy hne h
    · exact nodes_not_covers w _ hS y hy x hx (fun he => hne he.symm) h
  · intro i hi
    have hmem1 : (insertAll ns).tree.walkNets.get ⟨i, Nat.lt_of_succ_lt hi⟩ ∈
        (insertAll ns).tree.walkNets := List.get_mem _ _ _
    have hmem2 : (insertAll ns).tree.walkNets.get ⟨i + 1, hi⟩ ∈
        (insertAll ns).tree.walkNets := List.get_mem _ _ _
    have hp1 : Pure w _ := sinv_pure w _ hS _ hmem1
    have hp2 : Pure w _ := sinv_pure w _ hS _ hmem2
    exact ⟨canCombine_none w _ _ hp1 hp2 (hNC _ hmem1 _ hmem2),
      canCombine_none w _ _ hp2 hp1 (hNC _ hmem2 _ hmem1)⟩

/-- C1 witness: inserting `10.0.0.0/32` and `10.0.0.2/32` leaves two
in-order-adjacent nodes on which `canCombineNets` fails both ways. -/
theorem claim_C1_witness :
    canCombineNets
      ((insertAll [⟨[10, 0, 0, 0], cidrMaskAux 32 4⟩,
        ⟨[10, 0, 0, 2], cidrMaskAux 32 4⟩]).tree.walkNets.get ⟨0, by decide⟩)
      ((insertAll [⟨[10, 0, 0, 0], cidrMaskAux 32 4⟩,
        ⟨[10, 0, 0, 2], cidrMaskAux 32 4⟩]).tree.walkNets.get ⟨1, by decide⟩) =
      none ∧
    canCombineNets
      ((insertAll [⟨[10, 0, 0, 0], cidrMaskAux 32 4⟩,
        ⟨[10, 0, 0, 2], cidrMaskAux 32 4⟩]).tree.walkNets.get ⟨1, by decide⟩)
      ((insertAll [⟨[10, 0, 0, 0], cidrMaskAux 32 4⟩,
        ⟨[10, 0, 0, 2], cidrMaskAux 32 4⟩]).tree.walkNets.get ⟨0, by decide⟩) =
      none :=
  (claim_C1 4 [⟨[10, 0, 0, 0], cidrMaskAux 32 4⟩, ⟨[10, 0, 0, 2], cidrMaskAux 32 4⟩]
    (by
      intro n hn
      rcases List.mem_cons.mp hn with rfl | hn
      · exact ⟨⟨Or.inl rfl, rfl, by unfold bytesOK; decide, by decide, by decide,
          by decide⟩, by decide⟩
      rcases List.mem_cons.mp hn with rfl | hn
      · exact ⟨⟨Or.inl rfl, rfl, by unfold bytesOK; decide, by decide, by decide,
          by decide⟩, by decide⟩
      · exact absurd hn (List.not_mem_nil n))).2 0 (by decide)

/-- C1 counterexample: inserting the canonical 16-byte CIDRs
`::ffff:0:0/128` (v4-mapped) and then `::/0` leaves both as separate nodes
although `::/0` contains the other: the containment test inside `insert`
returns false on the mixed pair. -/
theorem claim_C1_cex :
    Canon 16 ⟨[0, 0, 0, 0, 0, 0, 0, 0, 0, 0, 255, 255, 0, 0, 0, 0],
      cidrMaskAux 128 16⟩ ∧
    Canon 16 ⟨List.replicate 16 0, cidrMaskAux 0 16⟩ ∧
    (insertAll [⟨[0, 0, 0, 0, 0, 0, 0, 0, 0, 0, 255, 255, 0, 0, 0, 0],
        cidrMaskAux 128 16⟩,
      ⟨List.replicate 16 0, cidrMaskAux 0 16⟩]).tree.walkNets =
      [⟨List.replicate 16 0, cidrMaskAux 0 16⟩,
       ⟨[0, 0, 0, 0, 0, 0, 0, 0, 0, 0, 255, 255, 0, 0, 0, 0],
        cidrMaskAux 128 16⟩] ∧
    covers 16 ⟨List.replicate 16 0, cidrMaskAux 0 16⟩
      ⟨[0, 0, 0, 0, 0, 0, 0, 0, 0, 0, 255, 255, 0, 0, 0, 0],
        cidrMaskAux 128 16⟩ := by
  refine ⟨⟨Or.inr rfl, rfl, by unfold bytesOK; decide, by decide, by decide,
      by decide⟩,
    ⟨Or.inr rfl, rfl, by unfold bytesOK; decide, by decide, by decide,
      by decide⟩,
    by decide, ⟨by decide, by unfold start szE; decide⟩⟩

/-! ## Claim C6 -/

/-- C6: for well-formed sets of one family, `Union` is well-formed and holds
an address exactly when one operand does; observationally it is commutative
and idempotent, and `Contains` on the union of two sets decides exactly the
disjunction of the operands' `Contains`.  Corrected: the operands' stored
CIDRs must be canonical and not 16-byte v4-mapped (`SetInv`); with a
v4-mapped member, the two orders of `Union` give sets that answer `Contains`
differently (see the counterexample). -/
theorem claim_C6 (w : Nat) (A B : IPSet) (hw : w = 4 ∨ w = 16)
    (hA : SetInv w A) (hB : SetInv w B) :
    SetInv w (A.union B) ∧
    (∀ x : Nat, Sem w (A.union B).tree x ↔ (Sem w A.tree x ∨ Sem w B.tree x)) ∧
    (∀ x : Nat, Sem w (A.union B).tree x ↔ Sem w (B.union A).tree x) ∧
    (∀ x : Nat, Sem w (A.union A).tree x ↔ Sem w A.tree x) ∧
    (∀ ip : List Nat, ip.length = w → bytesOK ip → (w = 16 → to4 ip = none) →
      (IPSet.containsIP (some (A.union B)) ip = true ↔
        (IPSet.containsIP (some A) ip = true ∨
         IPSet.containsIP (some B) ip = true))) := by
  obtain ⟨hU, hUsem⟩ := union_sem w A B hA hB
  obtain ⟨_, hUsem'⟩ := union_sem w B A hB hA
  obtain ⟨_, hUsemA⟩ := union_sem w A A hA hA
  refine ⟨hU, hUsem, ?_, ?_, ?_⟩
  · intro x
    rw [hUsem x, hUsem' x]
    exact Or.comm
  · intro x
    rw [hUsemA x]
    exact or_self_iff
  · intro ip hl hok hmap
    rw [containsIP_sem w (A.union B) hU.1 hw ip hl hok hmap,
      containsIP_sem w A hA.1 hw ip hl hok hmap,
      containsIP_sem w B hB.1 hw ip hl hok hmap, hUsem (ipVal ip)]

/-- C6 witness: the union of `{10.0.0.0/24}` and `{10.1.0.0/24}` contains the
address `10.1.0.5`. -/
theorem claim_C6_witness :
    IPSet.containsIP
      (some ((insertAll [⟨[10, 0, 0, 0], cidrMaskAux 24 4⟩]).union
        (insertAll [⟨[10, 1, 0, 0], cidrMaskAux 24 4⟩]))) [10, 1, 0, 5] = true := by
  have hA := (insertAll_ok 4 [⟨[10, 0, 0, 0], cidrMaskAux 24 4⟩]
    (by
      intro n hn
      rcases List.mem_cons.mp hn with rfl | hn
      · exact ⟨⟨Or.inl rfl, rfl, by unfold bytesOK; decide, by decide, by decide,
          by decide⟩, by decide⟩
      · exact absurd hn (List.not_mem_nil n))).1
  have hB := (insertAll_ok 4 [⟨[10, 1, 0, 0], cidrMaskAux 24 4⟩]
    (by
      intro n hn
      rcases List.mem_cons.mp hn with rfl | hn
      · exact ⟨⟨Or.inl rfl, rfl, by unfold bytesOK; decide, by decide, by decide,
          by decide⟩, by decide⟩
      · exact absurd hn (List.not_mem_nil n))).1
  exact ((claim_C6 4 _ _ (Or.inl rfl) hA hB).2.2.2.2 [10, 1, 0, 5] rfl
    (by unfold bytesOK; decide) (by decide)).mpr (Or.inr (by decide))

/-- C6 counterexample: with the canonical v4-mapped member `::ffff:0:0/96`,
`Union` is not commutative observationally: querying `2001::1` gives
different answers for the two orders (the mixed-pair containment test makes
the search descend the wrong way in one shape). -/
theorem claim_C6_cex :
    Canon 16 ⟨[0, 0, 0, 0, 0, 0, 0, 0, 0, 0, 255, 255, 0, 0, 0, 0],
      cidrMaskAux 96 16⟩ ∧
    Canon 16 ⟨List.replicate 16 0, cidrMaskAux 0 16⟩ ∧
    IPSet.containsIP
      (some ((insertAll [⟨[0, 0, 0, 0, 0, 0, 0, 0, 0, 0, 255, 255, 0, 0, 0, 0],
          cidrMaskAux 96 16⟩]).union
        (insertAll [⟨List.replicate 16 0, cidrMaskAux 0 16⟩])))
      [32, 1, 0, 0, 0, 0, 0, 0, 0, 0, 0, 0, 0, 0, 0, 1] = false ∧
    IPSet.containsIP
      (some ((insertAll [⟨List.replicate 16 0, cidrMaskAux 0 16⟩]).union
        (insertAll [⟨[0, 0, 0, 0, 0, 0, 0, 0, 0, 0, 255, 255, 0, 0, 0, 0],
          cidrMaskAux 96 16⟩])))
      [32, 1, 0, 0, 0, 0, 0, 0, 0, 0, 0, 0, 0, 0, 0, 1] = true := by
  refine ⟨⟨Or.inr rfl, rfl, by unfold bytesOK; decide, by decide, by decide,
      by decide⟩,
    ⟨Or.inr rfl, rfl, by unfold bytesOK; decide, by decide, by decide,
      by decide⟩, by decide, by decide⟩

/-! ## `containsNet` on disjoint canonical nets, v4-mapped cases included -/

theorem cidrMaskAux_drop (j : Nat) :
    ∀ l k, 8 * j ≤ k → (cidrMaskAux k (j + l)).drop j = cidrMaskAux (k - 8 * j) l := by
  induction j with
  | zero =>
    intro l k _
    simp
  | succ j ih =>
    intro l k hk
    rw [show (j + 1) + l = (j + l) + 1 from by omega]
    rw [show cidrMaskAux k ((j + l) + 1) = 255 :: cidrMaskAux (k - 8) (j + l) from by
      rw [cidrMaskAux]
      rw [if_pos (show 8 ≤ k from by omega)]]
    rw [List.drop_succ_cons, ih l (k - 8) (by omega)]
    congr 1
    omega

theorem to4_mapped_eq (ip : List Nat) (hlen : ip.length = 16)
    (hm : to4 ip ≠ none) : to4 ip = some (ip.drop 12) := by
  unfold to4 at hm ⊢
  rw [if_neg (show ¬ ip.length = 4 from by omega)] at hm ⊢
  by_cases hc : ip.length = 16 ∧ ip.take 10 = List.replicate 10 0 ∧
      ip.getD 10 0 = 255 ∧ ip.getD 11 0 = 255
  · rw [if_pos hc]
  · rw [if_neg hc] at hm
    exact absurd rfl hm

/-- A canonical 16-byte net whose address is v4-mapped has prefix length at
least 96. -/
theorem mapped_olen (a : IPNet) (ha : Canon 16 a) (hm : to4 a.ip ≠ none) :
    96 ≤ olen a := by
  have hv : ipVal a.ip / 2 ^ 32 = 65535 := by
    by_contra h
    exact hm ((to4_char a.ip ha.iplen ha.ipok).mpr h)
  by_contra hk
  have h33 : ipVal a.ip % 2 ^ 33 = 0 := by
    refine mod_pow_zero_step _ _ _ ?_ ha.hostz
    have := ha.klen
    omega
  obtain ⟨c, hc⟩ := Nat.dvd_of_mod_eq_zero h33
  rw [hc, show (2 : Nat) ^ 33 * c = 2 ^ 32 * (2 * c) from by ring,
    Nat.mul_div_cancel_left _ (by norm_num)] at hv
  omega

theorem ipVal_low32 (ip : List Nat) (hlen : ip.length = 16) (hok : bytesOK ip) :
    ipVal (ip.drop 12) = ipVal ip % 2 ^ 32 := by
  have hsplit : ip = ip.take 12 ++ ip.drop 12 := (List.take_append_drop 12 ip).symm
  have hlen2 : (ip.drop 12).length = 4 := by rw [List.length_drop]; omega
  have hok2 : bytesOK (ip.drop 12) := fun z hz => hok z (List.mem_of_mem_drop hz)
  have hlt : ipVal (ip.drop 12) < 2 ^ 32 := by
    have := ipVal_lt (ip.drop 12) hok2
    rw [hlen2] at this
    norm_num at this
    omega
  conv_rhs => rw [hsplit]
  rw [ipVal_append, hlen2]
  rw [show (256 : Nat) ^ 4 = 2 ^ 32 from by norm_num]
  rw [Nat.mul_comm, Nat.mul_add_mod]
  rw [Nat.mod_eq_of_lt hlt]

/-- `networkNumberAndMask` on a canonical v4-mapped net truncates both the
address and the mask to their last 4 bytes. -/
theorem nnm_mapped (a : IPNet) (ha : Canon 16 a) (hm : to4 a.ip ≠ none) :
    networkNumberAndMask a = some (a.ip.drop 12, a.mask.drop 12) := by
  have hmlen : a.mask.length = 16 := by
    rw [ha.maskc, cidrMaskAux_length]
  have hdlen : (a.ip.drop 12).length = 4 := by
    rw [List.length_drop, ha.iplen]
  unfold networkNumberAndMask
  rw [to4_mapped_eq a.ip ha.iplen hm]
  simp only [hmlen, hdlen]
  norm_num

theorem mask_drop12 (a : IPNet) (ha : Canon 16 a) (hk : 96 ≤ olen a) :
    a.mask.drop 12 = cidrMaskAux (olen a - 96) 4 := by
  rw [ha.maskc, show (16 : Nat) = 12 + 4 from rfl,
    cidrMaskAux_drop 12 4 (olen a) (by omega)]

/-- `IPNet.Contains` between a v4-mapped canonical net and a v4-mapped query
compares the low 32 bits under the truncated mask. -/
theorem ipnetContains_mapped (a : IPNet) (ha : Canon 16 a)
    (ham : to4 a.ip ≠ none) (q : List Nat) (hqlen : q.length = 16)
    (hqok : bytesOK q) (hqm : to4 q ≠ none) :
    (ipnetContains a q = true ↔
      ipVal q % 2 ^ 32 / szE 16 a = ipVal a.ip % 2 ^ 32 / szE 16 a) := by
  have hk96 := mapped_olen a ha ham
  have hk128 : olen a ≤ 8 * 16 := ha.klen
  have hdlen : (a.ip.drop 12).length = 4 := by
    rw [List.length_drop, ha.iplen]
  have hqdlen : (q.drop 12).length = 4 := by
    rw [List.length_drop, hqlen]
  have hdok : bytesOK (a.ip.drop 12) := fun z hz => ha.ipok z (List.mem_of_mem_drop hz)
  have hqdok : bytesOK (q.drop 12) := fun z hz => hqok z (List.mem_of_mem_drop hz)
  have hszE : szE 16 a = 2 ^ (8 * 4 - (olen a - 96)) := by
    unfold szE
    congr 1
    omega
  unfold ipnetContains
  rw [nnm_mapped a ha ham, to4_mapped_eq q hqlen hqm]
  simp only [Option.getD_some]
  rw [if_neg (by rw [hdlen, hqdlen]; simp)]
  rw [mask_drop12 a ha hk96]
  rw [show List.zipWith (fun a b => a &&& b) (a.ip.drop 12)
      (cidrMaskAux (olen a - 96) 4) =
      List.zipWith (fun a b => a &&& b) (a.ip.drop 12)
      (cidrMaskAux (olen a - 96) (a.ip.drop 12).length) from by rw [hdlen]]
  rw [show List.zipWith (fun a b => a &&& b) (q.drop 12)
      (cidrMaskAux (olen a - 96) 4) =
      List.zipWith (fun a b => a &&& b) (q.drop 12)
      (cidrMaskAux (olen a - 96) (q.drop 12).length) from by rw [hqdlen]]
  rw [beq_iff_eq]
  constructor
  · intro h
    have h' := congrArg ipVal h
    rw [maskedVal _ _ hdok (by rw [hdlen]; omega),
      maskedVal _ _ hqdok (by rw [hqdlen]; omega)] at h'
    rw [hdlen, hqdlen] at h'
    rw [ipVal_low32 a.ip ha.iplen ha.ipok, ipVal_low32 q hqlen hqok] at h'
    rw [hszE]
    exact Nat.eq_of_mul_eq_mul_right (Nat.pos_pow_of_pos _ (by norm_num)) h'.symm
  · intro h
    rw [hszE] at h
    refine ipVal_inj _ _ ?_ (bytesOK_zipand _ _ hdok) (bytesOK_zipand _ _ hqdok) ?_
    · rw [List.length_zipWith, List.length_zipWith, cidrMaskAux_length,
        cidrMaskAux_length, hdlen, hqdlen]
    · rw [maskedVal _ _ hdok (by rw [hdlen]; omega),
        maskedVal _ _ hqdok (by rw [hqdlen]; omega),
        hdlen, hqdlen, ipVal_low32 a.ip ha.iplen ha.ipok,
        ipVal_low32 q hqlen hqok, h]

theorem netOK_of_canon (w : Nat) (a : IPNet) (ha : Canon w a)
    (hm : w = 16 → to4 a.ip = none) : NetOK w a :=
  ⟨ha.hw, ha.iplen, ha.ipok, ha.klen, ha.maskc, hm⟩

/-- `containsNet` is false on any two disjoint canonical nets, whether or
not either of them is v4-mapped. -/
theorem containsNet_disjoint (w : Nat) (a b : IPNet) (ha : Canon w a)
    (hb : Canon w b) (hd : before w a b ∨ before w b a) :
    containsNet a b = false := by
  have hipc : ipnetContains a b.ip = false := by
    rcases Bool.eq_false_or_eq_true (ipnetContains a b.ip) with h | h
    swap
    · exact h
    exfalso
    rcases ha.hw with hw | hw
    · subst hw
      have hok : NetOK 4 a := netOK_of_canon 4 a ha (fun h16 => absurd h16 (by omega))
      rw [ipnetContains_pure 4 a hok b.ip hb.iplen hb.ipok
        (fun h16 => absurd h16 (by omega))] at h
      have hmem : memN 4 a (start b) := h
      rw [memN_iff 4 a ha (start b)] at hmem
      have hsb := szE_pos 4 b
      unfold before at hd
      omega
    · subst hw
      by_cases hma : to4 a.ip = none
      · by_cases hmb : to4 b.ip = none
        · have hok : NetOK 16 a := netOK_of_canon 16 a ha (fun _ => hma)
          rw [ipnetContains_pure 16 a hok b.ip hb.iplen hb.ipok
            (fun _ => hmb)] at h
          have hmem : memN 16 a (start b) := h
          rw [memN_iff 16 a ha (start b)] at hmem
          have hsb := szE_pos 16 b
          unfold before at hd
          omega
        · have hok : NetOK 16 a := netOK_of_canon 16 a ha (fun _ => hma)
          unfold ipnetContains at h
          rw [nnm_pure 16 a hok, to4_mapped_eq b.ip hb.iplen hmb] at h
          simp only [Option.getD_some] at h
          rw [if_pos (by
            rw [ha.iplen, List.length_drop, hb.iplen]
            decide)] at h
          exact absurd h (by decide)
      · by_cases hmb : to4 b.ip = none
        · unfold ipnetContains at h
          rw [nnm_mapped a ha hma, hmb] at h
          simp only [Option.getD_some, Option.getD_none] at h
          rw [if_pos (by
            rw [List.length_drop, ha.iplen, hb.iplen]
            decide)] at h
          exact absurd h (by decide)
        · rw [ipnetContains_mapped a ha hma b.ip hb.iplen hb.ipok hmb] at h
          have hk96 := mapped_olen a ha hma
          have hk128 : olen a ≤ 8 * 16 := ha.klen
          have hva : ipVal a.ip / 2 ^ 32 = 65535 := by
            by_contra hvv
            exact hma ((to4_char a.ip ha.iplen ha.ipok).mpr hvv)
          have hvb : ipVal b.ip / 2 ^ 32 = 65535 := by
            by_contra hvv
            exact hmb ((to4_char b.ip hb.iplen hb.ipok).mpr hvv)
          have hEpos : 0 < szE 16 a := szE_pos 16 a
          have hE32 : szE 16 a ∣ 2 ^ 32 := by
            unfold szE
            exact pow_dvd_pow 2 (by omega)
          have hz : ipVal a.ip % szE 16 a = 0 := ha.hostz
          have hdvd : szE 16 a ∣ ipVal a.ip % 2 ^ 32 := by
            have h1 : szE 16 a ∣ ipVal a.ip := Nat.dvd_of_mod_eq_zero hz
            have h2 : szE 16 a ∣ 2 ^ 32 * (ipVal a.ip / 2 ^ 32) :=
              Dvd.dvd.mul_right hE32 _
            have h3 := Nat.div_add_mod (ipVal a.ip) (2 ^ 32)
            rw [show ipVal a.ip % 2 ^ 32 =
              ipVal a.ip - 2 ^ 32 * (ipVal a.ip / 2 ^ 32) from by omega]
            exact Nat.dvd_sub' h1 h2
          obtain ⟨qa, hqa⟩ := hdvd
          have hra : ipVal a.ip % 2 ^ 32 / szE 16 a = qa := by
            rw [hqa, Nat.mul_div_cancel_left _ hEpos]
          have hda := Nat.div_add_mod (ipVal a.ip) (2 ^ 32)
          have hdb := Nat.div_add_mod (ipVal b.ip) (2 ^ 32)
          rw [hva] at hda
          rw [hvb] at hdb
          unfold before start at hd
          rcases hd with hd | hd
          · have hsep : szE 16 a * (qa + 1) ≤ ipVal b.ip % 2 ^ 32 := by
              rw [Nat.mul_succ]
              omega
            have h5 : qa + 1 ≤ ipVal b.ip % 2 ^ 32 / szE 16 a :=
              (Nat.le_div_iff_mul_le hEpos).mpr (by rw [Nat.mul_comm]; exact hsep)
            rw [h, hra] at h5
            omega
          · have hEb := szE_pos 16 b
            have hlt2 : ipVal b.ip % 2 ^ 32 < szE 16 a * qa := by
              omega
            have h5 : ipVal b.ip % 2 ^ 32 / szE 16 a < qa :=
              (Nat.div_lt_iff_lt_mul hEpos).mpr (by rw [Nat.mul_comm] at hlt2; exact hlt2)
            rw [h, hra] at h5
            omega
  unfold containsNet
  rw [if_neg (by rw [ha.iplen, hb.iplen]; simp), hipc]
  rfl

/-! ## `removeNet` semantics on a tree of disjoint canonical nets -/

theorem memN_self (w : Nat) (b : IPNet) : memN w b (start b) := rfl

theorem disjN_before (w : Nat) (a b : IPNet) (ha : Canon w a) (hb : Canon w b)
    (hd : disjN w a b) : before w a b ∨ before w b a := by
  rcases net_trichotomy w a b ha hb with h | h | h | h
  · exact absurd ⟨memN_mono w a b ha hb h (start b) (memN_self w b),
      memN_self w b⟩ (hd (start b))
  · exact absurd ⟨memN_self w a,
      memN_mono w b a hb ha h (start a) (memN_self w a)⟩ (hd (start a))
  · exact Or.inl h
  · exact Or.inr h

theorem walkNets_ne_nil (l : ipTree) (m : IPNet) (r : ipTree) :
    (ipTree.node l m r).walkNets ≠ [] := by
  rw [ipTree.walkNets]
  intro h
  have := congrArg List.length h
  simp at this

theorem firstNet_head : ∀ t : ipTree, t.firstNet = t.walkNets.head? := by
  intro t
  induction t with
  | nil => rfl
  | node l m r ihl ihr =>
    cases l with
    | nil => rfl
    | node a b c =>
      obtain ⟨y, ys, hy⟩ : ∃ y ys, (ipTree.node a b c).walkNets = y :: ys := by
        cases h : (ipTree.node a b c).walkNets with
        | nil => exact absurd h (walkNets_ne_nil a b c)
        | cons y ys => exact ⟨y, ys, rfl⟩
      rw [ipTree.firstNet, ihl, hy, ipTree.walkNets, hy]
      rfl

theorem removeLeftmost_walk :
    ∀ t : ipTree, (ipTree.removeLeftmost t).walkNets = t.walkNets.tail := by
  intro t
  induction t with
  | nil => rfl
  | node l m r ihl ihr =>
    cases l with
    | nil => rfl
    | node a b c =>
      obtain ⟨y, ys, hy⟩ : ∃ y ys, (ipTree.node a b c).walkNets = y :: ys := by
        cases h : (ipTree.node a b c).walkNets with
        | nil => exact absurd h (walkNets_ne_nil a b c)
        | cons y ys => exact ⟨y, ys, rfl⟩
      rw [ipTree.removeLeftmost, ipTree.walkNets, ihl, hy,
        ipTree.walkNets, hy]
      rfl

theorem removeRoot_walk (l : ipTree) (m : IPNet) (r : ipTree) :
    (ipTree.removeRoot (ipTree.node l m r)).walkNets =
      l.walkNets ++ r.walkNets := by
  cases r with
  | nil =>
    cases l with
    | nil => rfl
    | node a b c =>
      show (ipTree.node a b c).walkNets =
        (ipTree.node a b c).walkNets ++ ipTree.nil.walkNets
      rw [ipTree.walkNets]
      rw [List.append_nil]
  | node rl rm rr =>
    cases l with
    | nil => rfl
    | node a b c =>
      obtain ⟨y, ys, hy⟩ : ∃ y ys, (ipTree.node rl rm rr).walkNets = y :: ys := by
        cases h : (ipTree.node rl rm rr).walkNets with
        | nil => exact absurd h (walkNets_ne_nil rl rm rr)
        | cons y ys => exact ⟨y, ys, rfl⟩
      show ((ipTree.node (ipTree.node a b c) ((ipTree.node rl rm rr).firstNet.getD m)
        (ipTree.removeLeftmost (ipTree.node rl rm rr)))).walkNets = _
      rw [ipTree.walkNets, removeLeftmost_walk, firstNet_head, hy]
      rfl

/-- BST insertion of a net disjoint from every stored net just adds it: no
trimming happens and every stored net survives. -/
theorem insert_disjoint (w : Nat) (n : IPNet) (hn : Canon w n) :
    ∀ t : ipTree,
      (∀ m ∈ t.walkNets, Canon w m ∧ (before w n m ∨ before w m n)) →
      ∀ y, y ∈ (t.insert n).walkNets ↔ y = n ∨ y ∈ t.walkNets := by
  intro t
  induction t with
  | nil =>
    intro _ y
    show y ∈ (ipTree.node .nil n .nil).walkNets ↔ _
    rw [ipTree.walkNets, ipTree.walkNets, ipTree.walkNets]
    simp
  | node l m r ihl ihr =>
    intro hdis y
    have hm := hdis m (by rw [ipTree.walkNets]; simp)
    have hc1 : containsNet m n = false :=
      containsNet_disjoint w m n hm.1 hn
        (hm.2.elim (fun h => Or.inr h) (fun h => Or.inl h))
    have hc2 : containsNet n m = false :=
      containsNet_disjoint w n m hn hm.1 hm.2
    rw [ipTree.insert]
    rw [if_neg (by rw [hc1]; simp), if_neg (by rw [hc2]; simp)]
    by_cases hcmp : bytesCmp n.ip m.ip = .lt
    · rw [if_pos hcmp]
      rw [ipTree.walkNets, ipTree.walkNets]
      simp only [List.mem_append, List.mem_cons]
      rw [ihl (fun z hz => hdis z (by rw [ipTree.walkNets]; simp [hz])) y]
      tauto
    · rw [if_neg hcmp]
      rw [ipTree.walkNets, ipTree.walkNets]
      simp only [List.mem_append, List.mem_cons]
      rw [ihr (fun z hz => hdis z (by rw [ipTree.walkNets]; simp [hz])) y]
      tauto

/-- Folding disjoint insertions accumulates exactly the inserted nets. -/
theorem foldl_insert_mem (w : Nat) :
    ∀ (cs : List IPNet) (t : ipTree),
      (∀ c ∈ cs, Canon w c) → (∀ m ∈ t.walkNets, Canon w m) →
      (∀ c ∈ cs, ∀ m ∈ t.walkNets, before w c m ∨ before w m c) →
      cs.Pairwise (disjN w) →
      ∀ y, y ∈ (cs.foldl (fun t n => t.insert n) t).walkNets ↔
        y ∈ cs ∨ y ∈ t.walkNets := by
  intro cs
  induction cs with
  | nil =>
    intro t _ _ _ _ y
    simp
  | cons c cs ih =>
    intro t hcanon htc hdis hpw y
    rw [List.foldl_cons]
    have hcc : Canon w c := hcanon c (by simp)
    have hins := insert_disjoint w c hcc t
      (fun m hm => ⟨htc m hm, (hdis c (by simp) m hm).elim
        (fun h => Or.inl h) (fun h => Or.inr h)⟩)
    have hstep : ∀ z ∈ cs, ∀ m ∈ (t.insert c).walkNets,
        before w z m ∨ before w m z := by
      intro z hz m hm
      rcases (hins m).mp hm with he | hm'
      · subst he
        have hzc : disjN w z m :=
          disjN_symm w m z (List.rel_of_pairwise_cons hpw hz)
        exact disjN_before w z m (hcanon z (by simp [hz])) hcc hzc
      · exact hdis z (by simp [hz]) m hm'
    rw [ih (t.insert c) (fun z hz => hcanon z (by simp [hz]))
      (fun m hm => (hins m).mp hm |>.elim
        (fun he => by rw [he]; exact hcc) (fun hm' => htc m hm'))
      hstep (List.Pairwise.of_cons hpw) y]
    rw [hins y, List.mem_cons]
    tauto

theorem sem_node (w : Nat) (l : ipTree) (m : IPNet) (r : ipTree) (x : Nat) :
    Sem w (ipTree.node l m r) x ↔ Sem w l x ∨ memN w m x ∨ Sem w r x := by
  unfold Sem
  rw [ipTree.walkNets]
  constructor
  · rintro ⟨z, hz, hxz⟩
    rw [List.mem_append, List.mem_cons] at hz
    rcases hz with hz | hz | hz
    · exact Or.inl ⟨z, hz, hxz⟩
    · exact Or.inr (Or.inl (hz ▸ hxz))
    · exact Or.inr (Or.inr ⟨z, hz, hxz⟩)
  · rintro (⟨z, hz, hxz⟩ | hmx | ⟨z, hz, hxz⟩)
    · exact ⟨z, by rw [List.mem_append]; exact Or.inl hz, hxz⟩
    · exact ⟨m, by rw [List.mem_append, List.mem_cons]; exact Or.inr (Or.inl rfl), hmx⟩
    · exact ⟨z, by rw [List.mem_append, List.mem_cons]; exact Or.inr (Or.inr hz), hxz⟩

theorem sem_nil (w : Nat) (x : Nat) : ¬ Sem w ipTree.nil x := by
  rintro ⟨z, hz, _⟩
  rw [ipTree.walkNets] at hz
  exact absurd hz (List.not_mem_nil z)

theorem netDifference_covered (a b : IPNet) (hlen : a.ip.length = b.ip.length)
    (h : containsNet b a = true) : netDifference a b = [] := by
  unfold netDifference
  obtain ⟨f, hf⟩ : ∃ f, 8 * a.ip.length + 1 = f + 1 := ⟨8 * a.ip.length, rfl⟩
  rw [hf, netDifferenceF_succ, if_neg (fun hc => hc hlen), if_pos h]

theorem netDifference_incomp (a b : IPNet) (hlen : a.ip.length = b.ip.length)
    (h1 : containsNet b a = false) (h2 : containsNet a b = false) :
    netDifference a b = [a] := by
  unfold netDifference
  obtain ⟨f, hf⟩ : ∃ f, 8 * a.ip.length + 1 = f + 1 := ⟨8 * a.ip.length, rfl⟩
  rw [hf, netDifferenceF_succ, if_neg (fun hc => hc hlen),
    if_neg (by rw [h1]; simp), if_pos (by rw [h2]; rfl)]

theorem removeNet_node (l : ipTree) (m : IPNet) (r : ipTree) (net : IPNet) :
    (ipTree.node l m r).removeNet net =
      (if containsNet net m then
        ipTree.removeRoot (ipTree.node
          (if bytesCmp net.ip m.ip = .lt then l.removeNet net else l) m
          (if (netDifference net m).any (fun n => bytesCmp m.ip n.ip = .lt)
            then r.removeNet net else r))
      else if containsNet m net then
        ((netDifference m net).drop 1).foldl (fun t n => t.insert n)
          (ipTree.node
            (if bytesCmp net.ip m.ip = .lt then l.removeNet net else l)
            ((netDifference m net).headD m)
            (if (netDifference net m).any (fun n => bytesCmp m.ip n.ip = .lt)
              then r.removeNet net else r))
      else ipTree.node
        (if bytesCmp net.ip m.ip = .lt then l.removeNet net else l) m
        (if (netDifference net m).any (fun n => bytesCmp m.ip n.ip = .lt)
          then r.removeNet net else r)) := rfl

/-- One `removeNet` of a canonical non-mapped CIDR on a tree of disjoint such
CIDRs: every surviving fragment is canonical and covered by an original node,
and the stored addresses are exactly the old ones minus the removed net's. -/
theorem removeNet_sem (w : Nat) (rmv : IPNet) (hr : Pure w rmv) :
    ∀ t, SInv w t →
      (∀ c ∈ (t.removeNet rmv).walkNets, Canon w c ∧
        ∃ z ∈ t.walkNets, covers w z c) ∧
      (∀ x, Sem w (t.removeNet rmv) x ↔ Sem w t x ∧ ¬ memN w rmv x) := by
  intro t
  induction t with
  | nil =>
    intro _
    constructor
    · intro c hc
      rw [show ipTree.nil.removeNet rmv = ipTree.nil from rfl,
        ipTree.walkNets] at hc
      exact absurd hc (List.not_mem_nil c)
    · intro x
      rw [show ipTree.nil.removeNet rmv = ipTree.nil from rfl]
      exact ⟨fun h => absurd h (sem_nil w x),
        fun h => absurd h.1 (sem_nil w x)⟩
  | node l m r ihl ihr =>
    intro hS
    cases hS with
    | node hSl hSr hm hlm hmr =>
    obtain ⟨ihl1, ihl2⟩ := ihl hSl
    obtain ⟨ihr1, ihr2⟩ := ihr hSr
    rw [removeNet_node]
    set L := if bytesCmp rmv.ip m.ip = .lt then l.removeNet rmv else l with hL
    set R := if (netDifference rmv m).any (fun n => bytesCmp m.ip n.ip = .lt)
      then r.removeNet rmv else r with hR
    have hLfacts : (∀ c ∈ L.walkNets, Canon w c ∧
        ∃ z ∈ l.walkNets, covers w z c) ∧
        (∀ x, Sem w L x ↔ Sem w l x ∧ ¬ memN w rmv x) := by
      by_cases hg : bytesCmp rmv.ip m.ip = .lt
      · rw [hL, if_pos hg]
        exact ⟨ihl1, ihl2⟩
      · rw [hL, if_neg hg]
        refine ⟨fun c hc => ⟨(sinv_pure w l hSl c hc).toCanon,
          c, hc, covers_refl w c⟩, fun x => ?_⟩
        constructor
        · intro hx
          refine ⟨hx, fun hmem => ?_⟩
          obtain ⟨z, hz, hxz⟩ := hx
          have hzP := sinv_pure w l hSl z hz
          have hbzm := hlm z hz
          rw [memN_iff w z hzP.toCanon] at hxz
          rw [memN_iff w rmv hr.toCanon] at hmem
          have hge : ¬ start rmv < start m := fun hlt =>
            hg (((bytesCmp_start w rmv m (hr.netOK w rmv) (hm.netOK w m)).1).mpr hlt)
          unfold before at hbzm
          omega
        · exact fun hx => hx.1
    have hRfacts : (∀ c ∈ R.walkNets, Canon w c ∧
        ∃ z ∈ r.walkNets, covers w z c) ∧
        (∀ x, Sem w R x ↔ Sem w r x ∧ ¬ memN w rmv x) := by
      by_cases hg : (netDifference rmv m).any
          (fun n => bytesCmp m.ip n.ip = .lt) = true
      · rw [hR, if_pos hg]
        exact ⟨ihr1, ihr2⟩
      · rw [hR, if_neg hg]
        refine ⟨fun c hc => ⟨(sinv_pure w r hSr c hc).toCanon,
          c, hc, covers_refl w c⟩, fun x => ?_⟩
        have hnolt : ∀ n ∈ netDifference rmv m, ¬ bytesCmp m.ip n.ip = .lt := by
          intro n hn hlt
          apply hg
          rw [List.any_eq_true]
          exact ⟨n, hn, by rw [hlt]; rfl⟩
        have hkey : ∀ y, memN w rmv y → y < start m + szE w m := by
          intro y hy
          rcases net_trichotomy w rmv m hr.toCanon hm.toCanon with hcov | hcov | hb | hb
          · by_cases hcov2 : covers w m rmv
            · have := memN_mono w m rmv hm.toCanon hr.toCanon hcov2 y hy
              rw [memN_iff w m hm.toCanon] at this
              exact this.2
            · have hfr := netDifference_frags w rmv m hr hm hcov
              rcases (hfr.union y).mp hy with hym | ⟨c, hc, hyc⟩
              · rw [memN_iff w m hm.toCanon] at hym
                exact hym.2
              · have hcC := hfr.canon c hc
                have hnlt : ¬ (start m < start c) := fun hlt =>
                  (hnolt c hc) ((bytesCmp_lt_iff m.ip c.ip
                    (by rw [hm.iplen, hcC.iplen]) hm.ipok hcC.ipok).mpr hlt)
                rcases disjN_before w c m hcC hm.toCanon (hfr.disjB c hc) with hb' | hb'
                · rw [memN_iff w c hcC] at hyc
                  unfold before at hb'
                  have := szE_pos w m
                  omega
                · unfold before at hb'
                  have := szE_pos w m
                  omega
          · have := memN_mono w m rmv hm.toCanon hr.toCanon hcov y hy
            rw [memN_iff w m hm.toCanon] at this
            exact this.2
          · rw [memN_iff w rmv hr.toCanon] at hy
            unfold before at hb
            have := szE_pos w m
            omega
          · exfalso
            have hc1 : containsNet m rmv = false :=
              containsNet_disjoint w m rmv hm.toCanon hr.toCanon (Or.inl hb)
            have hc2 : containsNet rmv m = false :=
              containsNet_disjoint w rmv m hr.toCanon hm.toCanon (Or.inr hb)
            have hdiff : netDifference rmv m = [rmv] :=
              netDifference_incomp rmv m (by rw [hr.iplen, hm.iplen]) hc1 hc2
            have hltx : bytesCmp m.ip rmv.ip = .lt :=
              (bytesCmp_lt_iff m.ip rmv.ip (by rw [hm.iplen, hr.iplen])
                hm.ipok hr.ipok).mpr (by
                  unfold before start at hb
                  have := szE_pos w m
                  omega)
            exact hnolt rmv (by rw [hdiff]; exact List.mem_singleton.mpr rfl) hltx
        constructor
        · intro hx
          refine ⟨hx, fun hmem => ?_⟩
          obtain ⟨z, hz, hxz⟩ := hx
          have hzP := sinv_pure w r hSr z hz
          have hbmz := hmr z hz
          rw [memN_iff w z hzP.toCanon] at hxz
          have := hkey x hmem
          unfold before at hbmz
          omega
        · exact fun hx => hx.1
    by_cases hA : containsNet rmv m = true
    · rw [if_pos hA]
      have hcovA : covers w rmv m := (containsNet_pure w rmv m hr hm).mp hA
      constructor
      · intro c hc
        rw [removeRoot_walk, List.mem_append] at hc
        rcases hc with hc | hc
        · obtain ⟨hC, z, hz, hcov⟩ := hLfacts.1 c hc
          exact ⟨hC, z, by
            rw [ipTree.walkNets, List.mem_append]
            exact Or.inl hz, hcov⟩
        · obtain ⟨hC, z, hz, hcov⟩ := hRfacts.1 c hc
          exact ⟨hC, z, by
            rw [ipTree.walkNets, List.mem_append, List.mem_cons]
            exact Or.inr (Or.inr hz), hcov⟩
      · intro x
        have hsem : Sem w (ipTree.removeRoot (ipTree.node L m R)) x ↔
            Sem w L x ∨ Sem w R x := by
          unfold Sem
          rw [removeRoot_walk]
          constructor
          · rintro ⟨z, hz, hxz⟩
            rw [List.mem_append] at hz
            rcases hz with hz | hz
            · exact Or.inl ⟨z, hz, hxz⟩
            · exact Or.inr ⟨z, hz, hxz⟩
          · rintro (⟨z, hz, hxz⟩ | ⟨z, hz, hxz⟩)
            · exact ⟨z, List.mem_append.mpr (Or.inl hz), hxz⟩
            · exact ⟨z, List.mem_append.mpr (Or.inr hz), hxz⟩
        rw [hsem, hLfacts.2 x, hRfacts.2 x, sem_node]
        have hmrm : memN w m x → memN w rmv x :=
          memN_mono w rmv m hr.toCanon hm.toCanon hcovA x
        constructor
        · rintro (⟨h1, h2⟩ | ⟨h1, h2⟩)
          · exact ⟨Or.inl h1, h2⟩
          · exact ⟨Or.inr (Or.inr h1), h2⟩
        · rintro ⟨h1 | h1 | h1, h2⟩
          · exact Or.inl ⟨h1, h2⟩
          · exact absurd (hmrm h1) h2
          · exact Or.inr ⟨h1, h2⟩
    · rw [if_neg hA]
      by_cases hB : containsNet m rmv = true
      · rw [if_pos hB]
        have hcovB : covers w m rmv := (containsNet_pure w m rmv hm hr).mp hB
        have holt : olen m < olen rmv := by
          rcases Nat.lt_or_ge (olen m) (olen rmv) with h | h
          · exact h
          · exfalso
            have he : olen m = olen rmv := by
              have := hcovB.1
              omega
            have hsz : szE w rmv = szE w m := by
              unfold szE
              rw [he]
            have : covers w rmv m := ⟨by omega, by rw [hsz, hcovB.2]⟩
            exact hA ((containsNet_pure w rmv m hr hm).mpr this)
        have hfr := netDifference_frags w m rmv hm hr hcovB
        have hlen := hfr.len
        obtain ⟨d0, rest, hdiff⟩ : ∃ d0 rest,
            netDifference m rmv = d0 :: rest := by
          cases hd : netDifference m rmv with
          | nil =>
            rw [hd] at hlen
            simp at hlen
            omega
          | cons d0 rest => exact ⟨d0, rest, rfl⟩
        have hd0mem : d0 ∈ netDifference m rmv := by
          rw [hdiff]
          exact List.mem_cons_self d0 rest
        have hrestmem : ∀ c ∈ rest, c ∈ netDifference m rmv := by
          intro c hc
          rw [hdiff]
          exact List.mem_cons_of_mem d0 hc
        rw [hdiff]
        simp only [List.drop_succ_cons, List.drop_zero, List.headD_cons]
        have hdisj : ∀ c ∈ rest, ∀ z ∈ (ipTree.node L d0 R).walkNets,
            before w c z ∨ before w z c := by
          intro c hc z hz
          have hcC : Canon w c := hfr.canon c (hrestmem c hc)
          have hcIn := hfr.inA c (hrestmem c hc)
          rw [covers_iff_interval w m c hm.toCanon hcC] at hcIn
          rw [ipTree.walkNets, List.mem_append, List.mem_cons] at hz
          rcases hz with hz | hz | hz
          · obtain ⟨hzC, zl, hzl, hzcov⟩ := hLfacts.1 z hz
            have hzlP := sinv_pure w l hSl zl hzl
            rw [covers_iff_interval w zl z hzlP.toCanon hzC] at hzcov
            have hbl := hlm zl hzl
            unfold before at hbl ⊢
            exact Or.inr (by omega)
          · have hdc : disjN w z c := by
              rw [hz]
              have hpw := hfr.pw
              rw [hdiff] at hpw
              exact List.rel_of_pairwise_cons hpw hc
            have hzC : Canon w z := by
              rw [hz]
              exact hfr.canon d0 hd0mem
            exact disjN_before w c z hcC hzC (disjN_symm w z c hdc)
          · obtain ⟨hzC, zr, hzr, hzcov⟩ := hRfacts.1 z hz
            have hzrP := sinv_pure w r hSr zr hzr
            rw [covers_iff_interval w zr z hzrP.toCanon hzC] at hzcov
            have hbr := hmr zr hzr
            unfold before at hbr ⊢
            exact Or.inl (by omega)
        have hmem := foldl_insert_mem w rest (ipTree.node L d0 R)
          (fun c hc => hfr.canon c (hrestmem c hc))
          (fun z hz => by
            rw [ipTree.walkNets, List.mem_append, List.mem_cons] at hz
            rcases hz with hz | hz | hz
            · exact (hLfacts.1 z hz).1
            · rw [hz]
              exact hfr.canon d0 hd0mem
            · exact (hRfacts.1 z hz).1)
          hdisj
          (by
            have hpw := hfr.pw
            rw [hdiff] at hpw
            exact List.Pairwise.of_cons hpw)
        constructor
        · intro c hc
          rcases (hmem c).mp hc with hc' | hc'
          · exact ⟨hfr.canon c (hrestmem c hc'), m, by
              rw [ipTree.walkNets, List.mem_append, List.mem_cons]
              exact Or.inr (Or.inl rfl), hfr.inA c (hrestmem c hc')⟩
          · rw [ipTree.walkNets, List.mem_append, List.mem_cons] at hc'
            rcases hc' with hc' | hc' | hc'
            · obtain ⟨hC, z, hz, hcov⟩ := hLfacts.1 c hc'
              exact ⟨hC, z, by
                rw [ipTree.walkNets, List.mem_append]
                exact Or.inl hz, hcov⟩
            · rw [hc']
              exact ⟨hfr.canon d0 hd0mem, m, by
                rw [ipTree.walkNets, List.mem_append, List.mem_cons]
                exact Or.inr (Or.inl rfl), hfr.inA d0 hd0mem⟩
            · obtain ⟨hC, z, hz, hcov⟩ := hRfacts.1 c hc'
              exact ⟨hC, z, by
                rw [ipTree.walkNets, List.mem_append, List.mem_cons]
                exact Or.inr (Or.inr hz), hcov⟩
        · intro x
          have hsemR : Sem w (rest.foldl (fun t n => t.insert n)
              (ipTree.node L d0 R)) x ↔
              (∃ c ∈ rest, memN w c x) ∨ Sem w (ipTree.node L d0 R) x := by
            unfold Sem
            constructor
            · rintro ⟨z, hz, hxz⟩
              rcases (hmem z).mp hz with hz' | hz'
              · exact Or.inl ⟨z, hz', hxz⟩
              · exact Or.inr ⟨z, hz', hxz⟩
            · rintro (⟨z, hz, hxz⟩ | ⟨z, hz, hxz⟩)
              · exact ⟨z, (hmem z).mpr (Or.inl hz), hxz⟩
              · exact ⟨z, (hmem z).mpr (Or.inr hz), hxz⟩
          rw [hsemR, sem_node, hLfacts.2 x, hRfacts.2 x, sem_node]
          have hiff : memN w m x ∧ ¬ memN w rmv x ↔
              memN w d0 x ∨ (∃ c ∈ rest, memN w c x) := by
            constructor
            · rintro ⟨hmx, hnr⟩
              rcases (hfr.union x).mp hmx with h | ⟨c, hc, hcx⟩
              · exact absurd h hnr
              · rw [hdiff] at hc
                rcases List.mem_cons.mp hc with he | hc'
                · exact Or.inl (he ▸ hcx)
                · exact Or.inr ⟨c, hc', hcx⟩
            · intro h
              have hex : ∃ c ∈ netDifference m rmv, memN w c x := by
                rcases h with h | ⟨c, hc, hcx⟩
                · exact ⟨d0, hd0mem, h⟩
                · exact ⟨c, hrestmem c hc, hcx⟩
              obtain ⟨c, hc, hcx⟩ := hex
              exact ⟨(hfr.union x).mpr (Or.inr ⟨c, hc, hcx⟩),
                fun hr' => hfr.disjB c hc x ⟨hcx, hr'⟩⟩
          constructor
          · rintro (hP | ⟨h1, h2⟩ | hD | ⟨h1, h2⟩)
            · have h2 := hiff.mpr (Or.inr hP)
              exact ⟨Or.inr (Or.inl h2.1), h2.2⟩
            · exact ⟨Or.inl h1, h2⟩
            · have h2 := hiff.mpr (Or.inl hD)
              exact ⟨Or.inr (Or.inl h2.1), h2.2⟩
            · exact ⟨Or.inr (Or.inr h1), h2⟩
          · rintro ⟨h1 | h1 | h1, h2⟩
            · exact Or.inr (Or.inl ⟨h1, h2⟩)
            · rcases hiff.mp ⟨h1, h2⟩ with hD | hP
              · exact Or.inr (Or.inr (Or.inl hD))
              · exact Or.inl hP
            · exact Or.inr (Or.inr (Or.inr ⟨h1, h2⟩))
      · rw [if_neg hB]
        have hdisjmr : disjN w m rmv := by
          have h1 : ¬ covers w rmv m := fun h =>
            hA ((containsNet_pure w rmv m hr hm).mpr h)
          have h2 : ¬ covers w m rmv := fun h =>
            hB ((containsNet_pure w m rmv hm hr).mpr h)
          rcases net_trichotomy w m rmv hm.toCanon hr.toCanon with h | h | h | h
          · exact absurd h h2
          · exact absurd h h1
          · exact before_disj w m rmv hm.toCanon hr.toCanon h
          · exact disjN_symm w rmv m (before_disj w rmv m hr.toCanon hm.toCanon h)
        constructor
        · intro c hc
          rw [ipTree.walkNets, List.mem_append, List.mem_cons] at hc
          rcases hc with hc | hc | hc
          · obtain ⟨hC, z, hz, hcov⟩ := hLfacts.1 c hc
            exact ⟨hC, z, by
              rw [ipTree.walkNets, List.mem_append]
              exact Or.inl hz, hcov⟩
          · rw [hc]
            exact ⟨hm.toCanon, m, by
              rw [ipTree.walkNets, List.mem_append, List.mem_cons]
              exact Or.inr (Or.inl rfl), covers_refl w m⟩
          · obtain ⟨hC, z, hz, hcov⟩ := hRfacts.1 c hc
            exact ⟨hC, z, by
              rw [ipTree.walkNets, List.mem_append, List.mem_cons]
              exact Or.inr (Or.inr hz), hcov⟩
        · intro x
          rw [sem_node, hLfacts.2 x, hRfacts.2 x, sem_node]
          have hdm : memN w m x → ¬ memN w rmv x :=
            fun h1 h2 => hdisjmr x ⟨h1, h2⟩
          constructor
          · rintro (⟨h1, h2⟩ | h1 | ⟨h1, h2⟩)
            · exact ⟨Or.inl h1, h2⟩
            · exact ⟨Or.inr (Or.inl h1), hdm h1⟩
            · exact ⟨Or.inr (Or.inr h1), h2⟩
          · rintro ⟨h1 | h1 | h1, h2⟩
            · exact Or.inl ⟨h1, h2⟩
            · exact Or.inr (Or.inl h1)
            · exact Or.inr (Or.inr ⟨h1, h2⟩)

end Netaddr
